import Mathlib

/-!
# The Snake game of lab2_4.1: circular queue, overlap queries and game loop

A shallow embedding of the fixed-capacity ring buffer that stores the snake's
body segments (circular_queue.h), of the two overlap queries and of the game loop
that uses them (main.c), followed by theorems about them.

Conventions of the embedding.

* `int16_t` values are modelled as `Int`.  The queue operations only compute
  `rear + 1` and `front + 1` (carried out in `int` after integer promotion, so
  they cannot overflow) and reduce them with `% QUEUESIZE`; the result has
  magnitude below 40 and is stored back into an `int16_t` without truncation.
  C's `%` truncates towards zero, which is `Int.tmod`.
* The backing array `Coordinat queue[QUEUESIZE]` is a function on
  `Fin QUEUESIZE`.  An access `q->queue[i]` with `i` outside `0 .. QUEUESIZE-1`
  is undefined behaviour in C; the operations that perform such an access
  return `none`.
* A C function that mutates `*q` and returns a value `r` becomes a function
  returning the pair `(q', r)`.
-/

namespace Lab2

/-! ## Data model -/

/-- The macro `QUEUESIZE` (circular_queue.h, line 3). -/
abbrev QUEUESIZE : Nat := 40

/-- The struct `Coordinat` (circular_queue.h, lines 5-9). -/
structure Coordinat where
  x : Int
  y : Int
deriving DecidableEq, Repr

/-- The struct `CircularQueue` (circular_queue.h, lines 10-15). -/
structure CircularQueue where
  front : Int
  rear : Int
  queue : Fin QUEUESIZE → Coordinat

/-- The array slot designated by the C index `i`, when `i` is within the bounds
of `queue[QUEUESIZE]`. -/
def slot? (i : Int) : Option (Fin QUEUESIZE) :=
  if h : 0 ≤ i ∧ i < (QUEUESIZE : Int) then some ⟨i.toNat, by omega⟩ else none

/-! ## Operations of circular_queue.h -/

/-- The function `check_full` (circular_queue.h, lines 105-112). -/
def check_full (q : CircularQueue) : Int :=
  if q.front = q.rear + 1 ∨ (q.front = 0 ∧ q.rear = (QUEUESIZE : Int) - 1) then 1 else 0

/-- The function `check_empty` (circular_queue.h, lines 115-122). -/
def check_empty (q : CircularQueue) : Int :=
  if q.front = -1 then 1 else 0

/-- The function `enqueue` (circular_queue.h, lines 125-144): the queue after the
call and the returned value. -/
def enqueue (q : CircularQueue) (x y : Int) : Option (CircularQueue × Int) :=
  if check_full q ≠ 0 then
    some (q, 0)
  else
    let front := if q.front = -1 then 0 else q.front
    let rear := Int.tmod (q.rear + 1) (QUEUESIZE : Int)
    match slot? rear with
    | none => none
    | some i =>
      some ({ front := front, rear := rear, queue := Function.update q.queue i ⟨x, y⟩ }, 1)

/-- The function `empty_queue` (circular_queue.h, lines 147-151). -/
def empty_queue (q : CircularQueue) : CircularQueue :=
  { q with front := -1, rear := -1 }

/-- The function `dequeue` (circular_queue.h, lines 154-179): the queue after the
call and the returned coordinate. -/
def dequeue (q : CircularQueue) : Option (CircularQueue × Coordinat) :=
  if check_empty q ≠ 0 then
    some (q, ⟨-1, -1⟩)
  else
    match slot? q.front with
    | none => none
    | some i =>
      let temp : Coordinat := ⟨(q.queue i).x, (q.queue i).y⟩
      if q.front = q.rear then
        some ({ q with front := -1, rear := -1 }, temp)
      else
        some ({ q with front := Int.tmod (q.front + 1) (QUEUESIZE : Int) }, temp)

/-! ## The head rectangle of the self-overlap query (lab2_4.1/main.c) -/

/-- The grlib rectangle type `tRectangle`, four `int16_t` fields, as it is used
in main.c. -/
structure tRectangle where
  i16XMin : Int
  i16YMin : Int
  i16XMax : Int
  i16YMax : Int
deriving DecidableEq, Repr

/-- Conversion of an `int` value to `int16_t` (two's complement wrap-around). -/
def wrap16 (v : Int) : Int := (v + 32768) % 65536 - 32768

/-- The rectangle `snake_head` that `check_rect_overlap_snake` builds from the
slot at `rear` before its loop (main.c, lines 89-93). -/
def snake_head (q : CircularQueue) (size : Int) : Option tRectangle :=
  match slot? q.rear with
  | none => none
  | some i =>
    some { i16XMin := (q.queue i).x
           i16YMin := (q.queue i).y
           i16XMax := wrap16 ((q.queue i).x + size)
           i16YMax := wrap16 ((q.queue i).y + size) }

/-! ## Logical contents of a queue state -/

/-- The array slot at index `i` taken modulo `QUEUESIZE`. -/
def wrapSlot (i : Int) : Fin QUEUESIZE :=
  ⟨(i % (QUEUESIZE : Int)).toNat, by simp only [QUEUESIZE, Nat.cast_ofNat]; omega⟩

/-- Number of coordinates between `front` and `rear` inclusive, walking forward
cyclically; zero when `front = -1`. -/
def count (q : CircularQueue) : Nat :=
  if q.front = -1 then 0 else ((q.rear - q.front) % (QUEUESIZE : Int)).toNat + 1

/-- The stored coordinates in logical order, from the slot at `front` to the slot
at `rear` (the order in which `print` walks the array). -/
def contents (q : CircularQueue) : List Coordinat :=
  (List.range (count q)).map fun (k : Nat) => q.queue (wrapSlot (q.front + (k : Int)))

/-- Every state the code can be in satisfies this: either the empty sentinel
`front = rear = -1`, or both indices inside the array. -/
def WellFormed (q : CircularQueue) : Prop :=
  (q.front = -1 ∧ q.rear = -1) ∨
    (0 ≤ q.front ∧ q.front < (QUEUESIZE : Int) ∧ 0 ≤ q.rear ∧ q.rear < (QUEUESIZE : Int))

/-! ## Sequences of calls -/

/-- One call made by a client of the queue. -/
inductive Op where
  | enq (x y : Int)
  | deq
  | clear
deriving DecidableEq, Repr

/-- The value a call returns. -/
inductive Ret where
  | enq (r : Int)
  | deq (c : Coordinat)
  | clear
deriving DecidableEq, Repr

/-- A queue together with the record of a run: the returned values in call order,
the arguments of the enqueue calls that returned 1, the results of the dequeue
calls made on a non-empty queue (`check_empty` was 0), and the number of
successful enqueues minus successful dequeues since the last `empty_queue`. -/
structure Run where
  q : CircularQueue
  rets : List Ret
  enqueued : List Coordinat
  dequeued : List Coordinat
  live : Int

/-- The start of a run: the empty queue `front = rear = -1` as set up in `main`
(main.c, lines 140-142), over an arbitrary uninitialised array `a`. -/
def Run.init (a : Fin QUEUESIZE → Coordinat) : Run :=
  { q := { front := -1, rear := -1, queue := a }
    rets := []
    enqueued := []
    dequeued := []
    live := 0 }

/-- Perform one call and record it. -/
def step (s : Run) : Op → Option Run
  | .enq x y =>
    match enqueue s.q x y with
    | none => none
    | some (q', r) =>
      some { q := q'
             rets := s.rets ++ [Ret.enq r]
             enqueued := if r = 1 then s.enqueued ++ [⟨x, y⟩] else s.enqueued
             dequeued := s.dequeued
             live := if r = 1 then s.live + 1 else s.live }
  | .deq =>
    match dequeue s.q with
    | none => none
    | some (q', c) =>
      some { q := q'
             rets := s.rets ++ [Ret.deq c]
             enqueued := s.enqueued
             dequeued := if check_empty s.q = 0 then s.dequeued ++ [c] else s.dequeued
             live := if check_empty s.q = 0 then s.live - 1 else s.live }
  | .clear =>
    some { q := empty_queue s.q
           rets := s.rets ++ [Ret.clear]
           enqueued := s.enqueued
           dequeued := s.dequeued
           live := 0 }

/-- Perform a sequence of calls, first to last. -/
def exec (s : Run) : List Op → Option Run
  | [] => some s
  | o :: os =>
    match step s o with
    | none => none
    | some s' => exec s' os

/-- A queue state is reachable when some sequence of `enqueue`, `dequeue` and
`empty_queue` calls leads to it from the empty queue. -/
def Reachable (q : CircularQueue) : Prop :=
  ∃ (a : Fin QUEUESIZE → Coordinat) (ops : List Op) (s : Run),
    exec (Run.init a) ops = some s ∧ s.q = q

/-! ## The list model of the specification -/

/-- One call on the bounded FIFO list of the specification: a successful enqueue
appends at the end, an enqueue on a list of `QUEUESIZE` elements is rejected, a
successful dequeue removes and returns the first element, a dequeue on the empty
list returns the sentinel, and clear empties the list. -/
def specStep (m : List Coordinat × List Ret) : Op → List Coordinat × List Ret
  | .enq x y =>
    if m.1.length < QUEUESIZE then (m.1 ++ [⟨x, y⟩], m.2 ++ [Ret.enq 1])
    else (m.1, m.2 ++ [Ret.enq 0])
  | .deq =>
    match m.1 with
    | [] => ([], m.2 ++ [Ret.deq ⟨-1, -1⟩])
    | c :: t => (t, m.2 ++ [Ret.deq c])
  | .clear => ([], m.2 ++ [Ret.clear])

/-- A sequence of calls on the list model. -/
def specExec (m : List Coordinat × List Ret) (ops : List Op) : List Coordinat × List Ret :=
  ops.foldl specStep m

/-- An array whose slots all hold `(0, 0)`, used to instantiate the theorems. -/
def zeroArray : Fin QUEUESIZE → Coordinat := fun _ => ⟨0, 0⟩

/-- The call sequence that enqueues the given coordinates in order. -/
def enqueueAll (cs : List Coordinat) : List Op :=
  cs.map fun c => Op.enq c.x c.y

/-- The queue of a round that has just started: the single segment `(60, 60)` in
slot 0 (main.c, lines 218-223). -/
def oneSegment : CircularQueue :=
  { front := 0, rear := 0, queue := Function.update zeroArray 0 ⟨60, 60⟩ }

/-! ## The overlap queries of lab2_4.1/main.c

`GrRectOverlapCheck` belongs to the vendor graphics library and is not part of
the repository: the queries take it as the parameter `ov`, a function of the two
rectangles it is handed whose result is tested against zero. -/

/-- The rectangle `snake_part` that both overlap loops build from the slot at
`temp` (main.c, lines 63-66 and 98-101); the two sums are stored in `int16_t`
fields. -/
def snake_part (q : CircularQueue) (size : Int) (i : Fin QUEUESIZE) : tRectangle :=
  { i16XMin := (q.queue i).x
    i16YMin := (q.queue i).y
    i16XMax := wrap16 ((q.queue i).x + size)
    i16YMax := wrap16 ((q.queue i).y + size) }

/-- The `while (temp != q->rear)` loop of `check_rect_overlap_food` (main.c, lines
61-74), entered with the given `temp`.  The first argument bounds the number of
times the loop condition is evaluated; the result is `none` when a slot outside
the array is read or when the bound is used up. -/
def food_loop (ov : tRectangle → tRectangle → Int) (q : CircularQueue) (size : Int)
    (food_rectangle : tRectangle) : Nat → Int → Option Int
  | 0, _ => none
  | fuel + 1, temp =>
    if temp ≠ q.rear then
      match slot? temp with
      | none => none
      | some i =>
        if ov food_rectangle (snake_part q size i) ≠ 0 then
          some 1
        else
          food_loop ov q size food_rectangle fuel (Int.tmod (temp + 1) (QUEUESIZE : Int))
    else
      some 0

/-- The function `check_rect_overlap_food` (main.c, lines 55-77).  A walk that
stays inside the array visits at most `QUEUESIZE` distinct slots before `temp`
repeats, so a loop that has not reached `rear` after `QUEUESIZE` evaluations of
its condition never does: `none` stands for an out-of-bounds read or a loop that
does not terminate. -/
def check_rect_overlap_food (ov : tRectangle → tRectangle → Int) (q : CircularQueue)
    (size : Int) (food_rectangle : tRectangle) : Option Int :=
  food_loop ov q size food_rectangle QUEUESIZE q.front

/-- The `while (temp != q->rear)` loop of `check_rect_overlap_snake` (main.c, lines
96-109), entered with the given `temp`; the bound is as in `food_loop`. -/
def snake_loop (ov : tRectangle → tRectangle → Int) (q : CircularQueue) (size : Int)
    (head : tRectangle) : Nat → Int → Option Int
  | 0, _ => none
  | fuel + 1, temp =>
    if temp ≠ q.rear then
      match slot? temp with
      | none => none
      | some i =>
        if ov head (snake_part q size i) ≠ 0 then
          some 1
        else
          snake_loop ov q size head fuel (Int.tmod (temp + 1) (QUEUESIZE : Int))
    else
      some 0

/-- The function `check_rect_overlap_snake` (main.c, lines 82-111): the head
rectangle is read from the slot at `rear`, then the loop runs from `front`. -/
def check_rect_overlap_snake (ov : tRectangle → tRectangle → Int) (q : CircularQueue)
    (size : Int) : Option Int :=
  match snake_head q size with
  | none => none
  | some head => snake_loop ov q size head QUEUESIZE q.front

/-- Modelled from the spec: the vendor function `GrRectOverlapCheck`, whose source
is not in the repository, as the inclusive axis-aligned intersection test: the
result is 0 when one rectangle lies entirely to one side of the other and 1
otherwise, so rectangles that share an edge overlap. -/
def GrRectOverlapCheck (r1 r2 : tRectangle) : Int :=
  if r1.i16XMax < r2.i16XMin ∨ r2.i16XMax < r1.i16XMin ∨
      r1.i16YMax < r2.i16YMin ∨ r2.i16YMax < r1.i16YMin then 0 else 1

/-! ## The queries in terms of the logical contents -/

/-- The square of side `size` whose corner is the coordinate `c`, as the
`int16_t` rectangle `[x, x + size] x [y, y + size]`. -/
def square (c : Coordinat) (size : Int) : tRectangle :=
  { i16XMin := c.x
    i16YMin := c.y
    i16XMax := wrap16 (c.x + size)
    i16YMax := wrap16 (c.y + size) }

/-- Whether `v` is a value of type `int16_t`. -/
def InInt16 (v : Int) : Prop := -32768 ≤ v ∧ v ≤ 32767

instance (v : Int) : Decidable (InInt16 v) :=
  inferInstanceAs (Decidable (-32768 ≤ v ∧ v ≤ 32767))

/-- The answer 1 when `ov` reports an overlap of `r` with the square of some
coordinate of the list, and 0 otherwise. -/
def overlapsAny (ov : tRectangle → tRectangle → Int) (r : tRectangle) (size : Int)
    (cs : List Coordinat) : Int :=
  if cs.any (fun c => decide (ov r (square c size) ≠ 0)) then 1 else 0

/-- The newest coordinate of a history against all the older ones; no answer for
the empty history. -/
def selfOverlap (ov : tRectangle → tRectangle → Int) (size : Int)
    (cs : List Coordinat) : Option Int :=
  match cs.getLast? with
  | none => none
  | some head => some (overlapsAny ov (square head size) size cs.dropLast)

/-- The queue of a round after a second enqueue of `(60, 60)`: the history
`(60, 60), (60, 60)`. -/
def twoSegments : CircularQueue :=
  { front := 0, rear := 1
    queue := Function.update (Function.update zeroArray 0 ⟨60, 60⟩) 1 ⟨60, 60⟩ }

/-! ## Observable behaviour of the queue interface -/

/-- One call of the interface that a client can observe: the operations of
circular_queue.h and the two overlap queries, with their arguments. -/
inductive Call where
  | enqueue (x y : Int)
  | dequeue
  | empty_queue
  | check_empty
  | check_full
  | check_rect_overlap_food (size : Int) (food_rectangle : tRectangle)
  | check_rect_overlap_snake (size : Int)
deriving DecidableEq, Repr

/-- The value a call hands back to the client. -/
inductive Obs where
  | int (r : Int)
  | coordinat (c : Coordinat)
  | void
deriving DecidableEq, Repr

/-- Perform one call: the queue afterwards and the returned value, or `none` when
the call has no defined result. -/
def call (ov : tRectangle → tRectangle → Int) (q : CircularQueue) :
    Call → Option (CircularQueue × Obs)
  | .enqueue x y => (enqueue q x y).map fun p => (p.1, Obs.int p.2)
  | .dequeue => (dequeue q).map fun p => (p.1, Obs.coordinat p.2)
  | .empty_queue => some (empty_queue q, Obs.void)
  | .check_empty => some (q, Obs.int (check_empty q))
  | .check_full => some (q, Obs.int (check_full q))
  | .check_rect_overlap_food size r =>
    (check_rect_overlap_food ov q size r).map fun v => (q, Obs.int v)
  | .check_rect_overlap_snake size =>
    (check_rect_overlap_snake ov q size).map fun v => (q, Obs.int v)

/-- The returned values of a sequence of calls, in order.  A call without a
defined result is recorded as `none` and ends the record, since nothing is
defined after it. -/
def observe (ov : tRectangle → tRectangle → Int) (q : CircularQueue) :
    List Call → List (Option Obs)
  | [] => []
  | c :: cs =>
    match call ov q c with
    | none => [none]
    | some (q', v) => some v :: observe ov q' cs

/-- Two queue states that agree on `front`, `rear` and on every live slot, and
may differ in the slots that hold no live coordinate. -/
def SameLive (q1 q2 : CircularQueue) : Prop :=
  WellFormed q1 ∧ q1.front = q2.front ∧ q1.rear = q2.rear ∧ contents q1 = contents q2

/-! ## The Snake game loop of lab2_4.1/main.c

The model keeps the variables of `main` that the game logic reads and writes.
Drawing, delays and the hardware set-up have no effect on them and are left out,
as are `old_snake_body` and `snake_rear`, which only feed the drawing calls.  The
joystick percentages and the food coordinates are the values that the
floating-point conversions store into `joystick_val_ver`, `joystick_val_hor`,
`food_.i16XMin` and `food_.i16YMin`; they are inputs of the model. -/

/-- The variable `snake_body_size` (main.c, line 137); it is never assigned. -/
abbrev snake_body_size : Int := 9

/-- The variable `food_size` (main.c, line 146); it is never assigned. -/
abbrev food_size : Int := 5

/-- One call on `snake_queue` made by the game, as it is recorded: an `enqueue`
with its arguments and returned value, a `dequeue` with the value `check_empty`
had when it was called and the returned coordinate, or an `empty_queue`. -/
inductive QCall where
  | enqueue (x y : Int) (ret : Int)
  | dequeue (was_empty : Int) (ret : Coordinat)
  | empty_queue
deriving DecidableEq, Repr

/-- The variables of `main` (main.c, lines 134-148) and the record of the queue
calls made so far. -/
structure Game where
  snake_body : tRectangle
  skip_dequeue : Int
  snake_queue : CircularQueue
  food_ : tRectangle
  spawn_food : Int
  num_food_eaten : Int
  log : List QCall

/-- The state of `main` when the outer loop is first entered (main.c, lines
134-148): the queue is the empty sentinel over an uninitialised array, and
`snake_body` and `food_` are uninitialised. -/
def Game.init (a : Fin QUEUESIZE → Coordinat) (body food : tRectangle) : Game :=
  { snake_body := body
    skip_dequeue := 0
    snake_queue := { front := -1, rear := -1, queue := a }
    food_ := food
    spawn_food := 1
    num_food_eaten := 0
    log := [] }

/-- A statement `enqueue(&snake_queue, x, y);` whose result is discarded. -/
def call_enqueue (g : Game) (x y : Int) : Option Game :=
  match enqueue g.snake_queue x y with
  | none => none
  | some (q', r) => some { g with snake_queue := q', log := g.log ++ [QCall.enqueue x y r] }

/-- A statement `snake_rear = dequeue(&snake_queue);`. -/
def call_dequeue (g : Game) : Option Game :=
  match dequeue g.snake_queue with
  | none => none
  | some (q', c) =>
    some { g with snake_queue := q'
                  log := g.log ++ [QCall.dequeue (check_empty g.snake_queue) c] }

/-- A statement `empty_queue(&snake_queue);`. -/
def call_empty_queue (g : Game) : Game :=
  { g with snake_queue := empty_queue g.snake_queue, log := g.log ++ [QCall.empty_queue] }

/-- The start of a round (main.c, lines 216-228). -/
def round_start (g : Game) : Option Game :=
  let body : tRectangle :=
    { i16XMin := 60
      i16YMin := 60
      i16XMax := wrap16 (60 + snake_body_size)
      i16YMax := wrap16 (60 + snake_body_size) }
  call_enqueue { g with spawn_food := 1, num_food_eaten := 0, snake_body := body } 60 60

/-- The body shared by the four direction branches (main.c, lines 266-281,
287-302, 308-323, 329-344), given the moved `snake_body`: the optional dequeue,
the update of `snake_body`, the enqueue of its corner, and `skip_dequeue = 0`. -/
def move (g : Game) (body : tRectangle) : Option Game :=
  match (if g.skip_dequeue = 0 then call_dequeue g else some g) with
  | none => none
  | some g1 =>
    match call_enqueue { g1 with snake_body := body } body.i16XMin body.i16YMin with
    | none => none
    | some g2 => some { g2 with skip_dequeue := 0 }

/-- The movement section of a tick (main.c, lines 259-346): up, else right, else
down, else left, chosen by the 70 / 30 thresholds. -/
def movement (g : Game) (joystick_val_ver joystick_val_hor : Nat) : Option Game :=
  if joystick_val_ver > 70 then
    move g { g.snake_body with
      i16YMin := wrap16 (g.snake_body.i16YMin - (snake_body_size + 2)) }
  else if joystick_val_hor > 70 then
    move g { g.snake_body with
      i16XMin := wrap16 (g.snake_body.i16XMin + (snake_body_size + 2)) }
  else if joystick_val_ver < 30 then
    move g { g.snake_body with
      i16YMin := wrap16 (g.snake_body.i16YMin + (snake_body_size + 2)) }
  else if joystick_val_hor < 30 then
    move g { g.snake_body with
      i16XMin := wrap16 (g.snake_body.i16XMin - (snake_body_size + 2)) }
  else
    some g

/-- How the food `do ... while` loop of a tick ends on the candidates it is
given: a candidate is placed, or the candidates are used up while the loop is
still running, or the overlap query has no defined result. -/
inductive Spawn where
  | placed (food : tRectangle)
  | waiting (food : tRectangle)
  | undefined
deriving DecidableEq, Repr

/-- The food `do ... while` loop (main.c, lines 364-371) over the successive
candidate corners. -/
def spawn_loop (ov : tRectangle → tRectangle → Int) (q : CircularQueue)
    (food_ : tRectangle) : List (Int × Int) → Spawn
  | [] => Spawn.waiting food_
  | (fx, fy) :: rest =>
    let food : tRectangle :=
      { i16XMin := fx
        i16YMin := fy
        i16XMax := wrap16 (fx + food_size)
        i16YMax := wrap16 (fy + food_size) }
    if food.i16XMin < 6 ∨ food.i16YMin < 6 ∨ food.i16XMax > 122 ∨ food.i16YMax > 122 then
      spawn_loop ov q food rest
    else
      match check_rect_overlap_food ov q snake_body_size food with
      | none => Spawn.undefined
      | some v => if v = 1 then spawn_loop ov q food rest else Spawn.placed food

/-- Why the round loop is left. -/
inductive Exit where
  | out_of_bound
  | self_overlap
  | victory
deriving DecidableEq, Repr

/-- How one pass through the body of the round loop ends. -/
inductive Outcome where
  | next (g : Game)
  | exit (e : Exit) (g : Game)
  | waiting (g : Game)
  | undefined

/-- The game logic of a tick (main.c, lines 381-429): the out-of-bounds test, the
self-overlap test with size `snake_body_size - snake_body_size`, the food test
and the victory test. -/
def game_logic (ov : tRectangle → tRectangle → Int) (g : Game) : Outcome :=
  if g.snake_body.i16XMin < 0 ∨ g.snake_body.i16YMin < 0 ∨
      g.snake_body.i16XMax > 128 ∨ g.snake_body.i16YMax > 128 then
    Outcome.exit Exit.out_of_bound (call_empty_queue g)
  else
    match check_rect_overlap_snake ov g.snake_queue (snake_body_size - snake_body_size) with
    | none => Outcome.undefined
    | some v =>
      if v = 1 then
        Outcome.exit Exit.self_overlap (call_empty_queue g)
      else
        let g1 : Game :=
          if ov g.snake_body g.food_ ≠ 0 then
            { g with spawn_food := 1
                     num_food_eaten := wrap16 (g.num_food_eaten + 1)
                     skip_dequeue := 1 }
          else g
        if g1.num_food_eaten ≥ (QUEUESIZE : Int) then Outcome.exit Exit.victory g1
        else Outcome.next g1

/-- What one tick reads: the two joystick percentages and the successive
candidate corners that the food loop draws. -/
structure Input where
  joystick_val_ver : Nat
  joystick_val_hor : Nat
  food : List (Int × Int)
deriving DecidableEq, Repr

/-- One pass through the body of the round loop (main.c, lines 231-440). -/
def tick (ov : tRectangle → tRectangle → Int) (g : Game) (i : Input) : Outcome :=
  match movement g i.joystick_val_ver i.joystick_val_hor with
  | none => Outcome.undefined
  | some g1 =>
    let g2 : Game :=
      { g1 with snake_body :=
          { g1.snake_body with
            i16XMax := wrap16 (g1.snake_body.i16XMin + snake_body_size)
            i16YMax := wrap16 (g1.snake_body.i16YMin + snake_body_size) } }
    if g2.spawn_food = 1 then
      match spawn_loop ov g2.snake_queue g2.food_ i.food with
      | Spawn.undefined => Outcome.undefined
      | Spawn.waiting food => Outcome.waiting { g2 with food_ := food }
      | Spawn.placed food => game_logic ov { g2 with food_ := food, spawn_food := 0 }
    else
      game_logic ov g2

/-- Where the program stands between two ticks: at the top of the outer loop (at
program start, or after the round loop was left for the given reason), at the top
of the round loop, inside a food loop that has used up its candidates, or after
undefined behaviour. -/
inductive Ctl where
  | start (last : Option Exit) (g : Game)
  | round (g : Game)
  | waiting (g : Game)
  | undefined

/-- The control point reached at the end of a tick. -/
def Outcome.ctl : Outcome → Ctl
  | Outcome.next g => Ctl.round g
  | Outcome.exit e g => Ctl.start (some e) g
  | Outcome.waiting g => Ctl.waiting g
  | Outcome.undefined => Ctl.undefined

/-- Run the program on the inputs of successive ticks.  A round is started when
the next tick is due at the top of the outer loop. -/
def play (ov : tRectangle → tRectangle → Int) : Ctl → List Input → Ctl
  | c, [] => c
  | Ctl.start _ g, i :: rest =>
    match round_start g with
    | none => Ctl.undefined
    | some g' => play ov (tick ov g' i).ctl rest
  | Ctl.round g, i :: rest => play ov (tick ov g i).ctl rest
  | Ctl.waiting g, _ :: _ => Ctl.waiting g
  | Ctl.undefined, _ :: _ => Ctl.undefined

/-- The variables of `main` at a control point, when they are defined. -/
def Ctl.game? : Ctl → Option Game
  | Ctl.start _ g => some g
  | Ctl.round g => some g
  | Ctl.waiting g => some g
  | Ctl.undefined => none

/-- The reason for which the round loop was last left, at the top of the outer
loop. -/
def Ctl.exit? : Ctl → Option Exit
  | Ctl.start e _ => e
  | _ => none

/-- A tick without movement whose food loop draws the corner `(fx, fy)`. -/
def idle (fx fy : Int) : Input :=
  { joystick_val_ver := 50, joystick_val_hor := 50, food := [(fx, fy)] }

/-- A tick that moves left and draws the food corner `(100, 100)`. -/
def goLeft : Input :=
  { joystick_val_ver := 50, joystick_val_hor := 0, food := [(100, 100)] }

/-- A tick that moves right and draws the food corner `(fx, fy)`. -/
def goRight (fx fy : Int) : Input :=
  { joystick_val_ver := 50, joystick_val_hor := 100, food := [(fx, fy)] }

/-- A tick that moves down and draws the food corner `(fx, fy)`. -/
def goDown (fx fy : Int) : Input :=
  { joystick_val_ver := 0, joystick_val_hor := 50, food := [(fx, fy)] }

/-- A tick that moves left and draws the food corner `(fx, fy)`. -/
def goLeftTo (fx fy : Int) : Input :=
  { joystick_val_ver := 50, joystick_val_hor := 0, food := [(fx, fy)] }

/-- Forty ticks that steer the snake along a path that never crosses itself,
each drawing its food at the new head position, so that a food is eaten in every
tick. -/
def victoryLap : List Input :=
  [71, 82, 93, 104, 115].map (fun x => goRight x 60) ++ [goDown 115 71] ++
  [104, 93, 82, 71, 60, 49, 38, 27, 16].map (fun x => goLeftTo x 71) ++ [goDown 16 82] ++
  [27, 38, 49, 60, 71, 82, 93, 104, 115].map (fun x => goRight x 82) ++ [goDown 115 93] ++
  [104, 93, 82, 71, 60, 49, 38, 27, 16].map (fun x => goLeftTo x 93) ++ [goDown 16 104] ++
  [27, 38, 49, 60].map (fun x => goRight x 104)

/-- The program at its start, over an array of zeros and with `snake_body` and
`food_` holding zeros. -/
def programStart : Ctl :=
  Ctl.start none (Game.init zeroArray ⟨0, 0, 0, 0⟩ ⟨0, 0, 0, 0⟩)

/-- What the scenarios inspect at the top of the outer loop: the reason for which
the round loop was left, `check_empty` and `check_full` of the queue, the number
of stored coordinates, and the record of the `enqueue` with which the next round
starts. -/
def Ctl.atRoundEnd : Ctl → Option (Option Exit × Int × Int × Nat × Option QCall)
  | Ctl.start e g =>
    some (e, check_empty g.snake_queue, check_full g.snake_queue, count g.snake_queue,
      (round_start g).bind fun g' => g'.log.getLast?)
  | _ => none

/-- Every recorded `enqueue` was passed coordinates not below -6. -/
def LogOk (log : List QCall) : Prop :=
  ∀ x y r, QCall.enqueue x y r ∈ log → -6 ≤ x ∧ -6 ≤ y

/-- Every stored coordinate is non-negative. -/
def StoredNonneg (q : CircularQueue) : Prop :=
  ∀ c ∈ contents q, 0 ≤ c.x ∧ 0 ≤ c.y

/-- What holds at the top of the round loop: the queue is well formed and
non-empty, the recorded and the stored coordinates are in range, and the corner
of `snake_body` lies on the grid `5 + 11 k` inside the screen. -/
structure RoundInv (g : Game) : Prop where
  wf : WellFormed g.snake_queue
  nonempty : g.snake_queue.front ≠ -1
  log : LogOk g.log
  stored : StoredNonneg g.snake_queue
  xmod : g.snake_body.i16XMin % 11 = 5
  xlo : 0 ≤ g.snake_body.i16XMin
  xhi : g.snake_body.i16XMin ≤ 119
  ymod : g.snake_body.i16YMin % 11 = 5
  ylo : 0 ≤ g.snake_body.i16YMin
  yhi : g.snake_body.i16YMin ≤ 119

/-- What holds between the movement and the out-of-bounds test of a tick: the
corner of `snake_body` may have left the screen by one step, and the only stored
coordinate that may be negative is that corner. -/
structure MidInv (g : Game) : Prop where
  wf : WellFormed g.snake_queue
  nonempty : g.snake_queue.front ≠ -1
  log : LogOk g.log
  stored : ∀ c ∈ contents g.snake_queue,
    (0 ≤ c.x ∧ 0 ≤ c.y) ∨ c = ⟨g.snake_body.i16XMin, g.snake_body.i16YMin⟩
  xmod : g.snake_body.i16XMin % 11 = 5
  xlo : -6 ≤ g.snake_body.i16XMin
  xhi : g.snake_body.i16XMin ≤ 126
  ymod : g.snake_body.i16YMin % 11 = 5
  ylo : -6 ≤ g.snake_body.i16YMin
  yhi : g.snake_body.i16YMin ≤ 126

/-- What holds at each control point of the program. -/
def CtlInv : Ctl → Prop
  | Ctl.start _ g => WellFormed g.snake_queue ∧ LogOk g.log ∧ StoredNonneg g.snake_queue
  | Ctl.round g => RoundInv g
  | Ctl.waiting g => LogOk g.log
  | Ctl.undefined => False

/-- The queue after `enqueue(-1, -1)` into an empty queue. -/
def sentinelSegment : CircularQueue :=
  { front := 0, rear := 0, queue := Function.update zeroArray 0 ⟨-1, -1⟩ }

/-- The invariant of a run: the queue is well formed and the counter of live
coordinates agrees with the distance from `front` to `rear`. -/
def RunInv (s : Run) : Prop :=
  WellFormed s.q ∧ s.live = (count s.q : Int)

/-! ## The legacy `check_overlap` of circular_queue.h -/

/-- The loop of `check_overlap` (circular_queue.h, lines 29-100), entered with the
given `temp`; the first argument bounds the number of evaluations of the loop
condition.  The comparisons are carried out in `int`, so the sums and
differences with `size` do not wrap. -/
def check_overlap_loop (q : CircularQueue) (size : Int) : Nat → Int → Option Int
  | 0, _ => none
  | fuel + 1, temp =>
    if temp ≠ q.rear then
      let temp1 := Int.tmod (temp + 1) (QUEUESIZE : Int)
      match slot? q.front, slot? temp1 with
      | some f, some t =>
        if ((q.queue f).x < (q.queue t).x + size ∧ (q.queue f).y < (q.queue t).y + size) ∨
            ((q.queue f).x > (q.queue t).x - size ∧ (q.queue f).y < (q.queue t).y + size) ∨
            ((q.queue f).x > (q.queue t).x - size ∧ (q.queue f).y > (q.queue t).y - size) ∨
            ((q.queue f).x < (q.queue t).x + size ∧ (q.queue f).y > (q.queue t).y - size) then
          some 1
        else
          check_overlap_loop q size fuel temp1
      | _, _ => none
    else
      some 0

/-- The function `check_overlap` (circular_queue.h, lines 24-102). -/
def check_overlap (q : CircularQueue) (size : Int) : Option Int :=
  check_overlap_loop q size (QUEUESIZE + 1) q.front

/-! ## The overlap loops with their array reads recorded -/

/-- The loop shared by `check_rect_overlap_food` and `check_rect_overlap_snake`
(main.c, lines 61-74 and 96-109) with the same control flow as `food_loop` and
`snake_loop`, returning next to the result the successive values of `temp` at
which the loop body ran, that is the indices of `queue` it read. -/
def traced_loop (ov : tRectangle → tRectangle → Int) (q : CircularQueue) (size : Int)
    (r : tRectangle) : Nat → Int → Option (Int × List Int)
  | 0, _ => none
  | fuel + 1, temp =>
    if temp ≠ q.rear then
      match slot? temp with
      | none => none
      | some i =>
        if ov r (snake_part q size i) ≠ 0 then
          some (1, [temp])
        else
          (traced_loop ov q size r fuel (Int.tmod (temp + 1) (QUEUESIZE : Int))).map
            fun p => (p.1, temp :: p.2)
    else
      some (0, [])

/-- The history `(10, 10), (19, 10)`: two squares of side 9 that share an edge. -/
def touchingSegments : CircularQueue :=
  { front := 0, rear := 1
    queue := Function.update (Function.update zeroArray 0 ⟨10, 10⟩) 1 ⟨19, 10⟩ }

/-! ## The LED dimming loop of lab2_2.1/main.c

The button driver and the PWM and GPIO calls belong to the vendor libraries.  The
model keeps the duty-cycle variable `k` and records which of the three branches
acts on the LED pin in each pass of the polling loop. -/

/-- What one pass of the polling loop reads from `ButtonsPoll`: whether
`BUTTON_PRESSED` holds for the left and for the right button. -/
structure Poll where
  left : Bool
  right : Bool
deriving DecidableEq, Repr

/-- What a pass does with the LED pin (main.c, lines 123-158): drive it low, drive
it high, set the PWM pulse width from the given `k`, or nothing. -/
inductive LedAction where
  | off
  | on
  | pulse_width (k : Int)
  | nothing
deriving DecidableEq, Repr

/-- Conversion of an `int` value to `uint8_t`. -/
def wrap8 (v : Int) : Int := v % 256

/-- The statement `if (BUTTON_PRESSED(LEFT_BUTTON, ...)) { if (k > 0) k = k - 1; }`
(main.c, lines 105-112) when the left button is pressed. -/
def left_press (k : Int) : Int :=
  if k > 0 then wrap8 (k - 1) else k

/-- The statement `if (BUTTON_PRESSED(RIGHT_BUTTON, ...)) { if (k < 100) k = k + 1; }`
(main.c, lines 114-121) when the right button is pressed. -/
def right_press (k : Int) : Int :=
  if k < 100 then wrap8 (k + 1) else k

/-- The three-way branch on `k` that drives the LED (main.c, lines 123-158). -/
def led_update (k : Int) : LedAction :=
  if k ≤ 0 then LedAction.off
  else if k ≥ 100 then LedAction.on
  else if k ≥ 1 ∧ k ≤ 99 then LedAction.pulse_width k
  else LedAction.nothing

/-- One pass through the polling loop (main.c, lines 99-158): the new value of
`k` and the action on the LED. -/
def poll_step (k : Int) (p : Poll) : Int × LedAction :=
  let k1 := if p.left then left_press k else k
  let k2 := if p.right then right_press k1 else k1
  (k2, led_update k2)

/-- The polling loop over the successive button readings, from the given `k`: the
value of `k` after the last pass and the actions of the passes in order. -/
def poll_loop (k : Int) : List Poll → Int × List LedAction
  | [] => (k, [])
  | p :: ps =>
    ((poll_loop (poll_step k p).1 ps).1, (poll_step k p).2 :: (poll_loop (poll_step k p).1 ps).2)

/-! ## `reverse_string` and `itoa` (lab2_4.2/main.c, lab2_4.1.1/main.c, lab2_4.1.2/main.c)

The three copies of the two functions are identical.  `int` is the 32-bit type of
the target.  A `char` buffer passed by pointer is modelled by its size and its
contents; an access outside the buffer is undefined behaviour and gives `none`. -/

/-- A `char` array: its size and its contents, one character code per index. -/
structure CharBuf where
  size : Nat
  chars : Nat → Int

/-- The read `str[i]`. -/
def CharBuf.load (str : CharBuf) (i : Int) : Option Int :=
  if 0 ≤ i ∧ i < (str.size : Int) then some (str.chars i.toNat) else none

/-- The write `str[i] = c` of a character `c`. -/
def CharBuf.store (str : CharBuf) (i : Int) (c : Int) : Option CharBuf :=
  if 0 ≤ i ∧ i < (str.size : Int) then
    some { str with chars := Function.update str.chars i.toNat c }
  else none

/-- Conversion of an `int` value to `char`, which is unsigned on the target.  The
values converted by `itoa` for bases up to 36 lie between 13 and 122, where the
conversion changes nothing. -/
def toChar (v : Int) : Int := v % 256

/-- Whether `v` is a value of the 32-bit type `int`. -/
def InInt32 (v : Int) : Prop := -2147483648 ≤ v ∧ v ≤ 2147483647

instance (v : Int) : Decidable (InInt32 v) :=
  inferInstanceAs (Decidable (-2147483648 ≤ v ∧ v ≤ 2147483647))

/-- The loop of `reverse_string` (lab2_4.2/main.c, lines 84-91); the first
argument bounds the number of evaluations of the loop condition. -/
def reverse_string_loop : Nat → CharBuf → Int → Int → Option CharBuf
  | 0, _, _, _ => none
  | fuel + 1, str, start, stop =>
    if start < stop then
      match str.load start, str.load stop with
      | some temp, some last =>
        match str.store start last with
        | none => none
        | some str1 =>
          match str1.store stop temp with
          | none => none
          | some str2 => reverse_string_loop fuel str2 (start + 1) (stop - 1)
      | _, _ => none
    else
      some str

/-- The function `reverse_string` (lab2_4.2/main.c, lines 77-92); the variable
`end` of the source is called `stop`.  The loop condition is evaluated at most
`length / 2 + 1` times. -/
def reverse_string (str : CharBuf) (length : Int) : Option CharBuf :=
  reverse_string_loop (length.toNat + 1) str 0 (length - 1)

/-- The digit loop of `itoa` (lab2_4.2/main.c, lines 117-121) on the buffer, the
index `i` and `num`; `%` and `/` truncate towards zero.  The first argument
bounds the number of evaluations of the loop condition; a division by zero, the
overflowing division of `INT_MIN` by -1, a write outside the buffer and a used-up
bound give `none`. -/
def itoa_loop (base : Int) : Nat → CharBuf → Int → Int → Option (CharBuf × Int)
  | 0, _, _, _ => none
  | fuel + 1, str, i, num =>
    if num ≠ 0 then
      if base = 0 ∨ (num = -2147483648 ∧ base = -1) then none
      else
        let rem := Int.tmod num base
        match str.store i (toChar (if rem > 9 then (rem - 10) + 97 else rem + 48)) with
        | none => none
        | some str1 => itoa_loop base fuel str1 (i + 1) (Int.tdiv num base)
    else
      some (str, i)

/-- The function `itoa` (lab2_4.2/main.c, lines 95-133): the buffer after the
call.  The character constants are written as their codes (`'0'` is 48, `'a'` is
97, `'-'` is 45).  A 32-bit `num` is reduced to 0 by at most 32 truncating
divisions by a base of magnitude 2 or more, so a digit loop that has not ended
after 33 evaluations of its condition never ends. -/
def itoa (num : Int) (str : CharBuf) (base : Int) : Option CharBuf :=
  if num = 0 then
    match str.store 0 48 with
    | none => none
    | some str1 => str1.store 1 0
  else
    let isNegative : Bool := decide (num < 0 ∧ base = 10)
    if isNegative = true ∧ num = -2147483648 then none
    else
      let num1 := if isNegative = true then -num else num
      match itoa_loop base 33 str 0 num1 with
      | none => none
      | some (str1, i1) =>
        match (if isNegative = true then (str1.store i1 45).map fun s => (s, i1 + 1)
               else some (str1, i1)) with
        | none => none
        | some (str2, i2) =>
          match str2.store i2 0 with
          | none => none
          | some str3 => reverse_string str3 i2

/-! ## Numerals, as the claims describe them -/

/-- The digit characters in order of their value: `0`-`9`, then `a`-`z`. -/
def digitChars : List Char := "0123456789abcdefghijklmnopqrstuvwxyz".toList

/-- The character code of the digit of value `d`. -/
def digitCode (d : Nat) : Int := ((digitChars.getD d '?').toNat : Int)

/-- The numeral of `num` in base `b`: a leading `-` for a negative number, then
the base-`b` digits of `|num|`, most significant first, and `0` alone for zero. -/
def numeral (b : Nat) (num : Int) : List Int :=
  (if num < 0 then [(('-').toNat : Int)] else []) ++
    (if num = 0 then [(('0').toNat : Int)]
     else (Nat.digits b num.natAbs).reverse.map digitCode)

/-- The value of a digit character in base `b`, when it is one. -/
def digitValue (b : Nat) (c : Int) : Option Nat :=
  if 48 ≤ c ∧ c ≤ 57 ∧ (c - 48).toNat < b then some (c - 48).toNat
  else if 97 ≤ c ∧ c ≤ 122 ∧ (c - 97).toNat + 10 < b then some ((c - 97).toNat + 10)
  else none

/-- Reading a sequence of digit characters in base `b`, most significant first. -/
def parseDigits (b : Nat) (s : List Int) : Option Nat :=
  s.foldl (fun acc c => acc.bind fun v => (digitValue b c).map fun d => v * b + d) (some 0)

/-- Reading a numeral in base `b`: an optional leading `-`, then at least one
digit. -/
def parseNumeral (b : Nat) (s : List Int) : Option Int :=
  match s with
  | [] => none
  | c :: rest =>
    if c = 45 then
      if rest = [] then none else (parseDigits b rest).map fun (v : Nat) => -(v : Int)
    else (parseDigits b s).map fun (v : Nat) => (v : Int)

/-- A buffer of 34 characters, all NUL. -/
def emptyBuf : CharBuf := { size := 34, chars := fun _ => 0 }

/-- The first `n` characters of a buffer. -/
def CharBuf.firstChars (str : CharBuf) (n : Nat) : List Int :=
  (List.range n).map str.chars

/-- The newest coordinate of a history is equal to one of the older ones. -/
def headAmongOlder (cs : List Coordinat) : Prop :=
  ∃ c, cs.getLast? = some c ∧ c ∈ cs.dropLast

/-- Every stored coordinate is at most 119 in both directions. -/
def StoredInside (q : CircularQueue) : Prop :=
  ∀ c ∈ contents q, c.x ≤ 119 ∧ c.y ≤ 119

/-- What holds in addition at the top of the round loop when the overlap test is
the inclusive intersection test: the stored coordinates are inside the screen, and
the newest one differs from the older ones unless the round has just started with
`snake_body` at `(60, 60)`. -/
def FreshInv (g : Game) : Prop :=
  StoredInside g.snake_queue ∧
    (¬ headAmongOlder (contents g.snake_queue) ∨
      (g.snake_body.i16XMin = 60 ∧ g.snake_body.i16YMin = 60))

/-- What holds in addition between the movement and the out-of-bounds test: a
stored coordinate outside the screen is the corner of `snake_body`, and when the
newest stored coordinate equals an older one that corner is inside the screen. -/
def MidFresh (g : Game) : Prop :=
  (∀ c ∈ contents g.snake_queue,
    (c.x ≤ 119 ∧ c.y ≤ 119) ∨ c = ⟨g.snake_body.i16XMin, g.snake_body.i16YMin⟩) ∧
    (headAmongOlder (contents g.snake_queue) →
      0 ≤ g.snake_body.i16XMin ∧ g.snake_body.i16XMin ≤ 119 ∧
      0 ≤ g.snake_body.i16YMin ∧ g.snake_body.i16YMin ≤ 119)

/-- What holds in addition at each control point. -/
def CtlFresh : Ctl → Prop
  | Ctl.start _ g => StoredInside g.snake_queue
  | Ctl.round g => FreshInv g
  | _ => True

/-- The variables of `main` at the top of the round loop, when the next tick is
due there: at the top of the outer loop the round is started first. -/
def Ctl.roundTop : Ctl → Option Game
  | Ctl.start _ g => round_start g
  | Ctl.round g => some g
  | _ => none

/-- Three ticks to the right, each drawing its food at the new head position. -/
def threeRight : List Input :=
  [goRight 71 60, goRight 82 60, goRight 93 60]

/-- The variables of `main` at the top of the round loop after the three ticks of
`threeRight` from the program start: the history `(71, 60), (82, 60), (93, 60)`,
three foods eaten, and the next dequeue to be skipped. -/
def threeLong : Game :=
  { snake_body := ⟨93, 60, 102, 69⟩
    skip_dequeue := 1
    snake_queue :=
      { front := 0, rear := 2
        queue := Function.update (Function.update (Function.update
          (Function.update zeroArray 0 ⟨60, 60⟩) 0 ⟨71, 60⟩) 1 ⟨82, 60⟩) 2 ⟨93, 60⟩ }
    food_ := ⟨93, 60, 98, 65⟩
    spawn_food := 1
    num_food_eaten := 3
    log := [QCall.enqueue 60 60 1, QCall.dequeue 0 ⟨60, 60⟩, QCall.enqueue 71 60 1,
      QCall.enqueue 82 60 1, QCall.enqueue 93 60 1] }

/-- Five ticks to the left, which take the head from `(60, 60)` to `(5, 60)`. -/
def fiveLeft : List Input := List.replicate 5 goLeft

/-! ## Basic facts about indices -/

theorem slot?_eq_some (i : Int) (h0 : 0 ≤ i) (h1 : i < 40) : slot? i = some (wrapSlot i) := by
  have h : 0 ≤ i ∧ i < (QUEUESIZE : Int) := ⟨h0, by simpa using h1⟩
  simp only [slot?, h, and_self, dif_pos, wrapSlot]
  congr 2
  rw [Int.emod_eq_of_lt h0 (by simpa using h1)]

theorem wrapSlot_eq_iff (a b : Int) : wrapSlot a = wrapSlot b ↔ a % 40 = b % 40 := by
  simp only [wrapSlot, Fin.mk.injEq, QUEUESIZE, Nat.cast_ofNat]
  omega

theorem tmod_queuesize (i : Int) (h : 0 ≤ i) : Int.tmod i (QUEUESIZE : Int) = i % 40 := by
  rw [Int.tmod_eq_emod h (by decide)]
  rfl

/-! ## The operations on well-formed states -/

theorem wellFormed_bounds (q : CircularQueue) (hwf : WellFormed q) :
    (q.front = -1 ∧ q.rear = -1) ∨ (0 ≤ q.front ∧ q.front < 40 ∧ 0 ≤ q.rear ∧ q.rear < 40) := by
  simpa [WellFormed] using hwf

theorem check_full_zero_or_one (q : CircularQueue) : check_full q = 0 ∨ check_full q = 1 := by
  unfold check_full
  split <;> simp

theorem check_empty_zero_or_one (q : CircularQueue) : check_empty q = 0 ∨ check_empty q = 1 := by
  unfold check_empty
  split <;> simp

theorem count_eq (q : CircularQueue) :
    (count q : Int) = if q.front = -1 then 0 else (q.rear - q.front) % 40 + 1 := by
  unfold count
  split
  · simp
  · simp only [QUEUESIZE, Nat.cast_ofNat, Nat.cast_add, Nat.cast_one]
    omega

theorem check_full_iff_count (q : CircularQueue) (hwf : WellFormed q) :
    check_full q = 1 ↔ count q = 40 := by
  have hc := count_eq q
  rcases wellFormed_bounds q hwf with ⟨hf, hr⟩ | ⟨h0, h1, h2, h3⟩
  · simp [check_full, count, hf, hr]
  · have hne : q.front ≠ -1 := by omega
    rw [if_neg hne] at hc
    unfold check_full
    simp only [QUEUESIZE, Nat.cast_ofNat]
    split
    · simp only [true_iff]
      omega
    · simp only [zero_ne_one, false_iff]
      omega

theorem enqueue_eq (q : CircularQueue) (x y : Int) (hwf : WellFormed q)
    (hnf : check_full q = 0) :
    enqueue q x y =
      some ({ front := if q.front = -1 then 0 else q.front
              rear := (q.rear + 1) % 40
              queue := Function.update q.queue (wrapSlot ((q.rear + 1) % 40)) ⟨x, y⟩ }, 1) := by
  have hr : 0 ≤ q.rear + 1 := by
    rcases wellFormed_bounds q hwf with ⟨_, hr⟩ | ⟨_, _, h2, _⟩ <;> omega
  unfold enqueue
  simp only [hnf, ne_eq, not_true_eq_false, if_false]
  rw [tmod_queuesize _ hr, slot?_eq_some _ (by omega) (by omega)]

theorem dequeue_eq (q : CircularQueue) (hwf : WellFormed q) (hne : q.front ≠ -1) :
    dequeue q =
      some (if q.front = q.rear then { q with front := -1, rear := -1 }
            else { q with front := (q.front + 1) % 40 }, q.queue (wrapSlot q.front)) := by
  have hb : 0 ≤ q.front ∧ q.front < 40 := by
    rcases wellFormed_bounds q hwf with ⟨hf, _⟩ | ⟨h0, h1, _, _⟩
    · exact absurd hf hne
    · exact ⟨h0, h1⟩
  unfold dequeue
  simp only [check_empty, hne, if_false, ne_eq, not_true_eq_false]
  rw [slot?_eq_some _ hb.1 hb.2, tmod_queuesize _ (by omega)]
  simp only
  split <;> rfl

theorem contents_of_empty (q : CircularQueue) (h : q.front = -1) : contents q = [] := by
  simp [contents, count, h]

theorem length_contents (q : CircularQueue) : (contents q).length = count q := by
  simp [contents]

theorem wellFormed_sentinel (a : Fin QUEUESIZE → Coordinat) :
    WellFormed { front := -1, rear := -1, queue := a } :=
  Or.inl ⟨rfl, rfl⟩

theorem wellFormed_of_bounds (f r : Int) (a : Fin QUEUESIZE → Coordinat)
    (h0 : 0 ≤ f) (h1 : f < 40) (h2 : 0 ≤ r) (h3 : r < 40) :
    WellFormed { front := f, rear := r, queue := a } := by
  right
  simp only [QUEUESIZE, Nat.cast_ofNat]
  exact ⟨h0, h1, h2, h3⟩

theorem check_full_sentinel (a : Fin QUEUESIZE → Coordinat) :
    check_full { front := -1, rear := -1, queue := a } = 0 := by
  simp [check_full]

theorem not_full_cases (q : CircularQueue) (hnf : check_full q = 0) :
    ¬ (q.front = q.rear + 1 ∨ (q.front = 0 ∧ q.rear = 39)) := by
  unfold check_full at hnf
  simp only [QUEUESIZE, Nat.cast_ofNat] at hnf
  split at hnf
  · omega
  · omega

theorem enqueue_post (q : CircularQueue) (x y : Int) (hwf : WellFormed q)
    (hnf : check_full q = 0) :
    ∃ q', enqueue q x y = some (q', 1) ∧ WellFormed q' ∧ q'.front ≠ -1 ∧
      count q' = count q + 1 ∧ contents q' = contents q ++ [⟨x, y⟩] := by
  have hfull := not_full_cases q hnf
  have heq := enqueue_eq q x y hwf hnf
  rcases wellFormed_bounds q hwf with ⟨hf, hr⟩ | ⟨h0, h1, h2, h3⟩
  · rw [if_pos hf, hr] at heq
    refine ⟨_, heq, ?_, ?_, ?_, ?_⟩
    · exact wellFormed_of_bounds _ _ _ (by decide) (by decide) (by decide) (by decide)
    · simp
    · simp [count, hf, hr]
    · have hcnt : count ({ front := 0, rear := (-1 + 1) % 40
                           queue := Function.update q.queue (wrapSlot ((-1 + 1) % 40)) ⟨x, y⟩ } :
                          CircularQueue) = 1 := by
        simp [count]
      rw [contents_of_empty q hf]
      unfold contents
      rw [hcnt, show List.range 1 = [0] from rfl]
      simp
  · have hne : q.front ≠ -1 := by omega
    rw [if_neg hne] at heq
    have hc := count_eq q
    rw [if_neg hne] at hc
    have hc' := count_eq ({ front := q.front, rear := (q.rear + 1) % 40
                            queue := Function.update q.queue (wrapSlot ((q.rear + 1) % 40)) ⟨x, y⟩ } :
                          CircularQueue)
    simp only [if_neg hne] at hc'
    have hcount : count ({ front := q.front, rear := (q.rear + 1) % 40
                           queue := Function.update q.queue (wrapSlot ((q.rear + 1) % 40)) ⟨x, y⟩ } :
                          CircularQueue) = count q + 1 := by
      omega
    refine ⟨_, heq, ?_, hne, hcount, ?_⟩
    · exact wellFormed_of_bounds _ _ _ h0 h1 (by omega) (by omega)
    · unfold contents
      rw [hcount, List.range_succ, List.map_append, List.map_singleton]
      dsimp only
      congr 1
      · apply List.map_congr_left
        intro k hk
        rw [List.mem_range] at hk
        apply Function.update_noteq
        rw [Ne, wrapSlot_eq_iff]
        omega
      · have hlast : wrapSlot (q.front + (count q : Int)) = wrapSlot ((q.rear + 1) % 40) := by
          rw [wrapSlot_eq_iff]
          omega
        rw [hlast, Function.update_same]

theorem dequeue_post (q : CircularQueue) (hwf : WellFormed q) (hne : q.front ≠ -1) :
    ∃ q', dequeue q = some (q', q.queue (wrapSlot q.front)) ∧ WellFormed q' ∧
      count q = count q' + 1 ∧ contents q = q.queue (wrapSlot q.front) :: contents q' ∧
      q'.queue = q.queue := by
  have heq := dequeue_eq q hwf hne
  have hb : 0 ≤ q.front ∧ q.front < 40 ∧ 0 ≤ q.rear ∧ q.rear < 40 := by
    rcases wellFormed_bounds q hwf with ⟨hf, _⟩ | h
    · exact absurd hf hne
    · exact h
  have hc := count_eq q
  rw [if_neg hne] at hc
  by_cases hfr : q.front = q.rear
  · rw [if_pos hfr] at heq
    have h1 : count q = 1 := by
      have : (q.rear - q.front) % 40 = 0 := by omega
      omega
    refine ⟨_, heq, wellFormed_sentinel _, ?_, ?_, rfl⟩
    · rw [h1]
      simp [count]
    · rw [contents_of_empty ({ q with front := -1, rear := -1 }) rfl]
      unfold contents
      rw [h1, show List.range 1 = [0] from rfl]
      simp
  · rw [if_neg hfr] at heq
    have hne' : (q.front + 1) % 40 ≠ -1 := by omega
    have hc' := count_eq ({ q with front := (q.front + 1) % 40 } : CircularQueue)
    simp only [if_neg hne'] at hc'
    have hcount : count q = count ({ q with front := (q.front + 1) % 40 } : CircularQueue) + 1 := by
      omega
    refine ⟨_, heq, ?_, hcount, ?_, rfl⟩
    · exact wellFormed_of_bounds _ _ _ (by omega) (by omega) hb.2.2.1 hb.2.2.2
    · unfold contents
      rw [hcount, List.range_succ_eq_map, List.map_cons, List.map_map]
      dsimp only
      simp only [Nat.cast_zero, add_zero, List.cons.injEq, true_and]
      apply List.map_congr_left
      intro k _
      simp only [Function.comp_apply, Nat.succ_eq_add_one, Nat.cast_add, Nat.cast_one]
      congr 1
      rw [wrapSlot_eq_iff]
      omega

/-! ## Runs preserve the invariant and follow the list model -/

theorem count_le (q : CircularQueue) : count q ≤ 40 := by
  have h := count_eq q
  split at h <;> omega

theorem runInv_init (a : Fin QUEUESIZE → Coordinat) : RunInv (Run.init a) :=
  ⟨wellFormed_sentinel a, by simp [Run.init, count]⟩

theorem enqueue_of_full (q : CircularQueue) (x y : Int) (hfull : check_full q = 1) :
    enqueue q x y = some (q, 0) := by
  simp [enqueue, hfull]

theorem dequeue_of_empty (q : CircularQueue) (hempty : q.front = -1) :
    dequeue q = some (q, ⟨-1, -1⟩) := by
  simp [dequeue, check_empty, hempty]

theorem step_enq (s : Run) (x y : Int) (q' : CircularQueue) (r : Int)
    (h : enqueue s.q x y = some (q', r)) :
    step s (Op.enq x y) =
      some { q := q'
             rets := s.rets ++ [Ret.enq r]
             enqueued := if r = 1 then s.enqueued ++ [⟨x, y⟩] else s.enqueued
             dequeued := s.dequeued
             live := if r = 1 then s.live + 1 else s.live } := by
  simp only [step, h]

theorem step_deq (s : Run) (q' : CircularQueue) (c : Coordinat)
    (h : dequeue s.q = some (q', c)) :
    step s Op.deq =
      some { q := q'
             rets := s.rets ++ [Ret.deq c]
             enqueued := s.enqueued
             dequeued := if check_empty s.q = 0 then s.dequeued ++ [c] else s.dequeued
             live := if check_empty s.q = 0 then s.live - 1 else s.live } := by
  simp only [step, h]

theorem step_inv (s : Run) (o : Op) (hinv : RunInv s) :
    ∃ s', step s o = some s' ∧ RunInv s' ∧
      specStep (contents s.q, s.rets) o = (contents s'.q, s'.rets) ∧
      (o ≠ Op.clear → s.enqueued = s.dequeued ++ contents s.q →
        s'.enqueued = s'.dequeued ++ contents s'.q) := by
  obtain ⟨hwf, hlive⟩ := hinv
  cases o with
  | enq x y =>
    rcases check_full_zero_or_one s.q with hnf | hfull
    · obtain ⟨q', he, hwf', _, hcnt, hcont⟩ := enqueue_post s.q x y hwf hnf
      have hlt : count s.q < 40 := by
        have h1 := count_le s.q
        have h2 : count s.q ≠ 40 := fun h => by
          have := (check_full_iff_count s.q hwf).2 h
          omega
        omega
      refine ⟨_, step_enq s x y q' 1 he, ⟨hwf', ?_⟩, ?_, ?_⟩
      · simp only [if_true]
        rw [hcnt, hlive]
        push_cast
        rfl
      · simp only [specStep, length_contents, hlt, if_true, hcont]
      · intro _ h
        simp only [if_true]
        rw [h, hcont, List.append_assoc]
    · have he := enqueue_of_full s.q x y hfull
      have h40 : count s.q = 40 := (check_full_iff_count s.q hwf).1 hfull
      refine ⟨_, step_enq s x y s.q 0 he, ⟨hwf, ?_⟩, ?_, ?_⟩
      · simpa using hlive
      · simp [specStep, length_contents, h40]
      · intro _ h
        simpa using h
  | deq =>
    by_cases hf : s.q.front = -1
    · have he := dequeue_of_empty s.q hf
      have hce : check_empty s.q = 1 := by simp [check_empty, hf]
      refine ⟨_, step_deq s s.q _ he, ⟨hwf, ?_⟩, ?_, ?_⟩
      · simpa [hce] using hlive
      · simp [specStep, contents_of_empty s.q hf]
      · intro _ h
        simpa [hce] using h
    · obtain ⟨q', he, hwf', hcnt, hcont, _⟩ := dequeue_post s.q hwf hf
      have hce : check_empty s.q = 0 := by simp [check_empty, hf]
      refine ⟨_, step_deq s q' _ he, ⟨hwf', ?_⟩, ?_, ?_⟩
      · simp only [hce, if_true]
        rw [hlive, hcnt]
        push_cast
        omega
      · simp only [specStep, hcont]
      · intro _ h
        simp only [hce, if_true]
        rw [h, hcont, List.append_assoc, List.singleton_append]
  | clear =>
    refine ⟨_, rfl, ⟨wellFormed_sentinel _, by simp [empty_queue, count]⟩, ?_, ?_⟩
    · simp [specStep, contents_of_empty (empty_queue s.q) rfl]
    · intro h
      exact absurd rfl h

theorem exec_inv (ops : List Op) (s : Run) (hinv : RunInv s) :
    ∃ s', exec s ops = some s' ∧ RunInv s' ∧
      specExec (contents s.q, s.rets) ops = (contents s'.q, s'.rets) ∧
      (Op.clear ∉ ops → s.enqueued = s.dequeued ++ contents s.q →
        s'.enqueued = s'.dequeued ++ contents s'.q) := by
  induction ops generalizing s with
  | nil => exact ⟨s, rfl, hinv, rfl, fun _ h => h⟩
  | cons o os ih =>
    obtain ⟨s1, hs1, hinv1, hspec1, hfifo1⟩ := step_inv s o hinv
    obtain ⟨s2, hs2, hinv2, hspec2, hfifo2⟩ := ih s1 hinv1
    refine ⟨s2, by simp only [exec, hs1, hs2], hinv2, ?_, ?_⟩
    · simp only [specExec, List.foldl_cons] at hspec2 ⊢
      rw [hspec1, hspec2]
    · intro hno h
      have hno' : o ≠ Op.clear ∧ Op.clear ∉ os := by
        simp only [List.mem_cons, not_or] at hno
        exact ⟨fun h => hno.1 h.symm, hno.2⟩
      exact hfifo2 hno'.2 (hfifo1 hno'.1 h)

theorem reachable_wellFormed (q : CircularQueue) (h : Reachable q) : WellFormed q := by
  obtain ⟨a, ops, s, hs, rfl⟩ := h
  obtain ⟨s', hs', hinv, _⟩ := exec_inv ops (Run.init a) (runInv_init a)
  rw [hs] at hs'
  cases hs'
  exact hinv.1

/-! ## Runs that only enqueue -/

theorem specExec_enqueueAll (cs : List Coordinat) (l : List Coordinat) (rets : List Ret)
    (hlen : l.length + cs.length ≤ 40) :
    specExec (l, rets) (enqueueAll cs) =
      (l ++ cs, rets ++ List.replicate cs.length (Ret.enq 1)) := by
  induction cs generalizing l rets with
  | nil => simp [specExec, enqueueAll]
  | cons c cs ih =>
    have hlt : l.length < 40 := by
      simp only [List.length_cons] at hlen
      omega
    have hstep : specStep (l, rets) (Op.enq c.x c.y) = (l ++ [c], rets ++ [Ret.enq 1]) := by
      simp only [specStep, hlt, if_true]
    have hrec := ih (l ++ [c]) (rets ++ [Ret.enq 1]) (by
      simp only [List.length_append, List.length_cons, List.length_nil] at hlen ⊢
      omega)
    simp only [specExec, enqueueAll, List.map_cons, List.foldl_cons] at hrec ⊢
    rw [hstep, hrec]
    simp [List.replicate_succ]

theorem front_after_enqueue (q q' : CircularQueue) (x y r : Int) (hwf : WellFormed q)
    (h : enqueue q x y = some (q', r)) (hf : q.front = -1 ∨ q.front = 0) :
    q'.front = -1 ∨ q'.front = 0 := by
  rcases check_full_zero_or_one q with hnf | hfull
  · rw [enqueue_eq q x y hwf hnf] at h
    simp only [Option.some.injEq, Prod.mk.injEq] at h
    rw [← h.1]
    right
    rcases hf with hf | hf <;> simp [hf]
  · rw [enqueue_of_full q x y hfull] at h
    simp only [Option.some.injEq, Prod.mk.injEq] at h
    rw [← h.1]
    exact hf

theorem front_after_enqueueAll (cs : List Coordinat) (s s' : Run) (hinv : RunInv s)
    (h : exec s (enqueueAll cs) = some s') (hf : s.q.front = -1 ∨ s.q.front = 0) :
    s'.q.front = -1 ∨ s'.q.front = 0 := by
  induction cs generalizing s with
  | nil =>
    simp only [enqueueAll, List.map_nil, exec, Option.some.injEq] at h
    rw [← h]
    exact hf
  | cons c cs ih =>
    obtain ⟨s1, hs1, hinv1, _⟩ := step_inv s (Op.enq c.x c.y) hinv
    have hf1 : s1.q.front = -1 ∨ s1.q.front = 0 := by
      cases he : enqueue s.q c.x c.y with
      | none => simp [step, he] at hs1
      | some p =>
        obtain ⟨q', r⟩ := p
        rw [step_enq s c.x c.y q' r he] at hs1
        simp only [Option.some.injEq] at hs1
        rw [← hs1]
        exact front_after_enqueue s.q q' c.x c.y r hinv.1 he hf
    simp only [enqueueAll, List.map_cons, exec, hs1] at h
    exact ih s1 hinv1 h hf1

/-! ## The overlap loops on well-formed states -/

theorem snake_loop_eq_food_loop (ov : tRectangle → tRectangle → Int) (q : CircularQueue)
    (size : Int) (r : tRectangle) (fuel : Nat) (temp : Int) :
    snake_loop ov q size r fuel temp = food_loop ov q size r fuel temp := by
  induction fuel generalizing temp with
  | zero => rfl
  | succ n ih =>
    unfold snake_loop food_loop
    split
    · split
      · rfl
      · split
        · rfl
        · exact ih _
    · rfl

theorem food_loop_fuel_succ (ov : tRectangle → tRectangle → Int) (q : CircularQueue)
    (size : Int) (r : tRectangle) (fuel : Nat) (temp v : Int)
    (h : food_loop ov q size r fuel temp = some v) :
    food_loop ov q size r (fuel + 1) temp = some v := by
  induction fuel generalizing temp with
  | zero => simp [food_loop] at h
  | succ n ih =>
    rw [food_loop] at h ⊢
    split
    · rename_i hne
      rw [if_pos hne] at h
      cases hs : slot? temp with
      | none => simp [hs] at h
      | some i =>
        simp only [hs] at h ⊢
        split
        · rename_i hov
          rw [if_pos hov] at h
          exact h
        · rename_i hov
          rw [if_neg hov] at h
          exact ih _ h
    · rename_i hne
      rw [if_neg hne] at h
      exact h

theorem overlapsAny_nil (ov : tRectangle → tRectangle → Int) (r : tRectangle) (size : Int) :
    overlapsAny ov r size [] = 0 := by
  simp [overlapsAny]

theorem overlapsAny_cons_pos (ov : tRectangle → tRectangle → Int) (r : tRectangle) (size : Int)
    (c : Coordinat) (cs : List Coordinat) (h : ov r (square c size) ≠ 0) :
    overlapsAny ov r size (c :: cs) = 1 := by
  simp [overlapsAny, h]

theorem overlapsAny_cons_neg (ov : tRectangle → tRectangle → Int) (r : tRectangle) (size : Int)
    (c : Coordinat) (cs : List Coordinat) (h : ¬ ov r (square c size) ≠ 0) :
    overlapsAny ov r size (c :: cs) = overlapsAny ov r size cs := by
  simp only [ne_eq, not_not] at h
  simp [overlapsAny, h]

theorem overlapsAny_eq_one_iff (ov : tRectangle → tRectangle → Int) (r : tRectangle) (size : Int)
    (cs : List Coordinat) :
    overlapsAny ov r size cs = 1 ↔ ∃ c ∈ cs, ov r (square c size) ≠ 0 := by
  unfold overlapsAny
  split <;> rename_i h
  · simp only [List.any_eq_true, decide_eq_true_eq] at h
    simp only [true_iff]
    exact h
  · simp only [List.any_eq_true, decide_eq_true_eq] at h
    simp only [zero_ne_one, false_iff]
    exact h

theorem overlapsAny_zero_or_one (ov : tRectangle → tRectangle → Int) (r : tRectangle) (size : Int)
    (cs : List Coordinat) : overlapsAny ov r size cs = 0 ∨ overlapsAny ov r size cs = 1 := by
  unfold overlapsAny
  split <;> simp

theorem food_loop_spec (ov : tRectangle → tRectangle → Int) (q : CircularQueue) (size : Int)
    (r : tRectangle) (hr0 : 0 ≤ q.rear) (hr1 : q.rear < 40) (m : Nat) :
    ∀ (fuel : Nat) (temp : Int), m < fuel → 0 ≤ temp → temp < 40 → m < 40 →
      (temp + (m : Int)) % 40 = q.rear →
      food_loop ov q size r fuel temp =
        some (overlapsAny ov r size
          ((List.range m).map fun (j : Nat) => q.queue (wrapSlot (temp + (j : Int))))) := by
  induction m with
  | zero =>
    intro fuel temp hfuel h0 h1 _ hmod
    obtain ⟨f, rfl⟩ : ∃ f, fuel = f + 1 := ⟨fuel - 1, by omega⟩
    have ht : temp = q.rear := by
      simp only [Nat.cast_zero, add_zero] at hmod
      omega
    unfold food_loop
    rw [if_neg (by simp [ht])]
    simp [overlapsAny_nil]
  | succ m ih =>
    intro fuel temp hfuel h0 h1 hm hmod
    obtain ⟨f, rfl⟩ : ∃ f, fuel = f + 1 := ⟨fuel - 1, by omega⟩
    have ht : temp ≠ q.rear := by
      push_cast at hmod
      omega
    unfold food_loop
    rw [if_pos ht, slot?_eq_some temp h0 h1]
    simp only
    rw [List.range_succ_eq_map, List.map_cons, List.map_map]
    have hfirst : q.queue (wrapSlot (temp + ((0 : Nat) : Int))) = q.queue (wrapSlot temp) := by
      simp
    rw [hfirst]
    by_cases hov : ov r (snake_part q size (wrapSlot temp)) ≠ 0
    · rw [if_pos hov, overlapsAny_cons_pos ov r size _ _ hov]
    · rw [if_neg hov, overlapsAny_cons_neg ov r size _ _ hov, tmod_queuesize _ (by omega)]
      rw [ih f ((temp + 1) % 40) (by omega) (by omega) (by omega) (by omega)
        (by push_cast at hmod; omega)]
      congr 2
      apply List.map_congr_left
      intro j _
      simp only [Function.comp_apply, Nat.succ_eq_add_one, Nat.cast_add, Nat.cast_one]
      congr 1
      rw [wrapSlot_eq_iff]
      omega

theorem nonempty_bounds (q : CircularQueue) (hwf : WellFormed q) (hne : q.front ≠ -1) :
    0 ≤ q.front ∧ q.front < 40 ∧ 0 ≤ q.rear ∧ q.rear < 40 := by
  rcases wellFormed_bounds q hwf with ⟨hf, _⟩ | h
  · exact absurd hf hne
  · exact h

theorem contents_snoc (q : CircularQueue) (hwf : WellFormed q) (hne : q.front ≠ -1) :
    contents q =
      ((List.range (count q - 1)).map fun (j : Nat) => q.queue (wrapSlot (q.front + (j : Int)))) ++
        [q.queue (wrapSlot q.rear)] := by
  have hb := nonempty_bounds q hwf hne
  have hc := count_eq q
  rw [if_neg hne] at hc
  obtain ⟨n, hn⟩ : ∃ n, count q = n + 1 := ⟨count q - 1, by omega⟩
  unfold contents
  rw [hn, List.range_succ, List.map_append, List.map_singleton, Nat.add_sub_cancel]
  congr 2
  congr 1
  rw [wrapSlot_eq_iff]
  omega

theorem dropLast_contents (q : CircularQueue) (hwf : WellFormed q) (hne : q.front ≠ -1) :
    (contents q).dropLast =
      (List.range (count q - 1)).map fun (j : Nat) => q.queue (wrapSlot (q.front + (j : Int))) := by
  rw [contents_snoc q hwf hne, List.dropLast_concat]

theorem getLast?_contents (q : CircularQueue) (hwf : WellFormed q) (hne : q.front ≠ -1) :
    (contents q).getLast? = some (q.queue (wrapSlot q.rear)) := by
  rw [contents_snoc q hwf hne, List.getLast?_concat]

theorem food_result (ov : tRectangle → tRectangle → Int) (q : CircularQueue) (size : Int)
    (r : tRectangle) (hwf : WellFormed q) :
    check_rect_overlap_food ov q size r = some (overlapsAny ov r size (contents q).dropLast) := by
  by_cases hne : q.front = -1
  · have hr : q.rear = -1 := by
      rcases wellFormed_bounds q hwf with ⟨_, hr⟩ | ⟨h0, _⟩
      · exact hr
      · omega
    rw [contents_of_empty q hne]
    unfold check_rect_overlap_food food_loop
    rw [if_neg (by simp [hne, hr])]
    simp [overlapsAny_nil]
  · have hb := nonempty_bounds q hwf hne
    have hc := count_eq q
    rw [if_neg hne] at hc
    have hle := count_le q
    rw [dropLast_contents q hwf hne]
    unfold check_rect_overlap_food
    exact food_loop_spec ov q size r hb.2.2.1 hb.2.2.2 (count q - 1) QUEUESIZE q.front
      (by simp only [QUEUESIZE]; omega) hb.1 hb.2.1 (by omega) (by omega)

theorem snake_result (ov : tRectangle → tRectangle → Int) (q : CircularQueue) (size : Int)
    (hwf : WellFormed q) :
    check_rect_overlap_snake ov q size = selfOverlap ov size (contents q) := by
  by_cases hne : q.front = -1
  · have hr : q.rear = -1 := by
      rcases wellFormed_bounds q hwf with ⟨_, hr⟩ | ⟨h0, _⟩
      · exact hr
      · omega
    rw [contents_of_empty q hne]
    unfold check_rect_overlap_snake snake_head
    rw [hr]
    rfl
  · have hb := nonempty_bounds q hwf hne
    have hfood := food_result ov q size (square (q.queue (wrapSlot q.rear)) size) hwf
    unfold check_rect_overlap_food at hfood
    unfold check_rect_overlap_snake snake_head selfOverlap
    rw [slot?_eq_some q.rear hb.2.2.1 hb.2.2.2, getLast?_contents q hwf hne]
    simp only
    rw [snake_loop_eq_food_loop]
    exact hfood

theorem reachable_oneSegment : Reachable oneSegment :=
  ⟨zeroArray, [Op.enq 60 60],
    { q := oneSegment, rets := [Ret.enq 1], enqueued := [⟨60, 60⟩], dequeued := [], live := 1 },
    rfl, rfl⟩

theorem reachable_twoSegments : Reachable twoSegments :=
  ⟨zeroArray, [Op.enq 60 60, Op.enq 60 60],
    { q := twoSegments, rets := [Ret.enq 1, Ret.enq 1], enqueued := [⟨60, 60⟩, ⟨60, 60⟩]
      dequeued := [], live := 2 },
    rfl, rfl⟩

theorem reachable_sentinelSegment : Reachable sentinelSegment :=
  ⟨zeroArray, [Op.enq (-1) (-1)],
    { q := sentinelSegment, rets := [Ret.enq 1], enqueued := [⟨-1, -1⟩], dequeued := [], live := 1 },
    rfl, rfl⟩

theorem mem_dropLast_iff (cs : List Coordinat) (c : Coordinat) :
    c ∈ cs.dropLast ↔ ∃ k, k + 1 < cs.length ∧ cs[k]? = some c := by
  rw [List.mem_iff_getElem?]
  constructor
  · rintro ⟨k, hk⟩
    rw [List.getElem?_dropLast] at hk
    split at hk
    · exact ⟨k, by omega, hk⟩
    · cases hk
  · rintro ⟨k, hlt, hk⟩
    refine ⟨k, ?_⟩
    rw [List.getElem?_dropLast, if_pos (by omega)]
    exact hk

theorem wrap16_of_inInt16 (v : Int) (h : InInt16 v) : wrap16 v = v := by
  unfold InInt16 at h
  unfold wrap16
  omega

theorem nonempty_of_check_empty (q : CircularQueue) (h : check_empty q = 0) : q.front ≠ -1 := by
  intro hf
  simp [check_empty, hf] at h

/-! ## States that agree on their live slots -/

theorem sameLive_wellFormed_right (q1 q2 : CircularQueue) (h : SameLive q1 q2) :
    WellFormed q2 := by
  obtain ⟨hwf, hf, hr, _⟩ := h
  unfold WellFormed at hwf ⊢
  rw [← hf, ← hr]
  exact hwf

theorem sameLive_call (ov : tRectangle → tRectangle → Int) (q1 q2 : CircularQueue)
    (c : Call) (h : SameLive q1 q2) :
    (call ov q1 c = none ∧ call ov q2 c = none ∧ ∃ S, c = Call.check_rect_overlap_snake S) ∨
      ∃ q1' q2' v, call ov q1 c = some (q1', v) ∧ call ov q2 c = some (q2', v) ∧
        SameLive q1' q2' := by
  have hwf2 := sameLive_wellFormed_right q1 q2 h
  obtain ⟨hwf1, hf, hr, hcont⟩ := h
  have hfull : check_full q1 = check_full q2 := by simp only [check_full, hf, hr]
  have hempty : check_empty q1 = check_empty q2 := by simp only [check_empty, hf]
  cases c with
  | enqueue x y =>
    right
    rcases check_full_zero_or_one q1 with hnf | hfl
    · obtain ⟨q1', he1, hwf1', _, _, hc1⟩ := enqueue_post q1 x y hwf1 hnf
      obtain ⟨q2', he2, _, _, _, hc2⟩ := enqueue_post q2 x y hwf2 (hfull ▸ hnf)
      have hx1 := enqueue_eq q1 x y hwf1 hnf
      have hx2 := enqueue_eq q2 x y hwf2 (hfull ▸ hnf)
      rw [he1] at hx1
      rw [he2] at hx2
      simp only [Option.some.injEq, Prod.mk.injEq, and_true] at hx1 hx2
      refine ⟨q1', q2', Obs.int 1, by simp [call, he1], by simp [call, he2], hwf1', ?_, ?_, ?_⟩
      · rw [hx1, hx2, hf]
      · rw [hx1, hx2, hr]
      · rw [hc1, hc2, hcont]
    · refine ⟨q1, q2, Obs.int 0, ?_, ?_, hwf1, hf, hr, hcont⟩
      · simp [call, enqueue_of_full q1 x y hfl]
      · simp [call, enqueue_of_full q2 x y (hfull ▸ hfl)]
  | dequeue =>
    right
    by_cases hne : q1.front = -1
    · refine ⟨q1, q2, Obs.coordinat ⟨-1, -1⟩, ?_, ?_, hwf1, hf, hr, hcont⟩
      · simp [call, dequeue_of_empty q1 hne]
      · simp [call, dequeue_of_empty q2 (hf ▸ hne)]
    · obtain ⟨q1', he1, hwf1', _, hc1, _⟩ := dequeue_post q1 hwf1 hne
      obtain ⟨q2', he2, _, _, hc2, _⟩ := dequeue_post q2 hwf2 (hf ▸ hne)
      have hx1 := dequeue_eq q1 hwf1 hne
      have hx2 := dequeue_eq q2 hwf2 (hf ▸ hne)
      rw [he1] at hx1
      rw [he2] at hx2
      simp only [Option.some.injEq, Prod.mk.injEq, and_true] at hx1 hx2
      rw [hc1, hc2] at hcont
      simp only [List.cons.injEq] at hcont
      refine ⟨q1', q2', Obs.coordinat (q1.queue (wrapSlot q1.front)), by simp [call, he1], ?_,
        hwf1', ?_, ?_, hcont.2⟩
      · simp [call, he2, hcont.1]
      · rw [hx1, hx2, hf, hr]
        split <;> rfl
      · rw [hx1, hx2, hf, hr]
        split <;> rfl
  | empty_queue =>
    right
    refine ⟨empty_queue q1, empty_queue q2, Obs.void, rfl, rfl, wellFormed_sentinel _, rfl, rfl, ?_⟩
    rw [contents_of_empty (empty_queue q1) rfl, contents_of_empty (empty_queue q2) rfl]
  | check_empty =>
    right
    exact ⟨q1, q2, Obs.int (check_empty q1), rfl, by simp [call, hempty], hwf1, hf, hr, hcont⟩
  | check_full =>
    right
    exact ⟨q1, q2, Obs.int (check_full q1), rfl, by simp [call, hfull], hwf1, hf, hr, hcont⟩
  | check_rect_overlap_food size r =>
    right
    refine ⟨q1, q2, Obs.int (overlapsAny ov r size (contents q1).dropLast), ?_, ?_,
      hwf1, hf, hr, hcont⟩
    · simp [call, food_result ov q1 size r hwf1]
    · simp [call, food_result ov q2 size r hwf2, hcont]
  | check_rect_overlap_snake size =>
    have h1 := snake_result ov q1 size hwf1
    have h2 := snake_result ov q2 size hwf2
    rw [← hcont] at h2
    cases hs : selfOverlap ov size (contents q1) with
    | none =>
      left
      rw [hs] at h1 h2
      exact ⟨by simp [call, h1], by simp [call, h2], size, rfl⟩
    | some v =>
      right
      rw [hs] at h1 h2
      exact ⟨q1, q2, Obs.int v, by simp [call, h1], by simp [call, h2], hwf1, hf, hr, hcont⟩

theorem sameLive_observe (ov : tRectangle → tRectangle → Int) (calls : List Call)
    (q1 q2 : CircularQueue) (h : SameLive q1 q2) :
    observe ov q1 calls = observe ov q2 calls ∧
      ∀ k : Nat, (observe ov q1 calls)[k]? = some none →
        ∃ S, calls[k]? = some (Call.check_rect_overlap_snake S) := by
  induction calls generalizing q1 q2 with
  | nil => exact ⟨rfl, fun k hk => by simp [observe] at hk⟩
  | cons c cs ih =>
    rcases sameLive_call ov q1 q2 c h with ⟨h1, h2, S, hS⟩ | ⟨q1', q2', v, h1, h2, h'⟩
    · refine ⟨by simp only [observe, h1, h2], ?_⟩
      intro k hk
      simp only [observe, h1] at hk
      cases k with
      | zero => exact ⟨S, by simp [hS]⟩
      | succ n => simp at hk
    · obtain ⟨ih1, ih2⟩ := ih q1' q2' h'
      refine ⟨by simp only [observe, h1, h2, ih1], ?_⟩
      intro k hk
      simp only [observe, h1] at hk
      cases k with
      | zero => simp at hk
      | succ n =>
        simp only [List.getElem?_cons_succ] at hk ⊢
        exact ih2 n hk

/-! ## The game loop keeps its invariant -/

theorem front_ne_of_full (q : CircularQueue) (hwf : WellFormed q) (hfull : check_full q = 1) :
    q.front ≠ -1 := by
  intro hf
  have h40 := (check_full_iff_count q hwf).1 hfull
  simp [count, hf] at h40

theorem call_enqueue_spec (g : Game) (x y : Int) (hwf : WellFormed g.snake_queue) :
    ∃ q' r, call_enqueue g x y =
        some { g with snake_queue := q', log := g.log ++ [QCall.enqueue x y r] } ∧
      WellFormed q' ∧ q'.front ≠ -1 ∧
      ∀ c ∈ contents q', c ∈ contents g.snake_queue ∨ c = ⟨x, y⟩ := by
  rcases check_full_zero_or_one g.snake_queue with hnf | hfull
  · obtain ⟨q', he, hwf', hne', _, hcont⟩ := enqueue_post g.snake_queue x y hwf hnf
    refine ⟨q', 1, by simp only [call_enqueue, he], hwf', hne', ?_⟩
    intro c hc
    rw [hcont, List.mem_append, List.mem_singleton] at hc
    exact hc
  · have he := enqueue_of_full g.snake_queue x y hfull
    refine ⟨g.snake_queue, 0, by simp only [call_enqueue, he], hwf,
      front_ne_of_full _ hwf hfull, ?_⟩
    intro c hc
    exact Or.inl hc

theorem call_dequeue_spec (g : Game) (hwf : WellFormed g.snake_queue) :
    ∃ q' c, call_dequeue g =
        some { g with snake_queue := q'
                      log := g.log ++ [QCall.dequeue (check_empty g.snake_queue) c] } ∧
      WellFormed q' ∧ ∀ c ∈ contents q', c ∈ contents g.snake_queue := by
  by_cases hf : g.snake_queue.front = -1
  · have he := dequeue_of_empty g.snake_queue hf
    exact ⟨g.snake_queue, ⟨-1, -1⟩, by simp only [call_dequeue, he], hwf, fun c hc => hc⟩
  · obtain ⟨q', he, hwf', _, hcont, _⟩ := dequeue_post g.snake_queue hwf hf
    refine ⟨q', g.snake_queue.queue (wrapSlot g.snake_queue.front),
      by simp only [call_dequeue, he], hwf', ?_⟩
    intro c hc
    rw [hcont]
    exact List.mem_cons_of_mem _ hc

theorem logOk_append (log : List QCall) (e : QCall) (h : LogOk log)
    (he : ∀ x y r, e = QCall.enqueue x y r → -6 ≤ x ∧ -6 ≤ y) : LogOk (log ++ [e]) := by
  intro x y r hmem
  rw [List.mem_append, List.mem_singleton] at hmem
  rcases hmem with hmem | hmem
  · exact h x y r hmem
  · exact he x y r hmem.symm

theorem roundInv_mid (g : Game) (h : RoundInv g) : MidInv g :=
  { wf := h.wf
    nonempty := h.nonempty
    log := h.log
    stored := fun c hc => Or.inl (h.stored c hc)
    xmod := h.xmod
    xlo := by have := h.xlo; omega
    xhi := by have := h.xhi; omega
    ymod := h.ymod
    ylo := by have := h.ylo; omega
    yhi := by have := h.yhi; omega }

theorem move_inv (g : Game) (body : tRectangle) (hinv : RoundInv g)
    (hxm : body.i16XMin % 11 = 5) (hx0 : -6 ≤ body.i16XMin) (hx1 : body.i16XMin ≤ 126)
    (hym : body.i16YMin % 11 = 5) (hy0 : -6 ≤ body.i16YMin) (hy1 : body.i16YMin ≤ 126) :
    ∃ g', move g body = some g' ∧ MidInv g' := by
  have hnew : ∀ x y r, QCall.enqueue body.i16XMin body.i16YMin r = QCall.enqueue x y r →
      -6 ≤ x ∧ -6 ≤ y := by
    intro x y r h
    simp only [QCall.enqueue.injEq] at h
    rw [← h.1, ← h.2.1]
    exact ⟨hx0, hy0⟩
  by_cases hskip : g.skip_dequeue = 0
  · obtain ⟨q1, c1, hd, hwf1, hsub1⟩ := call_dequeue_spec g hinv.wf
    obtain ⟨q2, r, he, hwf2, hne2, hsub2⟩ :=
      call_enqueue_spec
        { g with snake_queue := q1
                 log := g.log ++ [QCall.dequeue (check_empty g.snake_queue) c1]
                 snake_body := body } body.i16XMin body.i16YMin hwf1
    simp only [move, if_pos hskip, hd, he]
    refine ⟨_, rfl, ?_⟩
    exact
      { wf := hwf2
        nonempty := hne2
        log := by
          apply logOk_append
          · apply logOk_append _ _ hinv.log
            intro x y r h
            cases h
          · intro x y r' h
            simp only [QCall.enqueue.injEq] at h
            rw [← h.1, ← h.2.1]
            exact ⟨hx0, hy0⟩
        stored := by
          intro c hc
          rcases hsub2 c hc with h | h
          · exact Or.inl (hinv.stored c (hsub1 c h))
          · exact Or.inr h
        xmod := hxm
        xlo := hx0
        xhi := hx1
        ymod := hym
        ylo := hy0
        yhi := hy1 }
  · obtain ⟨q2, r, he, hwf2, hne2, hsub2⟩ :=
      call_enqueue_spec { g with snake_body := body } body.i16XMin body.i16YMin hinv.wf
    simp only [move, if_neg hskip, he]
    refine ⟨_, rfl, ?_⟩
    exact
      { wf := hwf2
        nonempty := hne2
        log := by
          apply logOk_append _ _ hinv.log
          intro x y r' h
          simp only [QCall.enqueue.injEq] at h
          rw [← h.1, ← h.2.1]
          exact ⟨hx0, hy0⟩
        stored := by
          intro c hc
          rcases hsub2 c hc with h | h
          · exact Or.inl (hinv.stored c h)
          · exact Or.inr h
        xmod := hxm
        xlo := hx0
        xhi := hx1
        ymod := hym
        ylo := hy0
        yhi := hy1 }

theorem movement_inv (g : Game) (ver hor : Nat) (hinv : RoundInv g) :
    ∃ g', movement g ver hor = some g' ∧ MidInv g' := by
  have hx0 := hinv.xlo
  have hx1 := hinv.xhi
  have hxm := hinv.xmod
  have hy0 := hinv.ylo
  have hy1 := hinv.yhi
  have hym := hinv.ymod
  have hyu : wrap16 (g.snake_body.i16YMin - (snake_body_size + 2)) =
      g.snake_body.i16YMin - 11 := by
    unfold wrap16
    simp only [snake_body_size]
    omega
  have hyd : wrap16 (g.snake_body.i16YMin + (snake_body_size + 2)) =
      g.snake_body.i16YMin + 11 := by
    unfold wrap16
    simp only [snake_body_size]
    omega
  have hxl : wrap16 (g.snake_body.i16XMin - (snake_body_size + 2)) =
      g.snake_body.i16XMin - 11 := by
    unfold wrap16
    simp only [snake_body_size]
    omega
  have hxr : wrap16 (g.snake_body.i16XMin + (snake_body_size + 2)) =
      g.snake_body.i16XMin + 11 := by
    unfold wrap16
    simp only [snake_body_size]
    omega
  unfold movement
  split
  · rw [hyu]
    exact move_inv g _ hinv hxm (by dsimp only; omega) (by dsimp only; omega) (by dsimp only; omega)
      (by dsimp only; omega) (by dsimp only; omega)
  · split
    · rw [hxr]
      exact move_inv g _ hinv (by dsimp only; omega) (by dsimp only; omega)
        (by dsimp only; omega) hym (by dsimp only; omega) (by dsimp only; omega)
    · split
      · rw [hyd]
        exact move_inv g _ hinv hxm (by dsimp only; omega) (by dsimp only; omega) (by dsimp only; omega)
          (by dsimp only; omega) (by dsimp only; omega)
      · split
        · rw [hxl]
          exact move_inv g _ hinv (by dsimp only; omega) (by dsimp only; omega)
            (by dsimp only; omega) hym (by dsimp only; omega) (by dsimp only; omega)
        · exact ⟨g, rfl, roundInv_mid g hinv⟩

theorem midInv_congr (g g' : Game) (h : MidInv g) (hq : g'.snake_queue = g.snake_queue)
    (hl : g'.log = g.log) (hx : g'.snake_body.i16XMin = g.snake_body.i16XMin)
    (hy : g'.snake_body.i16YMin = g.snake_body.i16YMin) : MidInv g' :=
  { wf := hq ▸ h.wf
    nonempty := hq ▸ h.nonempty
    log := hl ▸ h.log
    stored := by
      rw [hq, hx, hy]
      exact h.stored
    xmod := hx ▸ h.xmod
    xlo := hx ▸ h.xlo
    xhi := hx ▸ h.xhi
    ymod := hy ▸ h.ymod
    ylo := hy ▸ h.ylo
    yhi := hy ▸ h.yhi }

theorem spawn_loop_defined (ov : tRectangle → tRectangle → Int) (q : CircularQueue)
    (hwf : WellFormed q) (cands : List (Int × Int)) (f : tRectangle) :
    spawn_loop ov q f cands ≠ Spawn.undefined := by
  induction cands generalizing f with
  | nil => simp [spawn_loop]
  | cons c cs ih =>
    obtain ⟨fx, fy⟩ := c
    unfold spawn_loop
    simp only
    split
    · exact ih _
    · rw [food_result ov q snake_body_size _ hwf]
      simp only
      split
      · exact ih _
      · simp

theorem exit_inv (g : Game) (h : MidInv g) (e : Exit) :
    CtlInv (Outcome.exit e (call_empty_queue g)).ctl := by
  refine ⟨wellFormed_sentinel _, ?_, ?_⟩
  · apply logOk_append _ _ h.log
    intro x y r hc
    cases hc
  · intro c hc
    rw [show contents (call_empty_queue g).snake_queue = [] from contents_of_empty _ rfl] at hc
    cases hc

theorem roundInv_of_mid (g g1 : Game) (h : MidInv g)
    (hq : g1.snake_queue = g.snake_queue) (hl : g1.log = g.log)
    (hb : g1.snake_body = g.snake_body)
    (hx0 : 0 ≤ g.snake_body.i16XMin) (hx1 : g.snake_body.i16XMin ≤ 119)
    (hy0 : 0 ≤ g.snake_body.i16YMin) (hy1 : g.snake_body.i16YMin ≤ 119) : RoundInv g1 :=
  { wf := hq ▸ h.wf
    nonempty := hq ▸ h.nonempty
    log := hl ▸ h.log
    stored := by
      intro c hc
      rw [hq] at hc
      rcases h.stored c hc with hnn | heq
      · exact hnn
      · rw [heq]
        exact ⟨hx0, hy0⟩
    xmod := hb ▸ h.xmod
    xlo := hb ▸ hx0
    xhi := hb ▸ hx1
    ymod := hb ▸ h.ymod
    ylo := hb ▸ hy0
    yhi := hb ▸ hy1 }

theorem game_logic_inv (ov : tRectangle → tRectangle → Int) (g : Game) (h : MidInv g)
    (hxmax : g.snake_body.i16XMax = wrap16 (g.snake_body.i16XMin + snake_body_size))
    (hymax : g.snake_body.i16YMax = wrap16 (g.snake_body.i16YMin + snake_body_size)) :
    CtlInv (game_logic ov g).ctl := by
  have hx0 := h.xlo
  have hx1 := h.xhi
  have hy0 := h.ylo
  have hy1 := h.yhi
  have hwx : wrap16 (g.snake_body.i16XMin + snake_body_size) = g.snake_body.i16XMin + 9 := by
    unfold wrap16
    simp only [snake_body_size]
    omega
  have hwy : wrap16 (g.snake_body.i16YMin + snake_body_size) = g.snake_body.i16YMin + 9 := by
    unfold wrap16
    simp only [snake_body_size]
    omega
  rw [hwx] at hxmax
  rw [hwy] at hymax
  unfold game_logic
  split
  · exact exit_inv g h Exit.out_of_bound
  · rename_i hin
    have hres := snake_result ov g.snake_queue (snake_body_size - snake_body_size) h.wf
    unfold selfOverlap at hres
    rw [getLast?_contents g.snake_queue h.wf h.nonempty] at hres
    rw [hres]
    simp only
    split
    · exact exit_inv g h Exit.self_overlap
    · have hround : ∀ g1 : Game, g1.snake_queue = g.snake_queue → g1.log = g.log →
          g1.snake_body = g.snake_body → RoundInv g1 := fun g1 hq hl hb =>
        roundInv_of_mid g g1 h hq hl hb (by omega) (by omega) (by omega) (by omega)
      split
      · split
        · exact ⟨(hround _ rfl rfl rfl).wf, (hround _ rfl rfl rfl).log,
            (hround _ rfl rfl rfl).stored⟩
        · exact hround _ rfl rfl rfl
      · split
        · exact ⟨(hround _ rfl rfl rfl).wf, (hround _ rfl rfl rfl).log,
            (hround _ rfl rfl rfl).stored⟩
        · exact hround _ rfl rfl rfl

theorem tick_inv (ov : tRectangle → tRectangle → Int) (g : Game) (i : Input)
    (h : RoundInv g) : CtlInv (tick ov g i).ctl := by
  obtain ⟨g1, hm, hmid⟩ := movement_inv g i.joystick_val_ver i.joystick_val_hor h
  unfold tick
  rw [hm]
  simp only
  split
  · have hdef := spawn_loop_defined ov g1.snake_queue hmid.wf i.food g1.food_
    split
    · rename_i heq
      exact absurd heq hdef
    · exact hmid.log
    · exact game_logic_inv ov _ (midInv_congr g1 _ hmid rfl rfl rfl rfl) rfl rfl
  · exact game_logic_inv ov _ (midInv_congr g1 _ hmid rfl rfl rfl rfl) rfl rfl

theorem round_start_inv (g : Game) (hwf : WellFormed g.snake_queue) (hlog : LogOk g.log)
    (hst : StoredNonneg g.snake_queue) : ∃ g', round_start g = some g' ∧ RoundInv g' := by
  obtain ⟨q', r, he, hwf', hne', hsub⟩ :=
    call_enqueue_spec
      { g with spawn_food := 1, num_food_eaten := 0
               snake_body :=
                 { i16XMin := 60, i16YMin := 60
                   i16XMax := wrap16 (60 + snake_body_size)
                   i16YMax := wrap16 (60 + snake_body_size) } } 60 60 hwf
  simp only [round_start, he]
  refine ⟨_, rfl, ?_⟩
  exact
    { wf := hwf'
      nonempty := hne'
      log := by
        apply logOk_append _ _ hlog
        intro x y r' hc
        simp only [QCall.enqueue.injEq] at hc
        rw [← hc.1, ← hc.2.1]
        decide
      stored := by
        intro c hc
        rcases hsub c hc with hc' | hc'
        · exact hst c hc'
        · rw [hc']
          decide
      xmod := by dsimp only; omega
      xlo := by dsimp only; omega
      xhi := by dsimp only; omega
      ymod := by dsimp only; omega
      ylo := by dsimp only; omega
      yhi := by dsimp only; omega }

theorem play_inv (ov : tRectangle → tRectangle → Int) (inputs : List Input) (c : Ctl)
    (h : CtlInv c) : CtlInv (play ov c inputs) := by
  induction inputs generalizing c with
  | nil =>
    cases c <;> exact h
  | cons i rest ih =>
    cases c with
    | start e g =>
      obtain ⟨hwf, hlog, hst⟩ := h
      obtain ⟨g', hg', hinv⟩ := round_start_inv g hwf hlog hst
      simp only [play, hg']
      exact ih _ (tick_inv ov g' i hinv)
    | round g =>
      simp only [play]
      exact ih _ (tick_inv ov g i h)
    | waiting g => exact h
    | undefined => exact h

/-! ## The recorded reads of the overlap loops -/

theorem traced_loop_fst (ov : tRectangle → tRectangle → Int) (q : CircularQueue) (size : Int)
    (r : tRectangle) (fuel : Nat) (temp : Int) :
    (traced_loop ov q size r fuel temp).map Prod.fst = food_loop ov q size r fuel temp := by
  induction fuel generalizing temp with
  | zero => rfl
  | succ n ih =>
    unfold traced_loop food_loop
    split
    · split
      · rfl
      · split
        · rfl
        · rw [← ih, Option.map_map]
          rfl
    · rfl

theorem traced_loop_spec (ov : tRectangle → tRectangle → Int) (q : CircularQueue) (size : Int)
    (r : tRectangle) (hr0 : 0 ≤ q.rear) (hr1 : q.rear < 40) (m : Nat) :
    ∀ (fuel : Nat) (temp : Int), m < fuel → 0 ≤ temp → temp < 40 → m < 40 →
      (temp + (m : Int)) % 40 = q.rear →
      ∃ v reads, traced_loop ov q size r fuel temp = some (v, reads) ∧
        reads.length ≤ m ∧ ∀ t ∈ reads, 0 ≤ t ∧ t < 40 := by
  induction m with
  | zero =>
    intro fuel temp hfuel h0 h1 _ hmod
    obtain ⟨f, rfl⟩ : ∃ f, fuel = f + 1 := ⟨fuel - 1, by omega⟩
    have ht : temp = q.rear := by
      simp only [Nat.cast_zero, add_zero] at hmod
      omega
    unfold traced_loop
    rw [if_neg (by simp [ht])]
    exact ⟨0, [], rfl, Nat.le_refl _, fun t ht => by cases ht⟩
  | succ m ih =>
    intro fuel temp hfuel h0 h1 hm hmod
    obtain ⟨f, rfl⟩ : ∃ f, fuel = f + 1 := ⟨fuel - 1, by omega⟩
    have ht : temp ≠ q.rear := by
      push_cast at hmod
      omega
    unfold traced_loop
    rw [if_pos ht, slot?_eq_some temp h0 h1]
    simp only
    by_cases hov : ov r (snake_part q size (wrapSlot temp)) ≠ 0
    · rw [if_pos hov]
      refine ⟨1, [temp], rfl, by simp, ?_⟩
      intro t ht'
      rw [List.mem_singleton] at ht'
      rw [ht']
      exact ⟨h0, h1⟩
    · rw [if_neg hov, tmod_queuesize _ (by omega)]
      obtain ⟨v, reads, hrec, hlen, hin⟩ :=
        ih f ((temp + 1) % 40) (by omega) (by omega) (by omega) (by omega)
          (by push_cast at hmod; omega)
      rw [hrec]
      refine ⟨v, temp :: reads, rfl, by simp only [List.length_cons]; omega, ?_⟩
      intro t ht'
      rw [List.mem_cons] at ht'
      rcases ht' with ht' | ht'
      · rw [ht']
        exact ⟨h0, h1⟩
      · exact hin t ht'

theorem traced_loop_wellFormed (ov : tRectangle → tRectangle → Int) (q : CircularQueue)
    (size : Int) (r : tRectangle) (hwf : WellFormed q) (hne : q.front ≠ -1) :
    ∃ v reads, traced_loop ov q size r QUEUESIZE q.front = some (v, reads) ∧
      reads.length ≤ count q - 1 ∧ ∀ t ∈ reads, 0 ≤ t ∧ t < 40 := by
  have hb := nonempty_bounds q hwf hne
  have hc := count_eq q
  rw [if_neg hne] at hc
  have hle := count_le q
  exact traced_loop_spec ov q size r hb.2.2.1 hb.2.2.2 (count q - 1) QUEUESIZE q.front
    (by simp only [QUEUESIZE]; omega) hb.1 hb.2.1 (by omega) (by omega)

theorem rear_of_empty (q : CircularQueue) (hwf : WellFormed q) (hf : q.front = -1) :
    q.rear = -1 := by
  rcases wellFormed_bounds q hwf with ⟨_, hr⟩ | ⟨h0, _⟩
  · exact hr
  · omega

theorem length_dropLast_contents (q : CircularQueue) :
    (contents q).dropLast.length = count q - 1 := by
  rw [List.length_dropLast, length_contents]

theorem reachable_touchingSegments : Reachable touchingSegments :=
  ⟨zeroArray, [Op.enq 10 10, Op.enq 19 10],
    { q := touchingSegments, rets := [Ret.enq 1, Ret.enq 1]
      enqueued := [⟨10, 10⟩, ⟨19, 10⟩], dequeued := [], live := 2 },
    rfl, rfl⟩

theorem count_update_queue (q : CircularQueue) (a : Fin QUEUESIZE → Coordinat) :
    count ({ q with queue := a } : CircularQueue) = count q := rfl

theorem dropLast_contents_update_rear (q : CircularQueue) (hwf : WellFormed q)
    (hne : q.front ≠ -1) (c : Coordinat) :
    (contents ({ q with queue := Function.update q.queue (wrapSlot q.rear) c } :
      CircularQueue)).dropLast = (contents q).dropLast := by
  have hb := nonempty_bounds q hwf hne
  have hc := count_eq q
  rw [if_neg hne] at hc
  have hwf' : WellFormed ({ q with queue := Function.update q.queue (wrapSlot q.rear) c } :
      CircularQueue) := hwf
  rw [dropLast_contents _ hwf' hne, dropLast_contents q hwf hne, count_update_queue]
  apply List.map_congr_left
  intro j hj
  rw [List.mem_range] at hj
  apply Function.update_noteq
  rw [Ne, wrapSlot_eq_iff]
  dsimp only
  omega

theorem front_eq_rear_of_count_le_one (q : CircularQueue) (hwf : WellFormed q)
    (h : count q ≤ 1) : q.front = q.rear := by
  have hc := count_eq q
  rcases wellFormed_bounds q hwf with ⟨hf, hr⟩ | ⟨h0, h1, h2, h3⟩
  · rw [hf, hr]
  · rw [if_neg (by omega)] at hc
    omega

/-! ## The LED dimming loop -/

theorem poll_step_range (k : Int) (p : Poll) (h0 : 0 ≤ k) (h1 : k ≤ 100) :
    0 ≤ (poll_step k p).1 ∧ (poll_step k p).1 ≤ 100 := by
  have hl : 0 ≤ left_press k ∧ left_press k ≤ 100 := by
    unfold left_press wrap8
    split <;> omega
  have hr : ∀ j : Int, 0 ≤ j → j ≤ 100 → 0 ≤ right_press j ∧ right_press j ≤ 100 := by
    intro j hj0 hj1
    unfold right_press wrap8
    split <;> omega
  obtain ⟨l, r⟩ := p
  cases l <;> cases r
  · exact ⟨h0, h1⟩
  · exact hr k h0 h1
  · exact hl
  · exact hr _ hl.1 hl.2

theorem led_update_pulse (k k' : Int) (h : led_update k = LedAction.pulse_width k') :
    k' = k ∧ 1 ≤ k ∧ k ≤ 99 := by
  unfold led_update at h
  split at h
  · cases h
  · split at h
    · cases h
    · split at h
      · rename_i hk
        simp only [LedAction.pulse_width.injEq] at h
        exact ⟨h.symm, hk.1, hk.2⟩
      · cases h

theorem poll_loop_range (polls : List Poll) (k : Int) (h0 : 0 ≤ k) (h1 : k ≤ 100) :
    0 ≤ (poll_loop k polls).1 ∧ (poll_loop k polls).1 ≤ 100 ∧
      ∀ k', LedAction.pulse_width k' ∈ (poll_loop k polls).2 → 1 ≤ k' ∧ k' ≤ 99 := by
  induction polls generalizing k with
  | nil =>
    refine ⟨h0, h1, ?_⟩
    intro k' hk
    simp [poll_loop] at hk
  | cons p ps ih =>
    obtain ⟨hs0, hs1⟩ := poll_step_range k p h0 h1
    obtain ⟨i0, i1, i2⟩ := ih (poll_step k p).1 hs0 hs1
    refine ⟨i0, i1, ?_⟩
    intro k' hk
    simp only [poll_loop, List.mem_cons] at hk
    rcases hk with hk | hk
    · obtain ⟨he, hlo, hhi⟩ := led_update_pulse _ _ hk.symm
      rw [he]
      exact ⟨hlo, hhi⟩
    · exact i2 k' hk

/-! ## `reverse_string` and `itoa` on buffers that are large enough -/

theorem digit_store (d : Nat) (hd : d < 36) :
    toChar (if (d : Int) > 9 then ((d : Int) - 10) + 97 else (d : Int) + 48) = digitCode d := by
  interval_cases d <;> rfl

theorem store_eq (str : CharBuf) (i : Nat) (c : Int) (h : i < str.size) :
    str.store (i : Int) c = some { str with chars := Function.update str.chars i c } := by
  unfold CharBuf.store
  rw [if_pos ⟨by omega, by omega⟩]
  simp

theorem load_eq (str : CharBuf) (i : Nat) (h : i < str.size) :
    str.load (i : Int) = some (str.chars i) := by
  unfold CharBuf.load
  rw [if_pos ⟨by omega, by omega⟩]
  simp

theorem itoa_loop_spec (b : Nat) (hb : 2 ≤ b) (hb36 : b ≤ 36) (fuel : Nat) :
    ∀ (n : Nat) (str : CharBuf) (i : Nat), n < 2 ^ fuel →
      i + (Nat.digits b n).length ≤ str.size →
      ∃ out, itoa_loop (b : Int) (fuel + 1) str (i : Int) (n : Int) =
          some (out, ((i + (Nat.digits b n).length : Nat) : Int)) ∧
        out.size = str.size ∧ (∀ k, k < i → out.chars k = str.chars k) ∧
        ∀ j, j < (Nat.digits b n).length →
          out.chars (i + j) = digitCode ((Nat.digits b n).getD j 0) := by
  induction fuel with
  | zero =>
    intro n str i hn _
    have h0 : n = 0 := by simpa using hn
    subst h0
    refine ⟨str, ?_, rfl, fun _ _ => rfl, ?_⟩
    · unfold itoa_loop
      simp
    · intro j hj
      simp at hj
  | succ f ih =>
    intro n str i hn hcap
    by_cases h0 : n = 0
    · subst h0
      refine ⟨str, ?_, rfl, fun _ _ => rfl, ?_⟩
      · unfold itoa_loop
        simp
      · intro j hj
        simp at hj
    · have hpos : 0 < n := Nat.pos_of_ne_zero h0
      have hdig := Nat.digits_def' (by omega : 1 < b) hpos
      rw [hdig] at hcap ⊢
      simp only [List.length_cons] at hcap ⊢
      have hlt : n % b < 36 := lt_of_lt_of_le (Nat.mod_lt _ (by omega)) hb36
      have hdiv : n / b < 2 ^ f := by
        apply Nat.div_lt_of_lt_mul
        calc n < 2 ^ (f + 1) := hn
          _ = 2 * 2 ^ f := by rw [pow_succ, mul_comm]
          _ ≤ b * 2 ^ f := Nat.mul_le_mul_right _ hb
      have hrem : Int.tmod (n : Int) (b : Int) = ((n % b : Nat) : Int) := by
        rw [Int.tmod_eq_emod (by omega) (by omega), Int.ofNat_emod]
      have hquo : Int.tdiv (n : Int) (b : Int) = ((n / b : Nat) : Int) := by
        rw [Int.tdiv_eq_ediv (by omega) (by omega), Int.ofNat_ediv]
      obtain ⟨out, hout, hsize, hlow, hdigs⟩ :=
        ih (n / b) { str with chars := Function.update str.chars i (digitCode (n % b)) } (i + 1)
          hdiv (by simp only; omega)
      refine ⟨out, ?_, hsize, ?_, ?_⟩
      · rw [itoa_loop]
        rw [if_pos (by omega), if_neg (by omega)]
        simp only
        rw [hrem, digit_store _ hlt, store_eq _ _ _ (by omega), hquo]
        simp only
        have hi : ((i : Int) + 1) = ((i + 1 : Nat) : Int) := by push_cast; rfl
        rw [hi, hout]
        congr 2
        push_cast
        omega
      · intro k hk
        rw [hlow k (by omega)]
        simp only
        exact Function.update_noteq (by omega) _ _
      · intro j hj
        cases j with
        | zero =>
          rw [Nat.add_zero, hlow i (by omega)]
          simp
        | succ j =>
          have := hdigs j (by omega)
          rw [show i + (j + 1) = i + 1 + j by omega, this]
          simp

theorem reverse_string_loop_spec (fuel : Nat) :
    ∀ (str : CharBuf) (s e : Nat), e < str.size → s ≤ e + 1 → e + 1 - s < 2 * fuel →
      ∃ out, reverse_string_loop fuel str (s : Int) (e : Int) = some out ∧
        out.size = str.size ∧
        ∀ k, out.chars k = if s ≤ k ∧ k ≤ e then str.chars (s + e - k) else str.chars k := by
  induction fuel with
  | zero =>
    intro str s e _ _ h
    omega
  | succ f ih =>
    intro str s e he hse hfuel
    by_cases hlt : s < e
    · obtain ⟨out, hout, hsize, hchars⟩ :=
        ih { size := str.size,
             chars := Function.update (Function.update str.chars s (str.chars e)) e (str.chars s) }
          (s + 1) (e - 1) (by simp only; omega) (by omega) (by omega)
      refine ⟨out, ?_, hsize, ?_⟩
      · rw [reverse_string_loop, if_pos (by omega), load_eq _ _ (by omega), load_eq _ _ he]
        simp only
        rw [store_eq _ _ _ (by omega)]
        simp only
        rw [store_eq _ _ _ (by simp only; omega)]
        simp only
        have h1 : ((s : Int) + 1) = ((s + 1 : Nat) : Int) := by push_cast; rfl
        have h2 : ((e : Int) - 1) = ((e - 1 : Nat) : Int) := by omega
        rw [h1, h2, hout]
      · intro k
        rw [hchars k]
        simp only [Function.update_apply]
        split_ifs <;> first | omega | rfl | (congr 1; omega)
    · refine ⟨str, ?_, rfl, ?_⟩
      · rw [reverse_string_loop, if_neg (by omega)]
      · intro k
        split_ifs with h
        · have : s + e - k = k := by omega
          rw [this]
        · rfl

theorem reverse_string_spec (str : CharBuf) (n : Nat) (hn : n ≤ str.size) :
    ∃ out, reverse_string str (n : Int) = some out ∧ out.size = str.size ∧
      ∀ k, out.chars k = if k < n then str.chars (n - 1 - k) else str.chars k := by
  by_cases h0 : n = 0
  · subst h0
    refine ⟨str, ?_, rfl, fun k => by simp⟩
    unfold reverse_string
    simp [reverse_string_loop]
  · obtain ⟨out, hout, hsize, hchars⟩ :=
      reverse_string_loop_spec (n + 1) str 0 (n - 1) (by omega) (by omega) (by omega)
    refine ⟨out, ?_, hsize, ?_⟩
    · unfold reverse_string
      have h2 : ((n : Int) - 1) = ((n - 1 : Nat) : Int) := by omega
      rw [h2, Int.toNat_ofNat]
      exact hout
    · intro k
      rw [hchars k]
      split_ifs <;> first | omega | rfl | (congr 1; omega)

/-! ## Reading numerals back -/

theorem digitCode_facts : ∀ d, d < 36 →
    digitCode d ≠ 45 ∧ digitCode d ≠ 0 ∧ ∀ b, d < b → digitValue b (digitCode d) = some d := by
  intro d hd
  interval_cases d <;>
    refine ⟨by decide, by decide, fun b hb => ?_⟩ <;>
    simp [digitValue, digitCode, digitChars] <;> omega

theorem parseDigits_snoc (b : Nat) (s : List Int) (c : Int) :
    parseDigits b (s ++ [c]) =
      (parseDigits b s).bind fun v => (digitValue b c).map fun d => v * b + d := by
  unfold parseDigits
  rw [List.foldl_append]
  rfl

theorem parseDigits_digits (b : Nat) (hb36 : b ≤ 36) (ds : List Nat) (h : ∀ d ∈ ds, d < b) :
    parseDigits b (ds.reverse.map digitCode) = some (Nat.ofDigits b ds) := by
  induction ds with
  | nil => rfl
  | cons d t ih =>
    have hd : d < b := h d (List.mem_cons_self _ _)
    rw [List.reverse_cons, List.map_append, List.map_singleton, parseDigits_snoc,
      ih (fun x hx => h x (List.mem_cons_of_mem _ hx)),
      (digitCode_facts d (by omega)).2.2 b hd, Nat.ofDigits_cons]
    simp only [Option.some_bind, Option.map_some']
    congr 1
    rw [Nat.mul_comm, Nat.add_comm]

theorem parseNumeral_of_digits (b : Nat) (s : List Int) (hs : s ≠ []) (h : ∀ c ∈ s, c ≠ 45) :
    parseNumeral b s = (parseDigits b s).map fun (v : Nat) => (v : Int) := by
  cases s with
  | nil => exact absurd rfl hs
  | cons c rest =>
    unfold parseNumeral
    simp only
    rw [if_neg (h c (List.mem_cons_self _ _))]

theorem firstChars_eq (out : CharBuf) (l : List Int)
    (h : ∀ k, k < l.length → out.chars k = l.getD k 0) : out.firstChars l.length = l := by
  unfold CharBuf.firstChars
  apply List.ext_getElem
  · simp
  · intro k h1 h2
    rw [List.getElem_map, List.getElem_range, h k h2, List.getD_eq_getElem _ _ h2]

theorem digits_reverse_getD (ds : List Nat) (k : Nat) (hk : k < ds.length) :
    (ds.reverse.map digitCode).getD k 0 = digitCode (ds.getD (ds.length - 1 - k) 0) := by
  rw [List.getD_eq_getElem _ _ (by simpa using hk), List.getElem_map, List.getElem_reverse,
    List.getD_eq_getElem _ _ (by omega)]

theorem numeral_nonzero (b : Nat) (num : Int) (h0 : num ≠ 0) :
    numeral b num = (if num < 0 then [(45 : Int)] else []) ++
      (Nat.digits b num.natAbs).reverse.map digitCode := by
  unfold numeral
  rw [if_neg h0]
  rfl

theorem itoa_nonzero (num : Int) (str : CharBuf) (b : Nat) (hb : 2 ≤ b) (hb36 : b ≤ 36)
    (h0 : num ≠ 0) (hnum : InInt32 num)
    (hcase : 0 ≤ num ∨ (num < 0 ∧ -2147483648 < num ∧ b = 10))
    (hsize : (numeral b num).length < str.size) :
    ∃ out, itoa num str (b : Int) = some out ∧ out.size = str.size ∧
      (∀ k, k < (numeral b num).length → out.chars k = (numeral b num).getD k 0) ∧
      out.chars (numeral b num).length = 0 := by
  have hn32 : num.natAbs < 2 ^ 32 := by
    unfold InInt32 at hnum
    omega
  rw [numeral_nonzero b num h0] at hsize ⊢
  simp only [List.length_append, List.length_map, List.length_reverse] at hsize ⊢
  obtain ⟨out1, hloop, hsize1, -, hdigs⟩ :=
    itoa_loop_spec b hb hb36 32 num.natAbs str 0 hn32 (by omega)
  simp only [Nat.zero_add, Nat.cast_zero] at hloop hdigs
  rcases hcase with hpos | ⟨hneg, hmin, hb10⟩
  · have hnat : ((num.natAbs : Nat) : Int) = num := by omega
    rw [hnat] at hloop
    have hneg : ¬ num < 0 := by omega
    simp only [if_neg hneg, List.length_nil, Nat.zero_add, List.nil_append] at hsize ⊢
    obtain ⟨out, hrev, hsz, hchars⟩ := reverse_string_spec
      { out1 with chars := Function.update out1.chars (Nat.digits b num.natAbs).length 0 }
      (Nat.digits b num.natAbs).length (by simp only; omega)
    simp only at hchars hsz
    refine ⟨out, ?_, by rw [hsz]; exact hsize1, ?_, ?_⟩
    · unfold itoa
      rw [if_neg h0]
      simp only [hneg, false_and, decide_False, Bool.false_eq_true, if_false, hloop]
      rw [store_eq _ _ _ (by omega)]
      exact hrev
    · intro k hk
      rw [hchars k, if_pos hk, Function.update_noteq (by omega), digits_reverse_getD _ _ hk,
        hdigs _ (by omega)]
    · rw [hchars, if_neg (by omega), Function.update_same]
  · have hnat : ((num.natAbs : Nat) : Int) = -num := by omega
    have hb10i : (b : Int) = 10 := by omega
    rw [hnat, hb10i] at hloop
    simp only [if_pos hneg, List.length_singleton, List.singleton_append] at hsize ⊢
    rw [Nat.add_comm 1 (Nat.digits b num.natAbs).length] at hsize ⊢
    obtain ⟨out, hrev, hsz, hchars⟩ := reverse_string_spec
      { out1 with chars := (Function.update
          (Function.update out1.chars (Nat.digits b num.natAbs).length 45)
          ((Nat.digits b num.natAbs).length + 1) 0) }
      ((Nat.digits b num.natAbs).length + 1) (by simp only; omega)
    simp only at hchars hsz
    refine ⟨out, ?_, by rw [hsz]; exact hsize1, ?_, ?_⟩
    · unfold itoa
      rw [if_neg h0]
      have hmin2 : ¬ num = -2147483648 := by omega
      simp only [hneg, hb10i, and_self, decide_True, if_true, hmin2, and_false, if_false, hloop]
      rw [store_eq _ _ _ (by omega)]
      simp only [Option.map_some']
      have hi : (((Nat.digits b num.natAbs).length : Int) + 1) =
          (((Nat.digits b num.natAbs).length + 1 : Nat) : Int) := by push_cast; rfl
      rw [hi, store_eq _ _ _ (by simp only; omega)]
      exact hrev
    · intro k hk
      rw [hchars k, if_pos (by omega), Function.update_noteq (by omega)]
      cases k with
      | zero =>
        rw [show (Nat.digits b num.natAbs).length + 1 - 1 - 0 = (Nat.digits b num.natAbs).length
          by omega, Function.update_same]
        rfl
      | succ j =>
        rw [Function.update_noteq (by omega), List.getD_cons_succ,
          digits_reverse_getD _ _ (by omega), hdigs _ (by omega)]
        congr 2
        omega
    · rw [hchars, if_neg (by omega), Function.update_same]

theorem numeral_facts (b : Nat) (hb : 2 ≤ b) (hb36 : b ≤ 36) (num : Int) :
    (∀ c ∈ numeral b num, c ≠ 0) ∧ parseNumeral b (numeral b num) = some num := by
  have hlt : ∀ d ∈ Nat.digits b num.natAbs, d < b := fun d hd => Nat.digits_lt_base (by omega) hd
  have hne : ∀ c ∈ (Nat.digits b num.natAbs).reverse.map digitCode, c ≠ 45 ∧ c ≠ 0 := by
    intro c hc
    obtain ⟨d, hd, rfl⟩ := List.mem_map.1 hc
    have := digitCode_facts d (by have := hlt d (List.mem_reverse.1 hd); omega)
    exact ⟨this.1, this.2.1⟩
  have hparse := parseDigits_digits b hb36 (Nat.digits b num.natAbs) hlt
  rw [Nat.ofDigits_digits] at hparse
  by_cases h0 : num = 0
  · subst h0
    have hz : numeral b 0 = [48] := rfl
    rw [hz]
    refine ⟨by decide, ?_⟩
    have h48 := (digitCode_facts 0 (by omega)).2.2 b (by omega)
    show parseNumeral b [48] = some 0
    unfold parseNumeral
    simp only
    rw [if_neg (by decide)]
    show Option.map _ (parseDigits b ([] ++ [48])) = _
    rw [parseDigits_snoc]
    have : digitValue b 48 = some 0 := h48
    rw [this]
    simp [parseDigits]
  · have hds : (Nat.digits b num.natAbs).reverse.map digitCode ≠ [] := by
      have : Nat.digits b num.natAbs ≠ [] := by
        rw [Ne, Nat.digits_eq_nil_iff_eq_zero]
        omega
      simpa using this
    rw [numeral_nonzero b num h0]
    by_cases hneg : num < 0
    · rw [if_pos hneg]
      refine ⟨?_, ?_⟩
      · intro c hc
        rcases List.mem_append.1 hc with h | h
        · rw [List.mem_singleton.1 h]
          decide
        · exact (hne c h).2
      · rw [List.singleton_append]
        unfold parseNumeral
        simp only
        rw [if_pos trivial, if_neg hds, hparse]
        simp only [Option.map_some']
        congr 1
        omega
    · rw [if_neg hneg, List.nil_append]
      refine ⟨fun c hc => (hne c hc).2, ?_⟩
      rw [parseNumeral_of_digits b _ hds (fun c hc => (hne c hc).1), hparse]
      simp only [Option.map_some']
      congr 1
      omega

theorem itoa_zero_case (str : CharBuf) (b : Nat) (hsize : 1 < str.size) :
    ∃ out, itoa 0 str (b : Int) = some out ∧ out.size = str.size ∧
      out.chars 0 = 48 ∧ out.chars 1 = 0 := by
  refine ⟨{ size := str.size,
             chars := Function.update (Function.update str.chars 0 48) 1 0 }, ?_, ?_, ?_, ?_⟩
  · unfold itoa
    rw [if_pos rfl]
    have h := store_eq str 0 48 (by omega)
    rw [Nat.cast_zero] at h
    rw [h]
    simp only
    have h1 := store_eq { str with chars := Function.update str.chars 0 48 } 1 0
      (by simp only; omega)
    rw [Nat.cast_one] at h1
    exact h1
  · rfl
  · simp
  · simp

/-! ## The movement section of a tick -/

theorem check_full_after_dequeue (q q' : CircularQueue) (hwf' : WellFormed q')
    (hc : count q = count q' + 1) : check_full q' = 0 := by
  rcases check_full_zero_or_one q' with h | h
  · exact h
  · have := (check_full_iff_count q' hwf').1 h
    have := count_le q
    omega

theorem move_spec (g : Game) (body : tRectangle) (hwf : WellFormed g.snake_queue)
    (hne : g.snake_queue.front ≠ -1) :
    (g.skip_dequeue = 0 →
      ∃ g1 c rest, move g body = some g1 ∧ contents g.snake_queue = c :: rest ∧
        contents g1.snake_queue = rest ++ [⟨body.i16XMin, body.i16YMin⟩] ∧
        count g1.snake_queue = count g.snake_queue ∧
        g1.log = g.log ++ [QCall.dequeue 0 c, QCall.enqueue body.i16XMin body.i16YMin 1] ∧
        g1.skip_dequeue = 0 ∧ g1.snake_body = body) ∧
    (g.skip_dequeue ≠ 0 → check_full g.snake_queue = 0 →
      ∃ g1, move g body = some g1 ∧
        contents g1.snake_queue = contents g.snake_queue ++ [⟨body.i16XMin, body.i16YMin⟩] ∧
        count g1.snake_queue = count g.snake_queue + 1 ∧
        g1.log = g.log ++ [QCall.enqueue body.i16XMin body.i16YMin 1] ∧
        g1.skip_dequeue = 0 ∧ g1.snake_body = body) := by
  constructor
  · intro hskip
    obtain ⟨q1, hd, hwf1, hc1, hcont1, _⟩ := dequeue_post g.snake_queue hwf hne
    obtain ⟨q2, he, _, _, hc2, hcont2⟩ := enqueue_post q1 body.i16XMin body.i16YMin hwf1
      (check_full_after_dequeue g.snake_queue q1 hwf1 hc1)
    have hce : check_empty g.snake_queue = 0 := by
      unfold check_empty
      rw [if_neg hne]
    have hmove : move g body = some
        { g with snake_body := body, skip_dequeue := 0, snake_queue := q2,
                 log := g.log ++ [QCall.dequeue 0 (g.snake_queue.queue (wrapSlot g.snake_queue.front)),
                   QCall.enqueue body.i16XMin body.i16YMin 1] } := by
      unfold move
      rw [if_pos hskip]
      simp only [call_dequeue, hd, call_enqueue, he, hce, List.append_assoc,
        List.singleton_append]
    exact ⟨_, _, _, hmove, hcont1, hcont2, by simp only; omega, rfl, rfl, rfl⟩
  · intro hskip hnf
    obtain ⟨q2, he, _, _, hc2, hcont2⟩ :=
      enqueue_post g.snake_queue body.i16XMin body.i16YMin hwf hnf
    have hmove : move g body = some
        { g with snake_body := body, skip_dequeue := 0, snake_queue := q2,
                 log := g.log ++ [QCall.enqueue body.i16XMin body.i16YMin 1] } := by
      unfold move
      rw [if_neg hskip]
      simp only [call_enqueue, he]
    exact ⟨_, hmove, hcont2, hc2, rfl, rfl, rfl⟩

theorem movement_eq_move (g : Game) (ver hor : Nat)
    (h : ver > 70 ∨ hor > 70 ∨ ver < 30 ∨ hor < 30) :
    ∃ body, movement g ver hor = move g body := by
  unfold movement
  split
  · exact ⟨_, rfl⟩
  · split
    · exact ⟨_, rfl⟩
    · split
      · exact ⟨_, rfl⟩
      · split
        · exact ⟨_, rfl⟩
        · omega

theorem movement_none (g : Game) (ver hor : Nat)
    (h : ¬ (ver > 70 ∨ hor > 70 ∨ ver < 30 ∨ hor < 30)) : movement g ver hor = some g := by
  unfold movement
  rw [if_neg (by omega), if_neg (by omega), if_neg (by omega), if_neg (by omega)]

theorem game_logic_cases (ov : tRectangle → tRectangle → Int) (g : Game) :
    game_logic ov g = Outcome.undefined ∨
    (∃ e, e ≠ Exit.victory ∧ game_logic ov g = Outcome.exit e (call_empty_queue g)) ∨
    ∃ g1, g1.snake_queue = g.snake_queue ∧ g1.log = g.log ∧
      (game_logic ov g = Outcome.exit Exit.victory g1 ∨ game_logic ov g = Outcome.next g1) := by
  unfold game_logic
  split
  · exact Or.inr (Or.inl ⟨_, by decide, rfl⟩)
  · split
    · exact Or.inl rfl
    · split
      · exact Or.inr (Or.inl ⟨_, by decide, rfl⟩)
      · refine Or.inr (Or.inr ?_)
        simp only
        split
        · split
          · refine ⟨_, ?_, ?_, Or.inl rfl⟩ <;> rfl
          · refine ⟨_, ?_, ?_, Or.inr rfl⟩ <;> rfl
        · split
          · refine ⟨_, ?_, ?_, Or.inl rfl⟩ <;> rfl
          · refine ⟨_, ?_, ?_, Or.inr rfl⟩ <;> rfl

theorem game_logic_keeps_queue (ov : tRectangle → tRectangle → Int) (g g' : Game)
    (h : game_logic ov g = Outcome.next g' ∨ game_logic ov g = Outcome.exit Exit.victory g' ∨
      game_logic ov g = Outcome.waiting g') :
    g'.snake_queue = g.snake_queue ∧ g'.log = g.log := by
  rcases game_logic_cases ov g with hu | ⟨e, hev, he⟩ | ⟨g1, hq, hl, hv | hn⟩
  · rw [hu] at h
    simp at h
  · rw [he] at h
    simp at h
    exact absurd h.1 hev
  · rw [hv] at h
    simp at h
    rw [← h]
    exact ⟨hq, hl⟩
  · rw [hn] at h
    simp at h
    rw [← h]
    exact ⟨hq, hl⟩

theorem tick_keeps_queue (ov : tRectangle → tRectangle → Int) (g g' : Game) (i : Input)
    (h : tick ov g i = Outcome.next g' ∨ tick ov g i = Outcome.exit Exit.victory g' ∨
      tick ov g i = Outcome.waiting g') :
    ∃ g1, movement g i.joystick_val_ver i.joystick_val_hor = some g1 ∧
      g'.snake_queue = g1.snake_queue ∧ g'.log = g1.log := by
  unfold tick at h
  cases hm : movement g i.joystick_val_ver i.joystick_val_hor with
  | none =>
    rw [hm] at h
    simp at h
  | some g1 =>
    rw [hm] at h
    refine ⟨g1, rfl, ?_⟩
    simp only at h
    split at h
    · split at h
      · simp at h
      · simp at h
        rw [← h]
        exact ⟨rfl, rfl⟩
      · have hk := game_logic_keeps_queue ov _ g' h
        exact hk
    · have hk := game_logic_keeps_queue ov _ g' h
      exact hk

/-! ## The self-collision test of the game -/

theorem overlap_zero_iff (h c : Coordinat) (hhx : InInt16 h.x) (hhy : InInt16 h.y)
    (hcx : InInt16 c.x) (hcy : InInt16 c.y) :
    GrRectOverlapCheck (square h 0) (square c 0) ≠ 0 ↔ c = h := by
  obtain ⟨hx, hy⟩ := h
  obtain ⟨cx, cy⟩ := c
  simp only at hhx hhy hcx hcy
  simp only [GrRectOverlapCheck, square, Int.add_zero, wrap16_of_inInt16 _ hhx,
    wrap16_of_inInt16 _ hhy, wrap16_of_inInt16 _ hcx, wrap16_of_inInt16 _ hcy]
  constructor
  · intro hne
    split at hne
    · exact absurd rfl hne
    · rename_i hcond
      have h1 : cx = hx := by omega
      have h2 : cy = hy := by omega
      rw [h1, h2]
  · intro heq
    simp only [Coordinat.mk.injEq] at heq
    rw [if_neg (by omega)]
    decide

theorem selfOverlap_zero (cs : List Coordinat)
    (hr : ∀ c ∈ cs, InInt16 c.x ∧ InInt16 c.y) (hne : cs ≠ []) :
    ∃ v, selfOverlap GrRectOverlapCheck 0 cs = some v ∧ (v = 1 ↔ headAmongOlder cs) := by
  obtain ⟨h, hlast⟩ : ∃ h, cs.getLast? = some h := by
    cases hl : cs.getLast? with
    | none => exact absurd (List.getLast?_eq_none_iff.1 hl) hne
    | some h => exact ⟨h, rfl⟩
  have hmem : h ∈ cs := List.mem_of_getLast?_eq_some hlast
  refine ⟨_, by unfold selfOverlap; rw [hlast], ?_⟩
  rw [overlapsAny_eq_one_iff]
  unfold headAmongOlder
  constructor
  · rintro ⟨c, hc, hov⟩
    have hc' : c ∈ cs := List.mem_of_mem_dropLast hc
    have := (overlap_zero_iff h c (hr h hmem).1 (hr h hmem).2 (hr c hc').1 (hr c hc').2).1 hov
    exact ⟨h, hlast, this ▸ hc⟩
  · rintro ⟨c, hl, hc⟩
    rw [hlast] at hl
    have hch : h = c := Option.some.inj hl
    subst hch
    exact ⟨h, hc, (overlap_zero_iff h h (hr h hmem).1 (hr h hmem).2 (hr h hmem).1
      (hr h hmem).2).2 rfl⟩

theorem headAmongOlder_snoc (old : List Coordinat) (c : Coordinat)
    (h : headAmongOlder (old ++ [c])) : c ∈ old := by
  obtain ⟨d, hl, hd⟩ := h
  rw [List.getLast?_concat] at hl
  rw [List.dropLast_concat] at hd
  exact Option.some.inj hl ▸ hd

theorem midFresh_of_snoc (g1 : Game) (old : List Coordinat)
    (hc : contents g1.snake_queue = old ++ [⟨g1.snake_body.i16XMin, g1.snake_body.i16YMin⟩])
    (hin : ∀ c ∈ old, (0 ≤ c.x ∧ 0 ≤ c.y) ∧ c.x ≤ 119 ∧ c.y ≤ 119) : MidFresh g1 := by
  constructor
  · intro c hmem
    rw [hc, List.mem_append, List.mem_singleton] at hmem
    rcases hmem with h | h
    · exact Or.inl (hin c h).2
    · exact Or.inr h
  · intro h
    rw [hc] at h
    have := hin _ (headAmongOlder_snoc _ _ h)
    exact ⟨this.1.1, this.2.1, this.1.2, this.2.2⟩

theorem move_full (g : Game) (body : tRectangle) (hskip : g.skip_dequeue ≠ 0)
    (hfull : check_full g.snake_queue = 1) :
    move g body = some
      { g with snake_body := body, skip_dequeue := 0
               log := g.log ++ [QCall.enqueue body.i16XMin body.i16YMin 0] } := by
  unfold move
  rw [if_neg hskip]
  simp only [call_enqueue, enqueue_of_full _ _ _ hfull]

theorem move_fresh (g g1 : Game) (body : tRectangle) (hinv : RoundInv g) (hf : FreshInv g)
    (hstep : g.snake_body.i16XMin = 60 ∧ g.snake_body.i16YMin = 60 →
      0 ≤ body.i16XMin ∧ body.i16XMin ≤ 119 ∧ 0 ≤ body.i16YMin ∧ body.i16YMin ≤ 119)
    (hm : move g body = some g1) : MidFresh g1 := by
  have hin : ∀ c ∈ contents g.snake_queue, (0 ≤ c.x ∧ 0 ≤ c.y) ∧ c.x ≤ 119 ∧ c.y ≤ 119 :=
    fun c hc => ⟨hinv.stored c hc, hf.1 c hc⟩
  obtain ⟨h0, h1⟩ := move_spec g body hinv.wf hinv.nonempty
  by_cases hskip : g.skip_dequeue = 0
  · obtain ⟨g1', c, rest, hm', hc, hc1, -, -, -, hb⟩ := h0 hskip
    rw [hm] at hm'
    have hg : g1 = g1' := Option.some.inj hm'
    subst hg
    apply midFresh_of_snoc g1 rest
    · rw [hb]
      exact hc1
    · intro d hd
      exact hin d (by rw [hc]; exact List.mem_cons_of_mem _ hd)
  · rcases check_full_zero_or_one g.snake_queue with hnf | hfull
    · obtain ⟨g1', hm', hc1, -, -, -, hb⟩ := h1 hskip hnf
      rw [hm] at hm'
      have hg : g1 = g1' := Option.some.inj hm'
      subst hg
      apply midFresh_of_snoc g1 (contents g.snake_queue)
      · rw [hb]
        exact hc1
      · exact hin
    · rw [move_full g body hskip hfull] at hm
      have hg := Option.some.inj hm
      subst hg
      constructor
      · intro c hc
        exact Or.inl (hin c hc).2
      · intro h
        rcases hf.2 with hfresh | hstart
        · exact absurd h hfresh
        · exact hstep hstart

theorem movement_fresh (g g1 : Game) (ver hor : Nat) (hinv : RoundInv g) (hf : FreshInv g)
    (hm : movement g ver hor = some g1) : MidFresh g1 := by
  have hyu : wrap16 (60 - (snake_body_size + 2)) = 49 := by decide
  have hyd : wrap16 (60 + (snake_body_size + 2)) = 71 := by decide
  unfold movement at hm
  split at hm
  · refine move_fresh g g1 _ hinv hf ?_ hm
    rintro ⟨hx, hy⟩
    simp only [hx, hy, hyu]
    omega
  · split at hm
    · refine move_fresh g g1 _ hinv hf ?_ hm
      rintro ⟨hx, hy⟩
      simp only [hx, hy, hyd]
      omega
    · split at hm
      · refine move_fresh g g1 _ hinv hf ?_ hm
        rintro ⟨hx, hy⟩
        simp only [hx, hy, hyd]
        omega
      · split at hm
        · refine move_fresh g g1 _ hinv hf ?_ hm
          rintro ⟨hx, hy⟩
          simp only [hx, hy, hyu]
          omega
        · have hg := Option.some.inj hm
          subst hg
          refine ⟨fun c hc => Or.inl (hf.1 c hc), fun _ => ⟨hinv.xlo, hinv.xhi, hinv.ylo, hinv.yhi⟩⟩

theorem contents_ne_nil (q : CircularQueue) (hwf : WellFormed q) (hne : q.front ≠ -1) :
    contents q ≠ [] := by
  intro h
  have := getLast?_contents q hwf hne
  rw [h] at this
  cases this

theorem storedInside_empty (g : Game) : StoredInside (call_empty_queue g).snake_queue := by
  intro c hc
  rw [show contents (call_empty_queue g).snake_queue = [] from contents_of_empty _ rfl] at hc
  cases hc

theorem game_logic_fresh (g : Game) (h : MidInv g) (hf : MidFresh g)
    (hxmax : g.snake_body.i16XMax = wrap16 (g.snake_body.i16XMin + snake_body_size))
    (hymax : g.snake_body.i16YMax = wrap16 (g.snake_body.i16YMin + snake_body_size)) :
    ((∃ g', game_logic GrRectOverlapCheck g = Outcome.exit Exit.self_overlap g') ↔
        headAmongOlder (contents g.snake_queue)) ∧
      CtlFresh (game_logic GrRectOverlapCheck g).ctl := by
  have hx0 := h.xlo
  have hx1 := h.xhi
  have hy0 := h.ylo
  have hy1 := h.yhi
  have hwx : wrap16 (g.snake_body.i16XMin + snake_body_size) = g.snake_body.i16XMin + 9 := by
    unfold wrap16
    simp only [snake_body_size]
    omega
  have hwy : wrap16 (g.snake_body.i16YMin + snake_body_size) = g.snake_body.i16YMin + 9 := by
    unfold wrap16
    simp only [snake_body_size]
    omega
  rw [hwx] at hxmax
  rw [hwy] at hymax
  have hrange : ∀ c ∈ contents g.snake_queue, InInt16 c.x ∧ InInt16 c.y := by
    intro c hc
    unfold InInt16
    rcases h.stored c hc with hlo | heq
    · rcases hf.1 c hc with hhi | heq
      · omega
      · rw [heq]
        dsimp only
        omega
    · rw [heq]
      dsimp only
      omega
  obtain ⟨v, hv, hiff⟩ := selfOverlap_zero (contents g.snake_queue) hrange
    (contents_ne_nil _ h.wf h.nonempty)
  have hres : check_rect_overlap_snake GrRectOverlapCheck g.snake_queue
      (snake_body_size - snake_body_size) = some v := by
    rw [snake_result GrRectOverlapCheck g.snake_queue _ h.wf]
    exact hv
  unfold game_logic
  split
  · rename_i hoob
    refine ⟨⟨?_, ?_⟩, storedInside_empty g⟩
    · rintro ⟨g', hg'⟩
      simp at hg'
    · intro hh
      have := hf.2 hh
      omega
  · rename_i hin
    have hinside : StoredInside g.snake_queue := by
      intro c hc
      rcases hf.1 c hc with hhi | heq
      · exact hhi
      · rw [heq]
        dsimp only
        omega
    rw [hres]
    simp only
    split
    · rename_i hv1
      exact ⟨⟨fun _ => hiff.1 hv1, fun _ => ⟨_, rfl⟩⟩, storedInside_empty g⟩
    · rename_i hv1
      have hfresh : ¬ headAmongOlder (contents g.snake_queue) := fun hh => hv1 (hiff.2 hh)
      split
      · split
        · refine ⟨⟨?_, fun hh => absurd hh hfresh⟩, hinside⟩
          rintro ⟨g', hg'⟩
          simp at hg'
        · refine ⟨⟨?_, fun hh => absurd hh hfresh⟩, hinside, Or.inl hfresh⟩
          rintro ⟨g', hg'⟩
          simp at hg'
      · split
        · refine ⟨⟨?_, fun hh => absurd hh hfresh⟩, hinside⟩
          rintro ⟨g', hg'⟩
          simp at hg'
        · refine ⟨⟨?_, fun hh => absurd hh hfresh⟩, hinside, Or.inl hfresh⟩
          rintro ⟨g', hg'⟩
          simp at hg'

theorem midFresh_congr (g g' : Game) (h : MidFresh g) (hq : g'.snake_queue = g.snake_queue)
    (hx : g'.snake_body.i16XMin = g.snake_body.i16XMin)
    (hy : g'.snake_body.i16YMin = g.snake_body.i16YMin) : MidFresh g' := by
  unfold MidFresh
  rw [hq, hx, hy]
  exact h

theorem tick_fresh (g : Game) (i : Input) (hinv : RoundInv g) (hf : FreshInv g) :
    CtlFresh (tick GrRectOverlapCheck g i).ctl ∧
      ∃ g1, movement g i.joystick_val_ver i.joystick_val_hor = some g1 ∧
        ((∀ g', tick GrRectOverlapCheck g i ≠ Outcome.waiting g') →
          ((∃ g', tick GrRectOverlapCheck g i = Outcome.exit Exit.self_overlap g') ↔
            headAmongOlder (contents g1.snake_queue))) := by
  obtain ⟨g1, hm, hmid⟩ := movement_inv g i.joystick_val_ver i.joystick_val_hor hinv
  have hmf := movement_fresh g g1 _ _ hinv hf hm
  have hlogic : ∀ g2 : Game, g2.snake_queue = g1.snake_queue → g2.log = g1.log →
      g2.snake_body.i16XMin = g1.snake_body.i16XMin →
      g2.snake_body.i16YMin = g1.snake_body.i16YMin →
      g2.snake_body.i16XMax = wrap16 (g2.snake_body.i16XMin + snake_body_size) →
      g2.snake_body.i16YMax = wrap16 (g2.snake_body.i16YMin + snake_body_size) →
      ((∃ g', game_logic GrRectOverlapCheck g2 = Outcome.exit Exit.self_overlap g') ↔
          headAmongOlder (contents g1.snake_queue)) ∧
        CtlFresh (game_logic GrRectOverlapCheck g2).ctl := by
    intro g2 hq hl hx hy hxm hym
    have := game_logic_fresh g2 (midInv_congr g1 g2 hmid hq hl hx hy)
      (midFresh_congr g1 g2 hmf hq hx hy) hxm hym
    rw [hq] at this
    exact this
  have hl1 : ∀ g2 : Game, g2.snake_queue = g1.snake_queue → g2.log = g1.log →
      g2.snake_body.i16XMin = g1.snake_body.i16XMin →
      g2.snake_body.i16YMin = g1.snake_body.i16YMin →
      g2.snake_body.i16XMax = wrap16 (g2.snake_body.i16XMin + snake_body_size) →
      g2.snake_body.i16YMax = wrap16 (g2.snake_body.i16YMin + snake_body_size) →
      ((∃ g', game_logic GrRectOverlapCheck g2 = Outcome.exit Exit.self_overlap g') ↔
          headAmongOlder (contents g1.snake_queue)) :=
    fun g2 hq hl hx hy hxm hym => (hlogic g2 hq hl hx hy hxm hym).1
  have hl2 : ∀ g2 : Game, g2.snake_queue = g1.snake_queue → g2.log = g1.log →
      g2.snake_body.i16XMin = g1.snake_body.i16XMin →
      g2.snake_body.i16YMin = g1.snake_body.i16YMin →
      g2.snake_body.i16XMax = wrap16 (g2.snake_body.i16XMin + snake_body_size) →
      g2.snake_body.i16YMax = wrap16 (g2.snake_body.i16YMin + snake_body_size) →
      CtlFresh (game_logic GrRectOverlapCheck g2).ctl :=
    fun g2 hq hl hx hy hxm hym => (hlogic g2 hq hl hx hy hxm hym).2
  unfold tick
  rw [hm]
  simp only
  split
  · have hdef := spawn_loop_defined GrRectOverlapCheck g1.snake_queue hmid.wf i.food g1.food_
    split
    · rename_i heq
      exact absurd heq hdef
    · exact ⟨trivial, g1, rfl, fun hdone => absurd rfl (hdone _)⟩
    · refine ⟨?_, g1, rfl, fun _ => ?_⟩
      · exact hl2 _ rfl rfl rfl rfl rfl rfl
      · exact hl1 _ rfl rfl rfl rfl rfl rfl
  · refine ⟨?_, g1, rfl, fun _ => ?_⟩
    · exact hl2 _ rfl rfl rfl rfl rfl rfl
    · exact hl1 _ rfl rfl rfl rfl rfl rfl

theorem round_start_fresh (g g' : Game) (hwf : WellFormed g.snake_queue)
    (hin : StoredInside g.snake_queue) (hs : round_start g = some g') : FreshInv g' := by
  obtain ⟨q', r, he, -, -, hsub⟩ :=
    call_enqueue_spec
      { g with spawn_food := 1, num_food_eaten := 0
               snake_body :=
                 { i16XMin := 60, i16YMin := 60
                   i16XMax := wrap16 (60 + snake_body_size)
                   i16YMax := wrap16 (60 + snake_body_size) } } 60 60 hwf
  simp only [round_start, he] at hs
  have hg := Option.some.inj hs
  subst hg
  refine ⟨?_, Or.inr ⟨rfl, rfl⟩⟩
  intro c hc
  rcases hsub c hc with hc' | hc'
  · exact hin c hc'
  · rw [hc']
    decide

theorem play_fresh (inputs : List Input) (c : Ctl) (h : CtlInv c) (hf : CtlFresh c) :
    CtlFresh (play GrRectOverlapCheck c inputs) := by
  induction inputs generalizing c with
  | nil =>
    cases c <;> exact hf
  | cons i rest ih =>
    cases c with
    | start e g =>
      obtain ⟨hwf, hlog, hst⟩ := h
      obtain ⟨g', hg', hinv⟩ := round_start_inv g hwf hlog hst
      have hfr := round_start_fresh g g' hwf hf hg'
      simp only [play, hg']
      exact ih _ (tick_inv GrRectOverlapCheck g' i hinv) (tick_fresh g' i hinv hfr).1
    | round g =>
      simp only [play]
      exact ih _ (tick_inv GrRectOverlapCheck g i h) (tick_fresh g i h hf).1
    | waiting g => exact hf
    | undefined => exact hf

theorem roundTop_inv (c : Ctl) (g : Game) (h : CtlInv c) (hf : CtlFresh c)
    (hg : c.roundTop = some g) : RoundInv g ∧ FreshInv g := by
  cases c with
  | start e g0 =>
    obtain ⟨hwf, hlog, hst⟩ := h
    obtain ⟨g', hg', hinv⟩ := round_start_inv g0 hwf hlog hst
    have hfr := round_start_fresh g0 g' hwf hf hg'
    have : g' = g := by
      have h2 : round_start g0 = some g := hg
      rw [hg'] at h2
      exact Option.some.inj h2
    exact this ▸ ⟨hinv, hfr⟩
  | round g0 =>
    have : g0 = g := Option.some.inj hg
    exact this ▸ ⟨h, hf⟩
  | waiting g0 => cases hg
  | undefined => cases hg

theorem roundTop_roundInv (c : Ctl) (g : Game) (h : CtlInv c) (hg : c.roundTop = some g) :
    RoundInv g := by
  cases c with
  | start e g0 =>
    obtain ⟨hwf, hlog, hst⟩ := h
    obtain ⟨g', hg', hinv⟩ := round_start_inv g0 hwf hlog hst
    have : g' = g := by
      have h2 : round_start g0 = some g := hg
      rw [hg'] at h2
      exact Option.some.inj h2
    exact this ▸ hinv
  | round g0 =>
    have : g0 = g := Option.some.inj hg
    exact this ▸ h
  | waiting g0 => cases hg
  | undefined => cases hg

theorem game_logic_death (ov : tRectangle → tRectangle → Int) (g g' : Game) (e : Exit)
    (h : game_logic ov g = Outcome.exit e g') (he : e ≠ Exit.victory) :
    g' = call_empty_queue g := by
  rcases game_logic_cases ov g with hu | ⟨e', -, he'⟩ | ⟨g1, -, -, hv | hn⟩
  · rw [hu] at h
    cases h
  · rw [he'] at h
    simp only [Outcome.exit.injEq] at h
    exact h.2.symm
  · rw [hv] at h
    simp only [Outcome.exit.injEq] at h
    exact absurd h.1.symm he
  · rw [hn] at h
    cases h

theorem tick_death (ov : tRectangle → tRectangle → Int) (g g' : Game) (i : Input) (e : Exit)
    (h : tick ov g i = Outcome.exit e g') (he : e ≠ Exit.victory) :
    ∃ g1, movement g i.joystick_val_ver i.joystick_val_hor = some g1 ∧
      g'.log = g1.log ++ [QCall.empty_queue] ∧ count g'.snake_queue = 0 := by
  unfold tick at h
  cases hm : movement g i.joystick_val_ver i.joystick_val_hor with
  | none =>
    rw [hm] at h
    simp at h
  | some g1 =>
    rw [hm] at h
    refine ⟨g1, rfl, ?_⟩
    simp only at h
    split at h
    · split at h
      · cases h
      · cases h
      · have hk := game_logic_death ov _ g' e h he
        rw [hk]
        exact ⟨rfl, rfl⟩
    · have hk := game_logic_death ov _ g' e h he
      rw [hk]
      exact ⟨rfl, rfl⟩

/-! ## Theorems -/

/-- C2. Enqueue on a full queue is rejected without mutation: whenever
`check_full q = 1` (in particular for every reachable such state), `enqueue`
returns 0 and the queue after the call is the queue before it, so `front`,
`rear` and every slot of the backing array are unchanged. -/
theorem enqueue_full_rejected (q : CircularQueue) (x y : Int)
    (hfull : check_full q = 1) : enqueue q x y = some (q, 0) :=
  enqueue_of_full q x y hfull

/-- C3. Dequeue on an empty queue (`front = -1`) returns the sentinel coordinate
`(-1, -1)` and leaves `front`, `rear` and the backing array unchanged. -/
theorem dequeue_empty_sentinel (q : CircularQueue) (hempty : q.front = -1) :
    dequeue q = some (q, ⟨-1, -1⟩) :=
  dequeue_of_empty q hempty

/-- C10. Clear always empties: for every queue state whatsoever, after
`empty_queue` the call `check_empty` returns 1, `check_full` returns 0, and the
backing array is unchanged. -/
theorem empty_queue_always_empties (q : CircularQueue) :
    check_empty (empty_queue q) = 1 ∧ check_full (empty_queue q) = 0 ∧
      (empty_queue q).queue = q.queue := by
  refine ⟨?_, ?_, rfl⟩
  · simp [check_empty, empty_queue]
  · simp [check_full, empty_queue]

/-- C1. FIFO order: starting from the empty queue, every finite sequence of
`enqueue` and `dequeue` calls runs to completion, and afterwards the arguments of
the successful enqueues are the results of the successful dequeues followed by
the coordinates still stored, front to rear; hence the k-th successful dequeue
returned the coordinate passed to the k-th successful enqueue.  Equivalently the
queue refines the bounded list model: the list model ends with the stored
coordinates and produced the same returned values, call by call. -/
theorem enqueue_dequeue_fifo (a : Fin QUEUESIZE → Coordinat) (ops : List Op)
    (hops : Op.clear ∉ ops) :
    ∃ s, exec (Run.init a) ops = some s ∧
      s.enqueued = s.dequeued ++ contents s.q ∧
      (∀ (k : Nat) (c : Coordinat), s.dequeued[k]? = some c → s.enqueued[k]? = some c) ∧
      specExec ([], []) ops = (contents s.q, s.rets) := by
  obtain ⟨s, hs, _, hspec, hfifo⟩ := exec_inv ops (Run.init a) (runInv_init a)
  have h0 : contents (Run.init a).q = [] := contents_of_empty _ rfl
  have happ : s.enqueued = s.dequeued ++ contents s.q := by
    apply hfifo hops
    rw [h0]
    rfl
  refine ⟨s, hs, happ, ?_, ?_⟩
  · intro k c hk
    have hlt : k < s.dequeued.length := by
      rcases Nat.lt_or_ge k s.dequeued.length with h | h
      · exact h
      · rw [List.getElem?_eq_none h] at hk
        cases hk
    rw [happ, List.getElem?_append_left hlt]
    exact hk
  · rw [h0] at hspec
    exact hspec

/-- Witness for C1: two enqueues followed by three dequeues. -/
theorem enqueue_dequeue_fifo_witness :
    Op.clear ∉ [Op.enq 1 2, Op.enq 3 4, Op.deq, Op.deq, Op.deq] ∧
      (exec (Run.init zeroArray) [Op.enq 1 2, Op.enq 3 4, Op.deq, Op.deq, Op.deq]).map
          (fun s => (s.enqueued, s.dequeued, s.rets)) =
        some ([⟨1, 2⟩, ⟨3, 4⟩], [⟨1, 2⟩, ⟨3, 4⟩],
          [Ret.enq 1, Ret.enq 1, Ret.deq ⟨1, 2⟩, Ret.deq ⟨3, 4⟩, Ret.deq ⟨-1, -1⟩]) ∧
      ∃ s, exec (Run.init zeroArray) [Op.enq 1 2, Op.enq 3 4, Op.deq, Op.deq, Op.deq] = some s ∧
        s.enqueued = s.dequeued ++ contents s.q ∧
        (∀ (k : Nat) (c : Coordinat), s.dequeued[k]? = some c → s.enqueued[k]? = some c) ∧
        specExec ([], []) [Op.enq 1 2, Op.enq 3 4, Op.deq, Op.deq, Op.deq] =
          (contents s.q, s.rets) :=
  ⟨by decide, by decide, enqueue_dequeue_fifo zeroArray _ (by decide)⟩

/-- Witness for C2: the full state `front = 0`, `rear = 39` rejects `(7, 8)`. -/
theorem enqueue_full_rejected_witness :
    check_full { front := 0, rear := 39, queue := zeroArray } = 1 ∧
      enqueue { front := 0, rear := 39, queue := zeroArray } 7 8 =
        some ({ front := 0, rear := 39, queue := zeroArray }, 0) :=
  ⟨by decide, enqueue_full_rejected _ 7 8 (by decide)⟩

/-- Witness for C3: the initial empty queue. -/
theorem dequeue_empty_sentinel_witness :
    (Run.init zeroArray).q.front = -1 ∧
      dequeue (Run.init zeroArray).q = some ((Run.init zeroArray).q, ⟨-1, -1⟩) :=
  ⟨rfl, dequeue_empty_sentinel _ rfl⟩

/-- C4. Capacity bound: every sequence of `enqueue`, `dequeue` and `empty_queue`
calls from the empty queue runs to completion in a state whose number of live
coordinates (successful enqueues minus successful dequeues since the last clear)
lies between 0 and `QUEUESIZE = 40`, and when the queue is non-empty that number
is `((rear - front) mod QUEUESIZE) + 1`. -/
theorem live_count_bounded (a : Fin QUEUESIZE → Coordinat) (ops : List Op) :
    ∃ s, exec (Run.init a) ops = some s ∧
      0 ≤ s.live ∧ s.live ≤ (QUEUESIZE : Int) ∧ (QUEUESIZE : Int) = 40 ∧
      (s.live ≠ 0 ∨ s.q.front ≠ -1 →
        s.live = (s.q.rear - s.q.front) % (QUEUESIZE : Int) + 1) := by
  obtain ⟨s, hs, ⟨_, hlive⟩, _⟩ := exec_inv ops (Run.init a) (runInv_init a)
  have hle := count_le s.q
  have hc := count_eq s.q
  refine ⟨s, hs, by omega, ?_, rfl, ?_⟩
  · simp only [QUEUESIZE, Nat.cast_ofNat]
    omega
  · intro h
    simp only [QUEUESIZE, Nat.cast_ofNat]
    split at hc <;> omega

/-- C6. `check_full` is exact: in every reachable state it returns 1 if and only
if exactly `QUEUESIZE` coordinates are stored and 0 otherwise; in particular it
returns 0 on the empty state `front = rear = -1`. -/
theorem check_full_exact (a : Fin QUEUESIZE → Coordinat) (ops : List Op) :
    ∃ s, exec (Run.init a) ops = some s ∧
      (check_full s.q = 1 ↔ s.live = (QUEUESIZE : Int)) ∧
      (check_full s.q = 0 ↔ s.live ≠ (QUEUESIZE : Int)) ∧
      s.live = ((contents s.q).length : Int) ∧
      check_full { front := -1, rear := -1, queue := a } = 0 := by
  obtain ⟨s, hs, ⟨hwf, hlive⟩, _⟩ := exec_inv ops (Run.init a) (runInv_init a)
  have hiff := check_full_iff_count s.q hwf
  have h01 := check_full_zero_or_one s.q
  refine ⟨s, hs, ?_, ?_, ?_, check_full_sentinel a⟩
  · simp only [QUEUESIZE, Nat.cast_ofNat]
    omega
  · simp only [QUEUESIZE, Nat.cast_ofNat]
    omega
  · rw [length_contents, hlive]

/-- C7. `check_empty` is exact and unambiguous: in every reachable state it
returns 1 if and only if no coordinate is stored and 0 otherwise; and one
enqueue into an empty queue succeeds and leaves `front = rear = 0`, where
`check_empty` returns 0. -/
theorem check_empty_exact (a : Fin QUEUESIZE → Coordinat) (ops : List Op) :
    ∃ s, exec (Run.init a) ops = some s ∧
      (check_empty s.q = 1 ↔ s.live = 0) ∧
      (check_empty s.q = 0 ↔ s.live ≠ 0) ∧
      s.live = ((contents s.q).length : Int) ∧
      ∀ (b : Fin QUEUESIZE → Coordinat) (x y : Int),
        ∃ q', enqueue { front := -1, rear := -1, queue := b } x y = some (q', 1) ∧
          q'.front = 0 ∧ q'.rear = 0 ∧ check_empty q' = 0 := by
  obtain ⟨s, hs, ⟨hwf, hlive⟩, _⟩ := exec_inv ops (Run.init a) (runInv_init a)
  have hc := count_eq s.q
  refine ⟨s, hs, ?_, ?_, ?_, ?_⟩
  · unfold check_empty
    split at hc <;> rename_i hf
    · simp only [hf, if_true, true_iff]
      omega
    · simp only [hf, if_false, zero_ne_one, false_iff]
      omega
  · unfold check_empty
    split at hc <;> rename_i hf
    · simp only [hf, if_true, one_ne_zero, false_iff, not_not]
      omega
    · simp only [hf, if_false, true_iff]
      omega
  · rw [length_contents, hlive]
  · intro b x y
    have he := enqueue_eq { front := -1, rear := -1, queue := b } x y (wellFormed_sentinel b)
      (check_full_sentinel b)
    exact ⟨_, he, rfl, rfl, rfl⟩

/-- C8. Successful enqueue postcondition: on every reachable non-full queue
`enqueue` returns 1; if the queue was empty then afterwards `front = rear = 0`,
otherwise `front` is unchanged and `rear` becomes `(rear + 1) mod QUEUESIZE`; the
slot at the new `rear` holds `(x, y)` and every other slot is unchanged; and the
head rectangle that `check_rect_overlap_snake` reads from the slot at `rear` is
then built from `(x, y)`. -/
theorem enqueue_success_post (q : CircularQueue) (x y : Int)
    (hreach : Reachable q) (hnf : check_full q = 0) :
    ∃ q' i, enqueue q x y = some (q', 1) ∧
      (q.front = -1 → q'.front = 0 ∧ q'.rear = 0) ∧
      (q.front ≠ -1 → q'.front = q.front ∧ q'.rear = (q.rear + 1) % (QUEUESIZE : Int)) ∧
      slot? q'.rear = some i ∧ q'.queue i = ⟨x, y⟩ ∧
      (∀ j, j ≠ i → q'.queue j = q.queue j) ∧
      (∀ size : Int, snake_head q' size =
        some { i16XMin := x, i16YMin := y
               i16XMax := wrap16 (x + size), i16YMax := wrap16 (y + size) }) := by
  have hwf := reachable_wellFormed q hreach
  have heq := enqueue_eq q x y hwf hnf
  have hslot : slot? ((q.rear + 1) % 40) = some (wrapSlot ((q.rear + 1) % 40)) :=
    slot?_eq_some _ (by omega) (by omega)
  refine ⟨_, wrapSlot ((q.rear + 1) % 40), heq, ?_, ?_, hslot, ?_, ?_, ?_⟩
  · intro hf
    rcases wellFormed_bounds q hwf with ⟨_, hr⟩ | ⟨h0, _, _, _⟩
    · simp [hf, hr]
    · omega
  · intro hf
    exact ⟨if_neg hf, rfl⟩
  · exact Function.update_same _ _ _
  · intro j hj
    exact Function.update_noteq hj _ _
  · intro size
    simp only [snake_head, hslot, Function.update_same]

/-- Witness for C8: a second segment `(71, 60)` enqueued after the first. -/
theorem enqueue_success_post_witness :
    Reachable oneSegment ∧ check_full oneSegment = 0 ∧
      ∃ q' i, enqueue oneSegment 71 60 = some (q', 1) ∧
        (oneSegment.front = -1 → q'.front = 0 ∧ q'.rear = 0) ∧
        (oneSegment.front ≠ -1 →
          q'.front = oneSegment.front ∧ q'.rear = (oneSegment.rear + 1) % (QUEUESIZE : Int)) ∧
        slot? q'.rear = some i ∧ q'.queue i = ⟨71, 60⟩ ∧
        (∀ j, j ≠ i → q'.queue j = oneSegment.queue j) ∧
        (∀ size : Int, snake_head q' size =
          some { i16XMin := 71, i16YMin := 60
                 i16XMax := wrap16 (71 + size), i16YMax := wrap16 (60 + size) }) :=
  have hreach : Reachable oneSegment :=
    ⟨zeroArray, [Op.enq 60 60],
      { q := oneSegment, rets := [Ret.enq 1], enqueued := [⟨60, 60⟩], dequeued := [], live := 1 },
      rfl, rfl⟩
  ⟨hreach, by decide, enqueue_success_post oneSegment 71 60 hreach (by decide)⟩

/-- C9. Successful dequeue postcondition: on every reachable non-empty queue
`dequeue` returns the coordinate stored at index `front`; if `front = rear`
beforehand then afterwards `front = rear = -1`, otherwise `rear` is unchanged and
`front` becomes `(front + 1) mod QUEUESIZE`; the backing array is not modified. -/
theorem dequeue_success_post (q : CircularQueue)
    (hreach : Reachable q) (hne : check_empty q = 0) :
    ∃ q' i, slot? q.front = some i ∧ dequeue q = some (q', q.queue i) ∧
      (q.front = q.rear → q'.front = -1 ∧ q'.rear = -1) ∧
      (q.front ≠ q.rear →
        q'.rear = q.rear ∧ q'.front = (q.front + 1) % (QUEUESIZE : Int)) ∧
      q'.queue = q.queue := by
  have hwf := reachable_wellFormed q hreach
  have hf : q.front ≠ -1 := by
    intro h
    simp [check_empty, h] at hne
  have hb : 0 ≤ q.front ∧ q.front < 40 := by
    rcases wellFormed_bounds q hwf with ⟨h, _⟩ | ⟨h0, h1, _, _⟩
    · exact absurd h hf
    · exact ⟨h0, h1⟩
  have heq := dequeue_eq q hwf hf
  refine ⟨_, wrapSlot q.front, slot?_eq_some _ hb.1 hb.2, heq, ?_, ?_, ?_⟩
  · intro h
    rw [if_pos h]
    exact ⟨rfl, rfl⟩
  · intro h
    rw [if_neg h]
    exact ⟨rfl, rfl⟩
  · split <;> rfl

/-- Witness for C9: dequeue from the one-segment queue of a fresh round. -/
theorem dequeue_success_post_witness :
    Reachable oneSegment ∧ check_empty oneSegment = 0 ∧
      dequeue oneSegment =
        some ({ front := -1, rear := -1, queue := oneSegment.queue }, ⟨60, 60⟩) ∧
      ∃ q' i, slot? oneSegment.front = some i ∧
        dequeue oneSegment = some (q', oneSegment.queue i) ∧
        (oneSegment.front = oneSegment.rear → q'.front = -1 ∧ q'.rear = -1) ∧
        (oneSegment.front ≠ oneSegment.rear →
          q'.rear = oneSegment.rear ∧
            q'.front = (oneSegment.front + 1) % (QUEUESIZE : Int)) ∧
        q'.queue = oneSegment.queue :=
  have hreach : Reachable oneSegment :=
    ⟨zeroArray, [Op.enq 60 60],
      { q := oneSegment, rets := [Ret.enq 1], enqueued := [⟨60, 60⟩], dequeued := [], live := 1 },
      rfl, rfl⟩
  ⟨hreach, by decide, rfl, dequeue_success_post oneSegment hreach (by decide)⟩

/-- C5. Fill / reject / wrap scenario at the source's capacity `QUEUESIZE = 40`:
the 40 enqueues of `c 0 .. c 39` into an empty queue all return 1 and leave the
queue full with contents `c 0 .. c 39`; a further enqueue returns 0 and changes
nothing; `dequeue` then returns `c 0` and the queue is no longer full; a following
enqueue of `e` returns 1, is stored in slot 0 of the backing array (`rear` wraps
to 0 while `front` is 1), and the front-to-rear order is `c 1 .. c 39, e`. -/
theorem fill_reject_wrap (a : Fin QUEUESIZE → Coordinat) (c : Fin QUEUESIZE → Coordinat)
    (d e : Coordinat) :
    ∃ s1 q2 q3, exec (Run.init a) (enqueueAll (List.ofFn c)) = some s1 ∧
      s1.rets = List.replicate QUEUESIZE (Ret.enq 1) ∧
      check_full s1.q = 1 ∧ contents s1.q = List.ofFn c ∧
      enqueue s1.q d.x d.y = some (s1.q, 0) ∧
      dequeue s1.q = some (q2, c 0) ∧ check_full q2 = 0 ∧
      contents q2 = (List.ofFn c).tail ∧
      enqueue q2 e.x e.y = some (q3, 1) ∧
      q3.queue 0 = e ∧ q3.rear = 0 ∧ q3.front = 1 ∧
      contents q3 = (List.ofFn c).tail ++ [e] := by
  obtain ⟨s1, hs1, ⟨hwf1, _⟩, hspec, _⟩ :=
    exec_inv (enqueueAll (List.ofFn c)) (Run.init a) (runInv_init a)
  have h0 : contents (Run.init a).q = [] := contents_of_empty _ rfl
  rw [h0, show (Run.init a).rets = [] from rfl,
    specExec_enqueueAll (List.ofFn c) [] [] (by simp)] at hspec
  simp only [List.nil_append, List.length_ofFn, Prod.mk.injEq] at hspec
  obtain ⟨hcont, hrets⟩ := hspec
  have hcount : count s1.q = 40 := by
    rw [← length_contents, ← hcont, List.length_ofFn]
  have hfull : check_full s1.q = 1 := (check_full_iff_count s1.q hwf1).2 hcount
  have hfront : s1.q.front = 0 := by
    rcases front_after_enqueueAll (List.ofFn c) (Run.init a) s1 (runInv_init a) hs1
      (Or.inl rfl) with h | h
    · simp [count, h] at hcount
    · exact h
  have hne : s1.q.front ≠ -1 := by omega
  have hrear : s1.q.rear = 39 := by
    have hc := count_eq s1.q
    rw [if_neg hne, hcount, hfront] at hc
    rcases wellFormed_bounds s1.q hwf1 with ⟨h, _⟩ | ⟨_, _, h2, h3⟩
    · exact absurd h hne
    · push_cast at hc
      omega
  have hdeq := dequeue_eq s1.q hwf1 hne
  rw [if_neg (by omega : ¬ s1.q.front = s1.q.rear), hfront] at hdeq
  obtain ⟨q2', hdeq', hwf2, hcnt2, hcont2, _⟩ := dequeue_post s1.q hwf1 hne
  rw [hfront, hdeq] at hdeq'
  simp only [Option.some.injEq, Prod.mk.injEq, and_true] at hdeq'
  subst hdeq'
  rw [← hcont, List.ofFn_succ, hfront] at hcont2
  simp only [List.cons.injEq] at hcont2
  obtain ⟨hhead, htail⟩ := hcont2
  have hnf2 : check_full ({ s1.q with front := (0 + 1) % 40 } : CircularQueue) = 0 := by
    simp [check_full, hrear]
  have henq := enqueue_eq _ e.x e.y hwf2 hnf2
  obtain ⟨q3', henq', _, _, _, hcont3⟩ := enqueue_post _ e.x e.y hwf2 hnf2
  rw [henq] at henq'
  simp only [Option.some.injEq, Prod.mk.injEq, and_true] at henq'
  subst henq'
  have htl : (List.ofFn c).tail = List.ofFn fun i => c i.succ := by
    rw [List.ofFn_succ, List.tail_cons]
  refine ⟨s1, _, _, hs1, hrets.symm, hfull, hcont.symm, enqueue_of_full _ _ _ hfull, ?_,
    hnf2, ?_, henq, ?_, ?_, ?_, ?_⟩
  · rw [hdeq, hhead]
  · rw [htl, htail]
  · have hw : wrapSlot ((s1.q.rear + 1) % 40) = 0 := by
      rw [hrear]
      rfl
    show Function.update s1.q.queue (wrapSlot ((s1.q.rear + 1) % 40)) ⟨e.x, e.y⟩ 0 = e
    rw [hw, Function.update_same]
  · simp [hrear]
  · simp
  · rw [hcont3, htl, htail]

/-- C11. Self-overlap is head-versus-older: on every reachable non-empty queue
and for every size `S`, `check_rect_overlap_snake` returns a value, which is 1 if
and only if some stored coordinate strictly older than the rear (a logical
position `k` with `k + 1` below the number of stored coordinates) has a square
that satisfies `GrRectOverlapCheck` against the square of the coordinate at
`rear`, and 0 otherwise; `GrRectOverlapCheck` is an arbitrary function `ov`. -/
theorem snake_overlap_head_versus_older (ov : tRectangle → tRectangle → Int)
    (q : CircularQueue) (S : Int) (hreach : Reachable q) (hne : check_empty q = 0) :
    ∃ r i, check_rect_overlap_snake ov q S = some r ∧
      slot? q.rear = some i ∧ (contents q).getLast? = some (q.queue i) ∧
      (r = 1 ↔ ∃ k c, k + 1 < (contents q).length ∧ (contents q)[k]? = some c ∧
        ov (square (q.queue i) S) (square c S) ≠ 0) ∧
      (r ≠ 1 → r = 0) := by
  have hwf := reachable_wellFormed q hreach
  have hf := nonempty_of_check_empty q hne
  have hb := nonempty_bounds q hwf hf
  have hres := snake_result ov q S hwf
  have hlast := getLast?_contents q hwf hf
  unfold selfOverlap at hres
  rw [hlast] at hres
  refine ⟨_, wrapSlot q.rear, hres, slot?_eq_some _ hb.2.2.1 hb.2.2.2, hlast, ?_, ?_⟩
  · rw [overlapsAny_eq_one_iff]
    constructor
    · rintro ⟨c, hc, hov⟩
      obtain ⟨k, hk, hkc⟩ := (mem_dropLast_iff _ c).1 hc
      exact ⟨k, c, hk, hkc, hov⟩
    · rintro ⟨k, c, hk, hkc, hov⟩
      exact ⟨c, (mem_dropLast_iff _ c).2 ⟨k, hk, hkc⟩, hov⟩
  · intro h
    rcases overlapsAny_zero_or_one ov (square (q.queue (wrapSlot q.rear)) S) S
      (contents q).dropLast with h0 | h1
    · exact h0
    · exact absurd h1 h

/-- Witness for C11: the history `(60, 60), (60, 60)` with size 9 and the grlib
intersection test. -/
theorem snake_overlap_head_versus_older_witness :
    Reachable twoSegments ∧ check_empty twoSegments = 0 ∧
      check_rect_overlap_snake GrRectOverlapCheck twoSegments 9 = some 1 ∧
      ∃ r i, check_rect_overlap_snake GrRectOverlapCheck twoSegments 9 = some r ∧
        slot? twoSegments.rear = some i ∧
        (contents twoSegments).getLast? = some (twoSegments.queue i) ∧
        (r = 1 ↔ ∃ k c, k + 1 < (contents twoSegments).length ∧
          (contents twoSegments)[k]? = some c ∧
          GrRectOverlapCheck (square (twoSegments.queue i) 9) (square c 9) ≠ 0) ∧
        (r ≠ 1 → r = 0) :=
  ⟨reachable_twoSegments, by decide, by decide,
    snake_overlap_head_versus_older GrRectOverlapCheck twoSegments 9 reachable_twoSegments
      (by decide)⟩

/-- C12 (code defect). On the reachable history that holds the single coordinate
`(60, 60)`, the candidate square of side 9 placed at the same `(60, 60)` overlaps
the stored square under the grlib test, yet `check_rect_overlap_food` returns 0:
its loop stops at `rear` without testing the newest coordinate.  It returns 0 on
this history for every candidate and every overlap test. -/
theorem food_overlap_skips_rear :
    Reachable oneSegment ∧ contents oneSegment = [⟨60, 60⟩] ∧
      GrRectOverlapCheck (square ⟨60, 60⟩ 9) (square ⟨60, 60⟩ 9) = 1 ∧
      check_rect_overlap_food GrRectOverlapCheck oneSegment 9 (square ⟨60, 60⟩ 9) = some 0 ∧
      ∀ (ov : tRectangle → tRectangle → Int) (S : Int) (r : tRectangle),
        check_rect_overlap_food ov oneSegment S r = some 0 := by
  have hc : contents oneSegment = [⟨60, 60⟩] := by decide
  refine ⟨reachable_oneSegment, hc, by decide, by decide, ?_⟩
  intro ov S r
  rw [food_result ov oneSegment S r (reachable_wellFormed _ reachable_oneSegment), hc]
  simp [overlapsAny_nil]

/-- C14. A single segment never overlaps itself: for every coordinate `c` and
every size `S`, enqueueing `c` into an empty queue succeeds and
`check_rect_overlap_snake` then returns 0, whatever `GrRectOverlapCheck` is. -/
theorem single_segment_no_self_overlap (ov : tRectangle → tRectangle → Int)
    (a : Fin QUEUESIZE → Coordinat) (c : Coordinat) (S : Int) :
    ∃ q', enqueue { front := -1, rear := -1, queue := a } c.x c.y = some (q', 1) ∧
      check_rect_overlap_snake ov q' S = some 0 := by
  obtain ⟨q', he, hwf', _, _, hcont⟩ :=
    enqueue_post { front := -1, rear := -1, queue := a } c.x c.y (wellFormed_sentinel a)
      (check_full_sentinel a)
  refine ⟨q', he, ?_⟩
  rw [snake_result ov q' S hwf', hcont, contents_of_empty _ rfl]
  simp [selfOverlap, overlapsAny_nil]

/-- C15. Identical squares overlap: on every reachable queue whose coordinate at
`rear` equals the coordinate at some strictly older logical position, for every
size `S >= 0` for which `x + S` and `y + S` do not overflow `int16_t`,
`check_rect_overlap_snake` returns 1 under the grlib inclusive intersection
test. -/
theorem identical_squares_overlap (q : CircularQueue) (S : Int) (head : Coordinat) (k : Nat)
    (hreach : Reachable q) (hS : 0 ≤ S)
    (hlast : (contents q).getLast? = some head)
    (hk : k + 1 < (contents q).length) (hold : (contents q)[k]? = some head)
    (hx : InInt16 (head.x + S)) (hy : InInt16 (head.y + S)) :
    check_rect_overlap_snake GrRectOverlapCheck q S = some 1 := by
  have hwf := reachable_wellFormed q hreach
  rw [snake_result GrRectOverlapCheck q S hwf]
  unfold selfOverlap
  rw [hlast]
  simp only [Option.some.injEq]
  rw [overlapsAny_eq_one_iff]
  refine ⟨head, (mem_dropLast_iff _ head).2 ⟨k, hk, hold⟩, ?_⟩
  simp only [GrRectOverlapCheck, square, wrap16_of_inInt16 _ hx, wrap16_of_inInt16 _ hy]
  rw [if_neg (by omega)]
  decide

/-- Witness for C15: the history `(60, 60), (60, 60)` with `S = 9`. -/
theorem identical_squares_overlap_witness :
    Reachable twoSegments ∧ contents twoSegments = [⟨60, 60⟩, ⟨60, 60⟩] ∧
      check_rect_overlap_snake GrRectOverlapCheck twoSegments 9 = some 1 :=
  ⟨reachable_twoSegments, by decide,
    identical_squares_overlap twoSegments 9 ⟨60, 60⟩ 0 reachable_twoSegments (by decide)
      (by decide) (by decide) (by decide) (by decide) (by decide)⟩

/-- C16. Sentinel ambiguity: the queue reached by `enqueue(-1, -1)` from the empty
queue is non-empty, `dequeue` on it succeeds, removes its only element and
returns `(-1, -1)`; `dequeue` on the reachable empty queue returns the same
`(-1, -1)`.  Two calls, one successful and one an underflow, return the same
value. -/
theorem dequeue_sentinel_ambiguous :
    enqueue (Run.init zeroArray).q (-1) (-1) = some (sentinelSegment, 1) ∧
      Reachable sentinelSegment ∧ check_empty sentinelSegment = 0 ∧
      contents sentinelSegment = [⟨-1, -1⟩] ∧
      (∃ q', dequeue sentinelSegment = some (q', ⟨-1, -1⟩) ∧ contents q' = [] ∧
        check_empty q' = 1) ∧
      Reachable (Run.init zeroArray).q ∧ check_empty (Run.init zeroArray).q = 1 ∧
      dequeue (Run.init zeroArray).q = some ((Run.init zeroArray).q, ⟨-1, -1⟩) := by
  refine ⟨rfl, reachable_sentinelSegment, by decide, by decide, ?_,
    ⟨zeroArray, [], Run.init zeroArray, rfl, rfl⟩, by decide, rfl⟩
  exact ⟨{ front := -1, rear := -1, queue := sentinelSegment.queue }, rfl, by decide, by decide⟩

/-- C13. Point-overlap soundness: on every reachable queue, for every size `S`
and candidate rectangle, `check_rect_overlap_food` returns 0 or 1, and when it
returns 1 some stored coordinate's square satisfies `GrRectOverlapCheck` with the
candidate; consequently, under the grlib intersection test, when every stored
coordinate differs from the corner of the candidate square by more than `S` in
both x and y, the result is 0.  The candidate square has a side from 0 to `S` (the
side `S` of the segments, or the smaller side of the food), and all coordinates
are `int16_t` values. -/
theorem food_overlap_sound (ov : tRectangle → tRectangle → Int) (q : CircularQueue)
    (S : Int) (r : tRectangle) (hreach : Reachable q) :
    ∃ v, check_rect_overlap_food ov q S r = some v ∧ (v = 0 ∨ v = 1) ∧
      (v = 1 → ∃ c ∈ contents q, ov r (square c S) ≠ 0) ∧
      ∀ fx fy s : Int, 0 ≤ s → s ≤ S → InInt16 fx → InInt16 fy →
        (∀ c ∈ contents q, InInt16 c.x ∧ InInt16 c.y) →
        (∀ c ∈ contents q, S < |c.x - fx| ∧ S < |c.y - fy|) →
        check_rect_overlap_food GrRectOverlapCheck q S (square ⟨fx, fy⟩ s) = some 0 := by
  have hwf := reachable_wellFormed q hreach
  refine ⟨_, food_result ov q S r hwf, overlapsAny_zero_or_one _ _ _ _, ?_, ?_⟩
  · intro h1
    obtain ⟨c, hc, hov⟩ := (overlapsAny_eq_one_iff _ _ _ _).1 h1
    exact ⟨c, List.mem_of_mem_dropLast hc, hov⟩
  · intro fx fy s hs hsS hfx _ hrange hsep
    rw [food_result GrRectOverlapCheck q S _ hwf]
    rcases overlapsAny_zero_or_one GrRectOverlapCheck (square ⟨fx, fy⟩ s) S
      (contents q).dropLast with h0 | h1
    · rw [h0]
    · exfalso
      obtain ⟨c, hc, hov⟩ := (overlapsAny_eq_one_iff _ _ _ _).1 h1
      have hmem := List.mem_of_mem_dropLast hc
      obtain ⟨hcx, _⟩ := hrange c hmem
      obtain ⟨hsx, _⟩ := hsep c hmem
      apply hov
      unfold InInt16 at hfx hcx
      rcases lt_abs.1 hsx with hlt | hlt
      · have hw : wrap16 (fx + s) = fx + s := wrap16_of_inInt16 _ ⟨by omega, by omega⟩
        simp only [GrRectOverlapCheck, square, hw]
        rw [if_pos (Or.inl (by omega))]
      · have hw : wrap16 (c.x + S) = c.x + S := wrap16_of_inInt16 _ ⟨by omega, by omega⟩
        simp only [GrRectOverlapCheck, square, hw]
        rw [if_pos (Or.inr (Or.inl (by omega)))]

/-- Witness for C13: the history `(60, 60), (60, 60)` with `S = 9`; the candidate
squares of side 9 and of side 5 (the food of the game) at `(100, 100)` give 0. -/
theorem food_overlap_sound_witness :
    Reachable twoSegments ∧
      check_rect_overlap_food GrRectOverlapCheck twoSegments 9 (square ⟨100, 100⟩ 9) = some 0 ∧
      check_rect_overlap_food GrRectOverlapCheck twoSegments 9 (square ⟨100, 100⟩ 5) = some 0 ∧
      ∃ v, check_rect_overlap_food GrRectOverlapCheck twoSegments 9 (square ⟨100, 100⟩ 9) =
          some v ∧ (v = 0 ∨ v = 1) ∧
        (v = 1 → ∃ c ∈ contents twoSegments,
          GrRectOverlapCheck (square ⟨100, 100⟩ 9) (square c 9) ≠ 0) ∧
        ∀ fx fy s : Int, 0 ≤ s → s ≤ 9 → InInt16 fx → InInt16 fy →
          (∀ c ∈ contents twoSegments, InInt16 c.x ∧ InInt16 c.y) →
          (∀ c ∈ contents twoSegments, 9 < |c.x - fx| ∧ 9 < |c.y - fy|) →
          check_rect_overlap_food GrRectOverlapCheck twoSegments 9 (square ⟨fx, fy⟩ s) =
            some 0 :=
  ⟨reachable_twoSegments, by decide, by decide,
    food_overlap_sound GrRectOverlapCheck twoSegments 9 (square ⟨100, 100⟩ 9)
      reachable_twoSegments⟩

/-- C17. A cleared history is indistinguishable from a never-populated one: two
empty queue states `front = rear = -1` that differ only in the backing array
yield the same record of returned values under every finite sequence of calls
of `enqueue`, `dequeue`, `empty_queue`, `check_empty`, `check_full`,
`check_rect_overlap_food` and `check_rect_overlap_snake` with the same arguments;
the only call without a defined result is `check_rect_overlap_snake` (made on an
empty queue, where it reads the slot at index -1), and it is undefined in both
runs alike. -/
theorem cleared_indistinguishable (ov : tRectangle → tRectangle → Int)
    (a b : Fin QUEUESIZE → Coordinat) (calls : List Call) :
    observe ov { front := -1, rear := -1, queue := a } calls =
        observe ov { front := -1, rear := -1, queue := b } calls ∧
      ∀ k : Nat, (observe ov { front := -1, rear := -1, queue := a } calls)[k]? = some none →
        ∃ S, calls[k]? = some (Call.check_rect_overlap_snake S) := by
  apply sameLive_observe
  refine ⟨wellFormed_sentinel a, rfl, rfl, ?_⟩
  rw [contents_of_empty _ rfl, contents_of_empty _ rfl]

/-- C18 (code defect). With the joystick at rest and the food drawn at `(60, 60)`
in each of forty ticks, the food lands on the head and is eaten in every tick, and
the round loop is left by the victory test with the segment `(60, 60)` still
stored: `check_empty` is 0, and the `enqueue(60, 60)` that starts the next round
is applied to a non-empty queue.  The victory exit does not call `empty_queue`,
unlike the two death exits. -/
theorem victory_exit_keeps_queue :
    (play GrRectOverlapCheck programStart (List.replicate 40 (idle 60 60))).atRoundEnd =
        some (some Exit.victory, 0, 0, 1, some (QCall.enqueue 60 60 1)) ∧
      ((play GrRectOverlapCheck programStart (List.replicate 40 (idle 60 60))).game?.bind
          round_start).map (fun g => contents g.snake_queue) =
        some [⟨60, 60⟩, ⟨60, 60⟩] := by
  constructor <;> decide

/-- C19 (code defect). The forty ticks of `victoryLap` eat a food and grow the
snake in every tick; the round loop is left by the victory test with forty stored
coordinates, `check_full` is 1, and the `enqueue(60, 60)` that starts the next
round is made on the full queue and returns 0.  The cause is the victory exit,
which does not call `empty_queue`. -/
theorem enqueue_on_full_after_victory :
    (play GrRectOverlapCheck programStart victoryLap).atRoundEnd =
      some (some Exit.victory, 0, 1, 40, some (QCall.enqueue 60 60 0)) := by
  decide

/-- Counterexample for C20 as stated: six ticks to the left take the head from
`(60, 60)` to `(-6, 60)`, and `enqueue(-6, 60)` is called (and returns 1) before
the out-of-bounds test ends the round. -/
theorem negative_coordinate_enqueued :
    (play GrRectOverlapCheck programStart (List.replicate 6 goLeft)).game?.map
        (fun g => g.log) =
      some [QCall.enqueue 60 60 1,
        QCall.dequeue 0 ⟨60, 60⟩, QCall.enqueue 49 60 1,
        QCall.dequeue 0 ⟨49, 60⟩, QCall.enqueue 38 60 1,
        QCall.dequeue 0 ⟨38, 60⟩, QCall.enqueue 27 60 1,
        QCall.dequeue 0 ⟨27, 60⟩, QCall.enqueue 16 60 1,
        QCall.dequeue 0 ⟨16, 60⟩, QCall.enqueue 5 60 1,
        QCall.dequeue 0 ⟨5, 60⟩, QCall.enqueue (-6) 60 1,
        QCall.empty_queue] ∧
      ¬ (0 ≤ (-6 : Int)) := by
  constructor <;> decide

/-- C20, amended. In the Snake main loop, for every sequence of joystick readings
and food draws and every overlap test, the program never runs into undefined
behaviour, every coordinate passed to `enqueue` has `x >= -6` and `y >= -6`, and
at the top of the round loop and of the outer loop every stored coordinate has
`x >= 0` and `y >= 0`: a negative coordinate is enqueued only by the movement of
a tick whose out-of-bounds test, placed after the enqueue, then empties the
queue. -/
theorem enqueued_coordinates_bounded (ov : tRectangle → tRectangle → Int)
    (a : Fin QUEUESIZE → Coordinat) (body food : tRectangle) (inputs : List Input) :
    ∃ g, (play ov (Ctl.start none (Game.init a body food)) inputs).game? = some g ∧
      (∀ x y r, QCall.enqueue x y r ∈ g.log → -6 ≤ x ∧ -6 ≤ y) ∧
      ((∀ g', play ov (Ctl.start none (Game.init a body food)) inputs ≠ Ctl.waiting g') →
        ∀ c ∈ contents g.snake_queue, 0 ≤ c.x ∧ 0 ≤ c.y) := by
  have hinit : CtlInv (Ctl.start none (Game.init a body food)) := by
    refine ⟨wellFormed_sentinel a, ?_, ?_⟩
    · intro x y r h
      cases h
    · intro c hc
      rw [show contents (Game.init a body food).snake_queue = [] from
        contents_of_empty _ rfl] at hc
      cases hc
  have h := play_inv ov inputs _ hinit
  cases hp : play ov (Ctl.start none (Game.init a body food)) inputs with
  | start e g =>
    rw [hp] at h
    exact ⟨g, rfl, h.2.1, fun _ => h.2.2⟩
  | round g =>
    rw [hp] at h
    exact ⟨g, rfl, h.log, fun _ => h.stored⟩
  | waiting g =>
    rw [hp] at h
    exact ⟨g, rfl, h, fun hne => absurd rfl (hne g)⟩
  | undefined =>
    rw [hp] at h
    exact absurd h (by simp [CtlInv])

/-- C21. Well-formedness invariant: every sequence of `enqueue`, `dequeue` and
`empty_queue` calls from `front = rear = -1` runs to completion in a state with
either `front = rear = -1` or both indices in `0 .. QUEUESIZE - 1`; hence
`front = -1` iff `rear = -1`, `check_empty` and `check_full` are not both 1, and
the array index used by a further `enqueue` or `dequeue` is within bounds, so
that both calls have a defined result. -/
theorem reachable_states_well_formed (a : Fin QUEUESIZE → Coordinat) (ops : List Op) :
    ∃ s, exec (Run.init a) ops = some s ∧
      ((s.q.front = -1 ∧ s.q.rear = -1) ∨
        (0 ≤ s.q.front ∧ s.q.front < (QUEUESIZE : Int) ∧
          0 ≤ s.q.rear ∧ s.q.rear < (QUEUESIZE : Int))) ∧
      (s.q.front = -1 ↔ s.q.rear = -1) ∧
      ¬ (check_empty s.q = 1 ∧ check_full s.q = 1) ∧
      (check_full s.q = 0 →
        ∃ i, slot? (Int.tmod (s.q.rear + 1) (QUEUESIZE : Int)) = some i) ∧
      (check_empty s.q = 0 → ∃ i, slot? s.q.front = some i) ∧
      (∀ x y, ∃ q' r, enqueue s.q x y = some (q', r)) ∧
      ∃ q' c, dequeue s.q = some (q', c) := by
  obtain ⟨s, hs, ⟨hwf, _⟩, _⟩ := exec_inv ops (Run.init a) (runInv_init a)
  have hb := wellFormed_bounds s.q hwf
  refine ⟨s, hs, hwf, ?_, ?_, ?_, ?_, ?_, ?_⟩
  · rcases hb with ⟨hf, hr⟩ | ⟨h0, _, h2, _⟩
    · simp [hf, hr]
    · constructor <;> intro h <;> omega
  · rintro ⟨he, hfull⟩
    have hf : s.q.front = -1 := by
      by_contra hne
      simp [check_empty, hne] at he
    have := front_ne_of_full s.q hwf hfull
    exact this hf
  · intro _
    have hr : 0 ≤ s.q.rear + 1 := by
      rcases hb with ⟨_, hr⟩ | ⟨_, _, h2, _⟩ <;> omega
    rw [tmod_queuesize _ hr]
    exact ⟨_, slot?_eq_some _ (by omega) (by omega)⟩
  · intro he
    have hne := nonempty_of_check_empty s.q he
    have hb' := nonempty_bounds s.q hwf hne
    exact ⟨_, slot?_eq_some _ hb'.1 hb'.2.1⟩
  · intro x y
    rcases check_full_zero_or_one s.q with hnf | hfull
    · exact ⟨_, _, enqueue_eq s.q x y hwf hnf⟩
    · exact ⟨_, _, enqueue_of_full s.q x y hfull⟩
  · by_cases hf : s.q.front = -1
    · exact ⟨_, _, dequeue_of_empty s.q hf⟩
    · exact ⟨_, _, dequeue_eq s.q hwf hf⟩

/-- C22. The overlap scans terminate and stay in bounds: the recorded loop has
the results of the loops of `check_rect_overlap_food` and
`check_rect_overlap_snake`; on a well-formed queue holding `n >= 1` coordinates
both queries return a value after at most `n - 1 <= QUEUESIZE - 1` passes
through the loop body, every index read lies in `0 .. QUEUESIZE - 1` (the slot at
`rear` read for the head included), and on an empty queue the loops end with 0
after zero passes. -/
theorem overlap_scans_terminate (ov : tRectangle → tRectangle → Int) (q : CircularQueue)
    (S : Int) (r : tRectangle) (hwf : WellFormed q) :
    (∀ (r' : tRectangle) (fuel : Nat) (temp : Int),
      (traced_loop ov q S r' fuel temp).map Prod.fst = food_loop ov q S r' fuel temp ∧
      (traced_loop ov q S r' fuel temp).map Prod.fst = snake_loop ov q S r' fuel temp) ∧
    (1 ≤ count q →
      count q - 1 ≤ QUEUESIZE - 1 ∧
      (∃ v reads, traced_loop ov q S r QUEUESIZE q.front = some (v, reads) ∧
        check_rect_overlap_food ov q S r = some v ∧
        reads.length ≤ count q - 1 ∧ ∀ t ∈ reads, 0 ≤ t ∧ t < (QUEUESIZE : Int)) ∧
      ∃ i v reads, slot? q.rear = some i ∧
        traced_loop ov q S (square (q.queue i) S) QUEUESIZE q.front = some (v, reads) ∧
        check_rect_overlap_snake ov q S = some v ∧
        reads.length ≤ count q - 1 ∧ ∀ t ∈ reads, 0 ≤ t ∧ t < (QUEUESIZE : Int)) ∧
    (count q = 0 →
      traced_loop ov q S r QUEUESIZE q.front = some (0, []) ∧
      food_loop ov q S r QUEUESIZE q.front = some 0 ∧
      snake_loop ov q S r QUEUESIZE q.front = some 0) := by
  refine ⟨fun r' fuel temp => ⟨traced_loop_fst ov q S r' fuel temp, ?_⟩, ?_, ?_⟩
  · rw [snake_loop_eq_food_loop]
    exact traced_loop_fst ov q S r' fuel temp
  · intro hn
    have hne : q.front ≠ -1 := by
      intro hf
      simp [count, hf] at hn
    have hb := nonempty_bounds q hwf hne
    have hle := count_le q
    refine ⟨by simp only [QUEUESIZE]; omega, ?_, ?_⟩
    · obtain ⟨v, reads, ht, hlen, hin⟩ := traced_loop_wellFormed ov q S r hwf hne
      refine ⟨v, reads, ht, ?_, hlen, hin⟩
      have h := traced_loop_fst ov q S r QUEUESIZE q.front
      rw [ht] at h
      exact h.symm
    · obtain ⟨v, reads, ht, hlen, hin⟩ :=
        traced_loop_wellFormed ov q S (square (q.queue (wrapSlot q.rear)) S) hwf hne
      refine ⟨wrapSlot q.rear, v, reads, slot?_eq_some _ hb.2.2.1 hb.2.2.2, ht, ?_, hlen, hin⟩
      have h := traced_loop_fst ov q S (square (q.queue (wrapSlot q.rear)) S) QUEUESIZE q.front
      rw [ht] at h
      unfold check_rect_overlap_snake snake_head
      rw [slot?_eq_some _ hb.2.2.1 hb.2.2.2]
      simp only
      rw [snake_loop_eq_food_loop]
      exact h.symm
  · intro hn
    have hf : q.front = -1 := by
      by_contra hne
      simp [count, hne] at hn
    have hr := rear_of_empty q hwf hf
    have h1 : traced_loop ov q S r QUEUESIZE q.front = some (0, []) := by
      unfold traced_loop
      rw [if_neg (by simp [hf, hr])]
    have h2 := traced_loop_fst ov q S r QUEUESIZE q.front
    rw [h1] at h2
    refine ⟨h1, h2.symm, ?_⟩
    rw [snake_loop_eq_food_loop]
    exact h2.symm

/-- Witness for C22: the two-segment history `(60, 60), (60, 60)` with size 9. -/
theorem overlap_scans_terminate_witness :
    WellFormed twoSegments ∧ count twoSegments = 2 ∧
      traced_loop GrRectOverlapCheck twoSegments 9 (square ⟨100, 100⟩ 9) QUEUESIZE
          twoSegments.front = some (0, [0]) ∧
      ((1 ≤ count twoSegments →
        count twoSegments - 1 ≤ QUEUESIZE - 1 ∧
        (∃ v reads, traced_loop GrRectOverlapCheck twoSegments 9 (square ⟨100, 100⟩ 9)
            QUEUESIZE twoSegments.front = some (v, reads) ∧
          check_rect_overlap_food GrRectOverlapCheck twoSegments 9 (square ⟨100, 100⟩ 9) =
            some v ∧
          reads.length ≤ count twoSegments - 1 ∧
          ∀ t ∈ reads, 0 ≤ t ∧ t < (QUEUESIZE : Int)) ∧
        ∃ i v reads, slot? twoSegments.rear = some i ∧
          traced_loop GrRectOverlapCheck twoSegments 9 (square (twoSegments.queue i) 9)
            QUEUESIZE twoSegments.front = some (v, reads) ∧
          check_rect_overlap_snake GrRectOverlapCheck twoSegments 9 = some v ∧
          reads.length ≤ count twoSegments - 1 ∧
          ∀ t ∈ reads, 0 ≤ t ∧ t < (QUEUESIZE : Int))) :=
  ⟨reachable_wellFormed _ reachable_twoSegments, by decide, by decide,
    (overlap_scans_terminate GrRectOverlapCheck twoSegments 9 (square ⟨100, 100⟩ 9)
      (reachable_wellFormed _ reachable_twoSegments)).2.1⟩

/-- C23. The two overlap queries use one boundary convention: on every
well-formed non-empty queue and for every size `S`, `check_rect_overlap_snake`
returns a value, the same as `check_rect_overlap_food` called with the square of
side `S` at the coordinate stored at `rear`, whatever `GrRectOverlapCheck` is. -/
theorem overlap_queries_agree (ov : tRectangle → tRectangle → Int) (q : CircularQueue)
    (S : Int) (hwf : WellFormed q) (hne : q.front ≠ -1) :
    ∃ i v, slot? q.rear = some i ∧ check_rect_overlap_snake ov q S = some v ∧
      check_rect_overlap_food ov q S (square (q.queue i) S) = some v := by
  have hb := nonempty_bounds q hwf hne
  have hfood := food_result ov q S (square (q.queue (wrapSlot q.rear)) S) hwf
  refine ⟨wrapSlot q.rear, _, slot?_eq_some _ hb.2.2.1 hb.2.2.2, ?_, hfood⟩
  unfold check_rect_overlap_food at hfood
  unfold check_rect_overlap_snake snake_head
  rw [slot?_eq_some _ hb.2.2.1 hb.2.2.2]
  simp only
  rw [snake_loop_eq_food_loop]
  exact hfood

/-- Witness for C23: the edge-touching squares `(10, 10), (19, 10)` with `S = 9`
get the verdict 1 from both queries under the grlib test. -/
theorem overlap_queries_agree_witness :
    WellFormed touchingSegments ∧ touchingSegments.front ≠ -1 ∧
      contents touchingSegments = [⟨10, 10⟩, ⟨19, 10⟩] ∧
      check_rect_overlap_snake GrRectOverlapCheck touchingSegments 9 = some 1 ∧
      check_rect_overlap_food GrRectOverlapCheck touchingSegments 9 (square ⟨19, 10⟩ 9) =
        some 1 ∧
      ∃ i v, slot? touchingSegments.rear = some i ∧
        check_rect_overlap_snake GrRectOverlapCheck touchingSegments 9 = some v ∧
        check_rect_overlap_food GrRectOverlapCheck touchingSegments 9
          (square (touchingSegments.queue i) 9) = some v :=
  ⟨reachable_wellFormed _ reachable_touchingSegments, by decide, by decide, by decide,
    by decide,
    overlap_queries_agree GrRectOverlapCheck touchingSegments 9
      (reachable_wellFormed _ reachable_touchingSegments) (by decide)⟩

/-- C25. `check_rect_overlap_food` never tests the head: on every well-formed
queue, for every size `S` and candidate rectangle, it returns a value that is 1
if and only if the square of some coordinate strictly older than the rear
satisfies `GrRectOverlapCheck` with the candidate, and 0 otherwise; replacing the
coordinate stored at `rear` by any other does not change the result; and on an
empty or single-element queue the result is 0. -/
theorem food_overlap_ignores_rear (ov : tRectangle → tRectangle → Int) (q : CircularQueue)
    (S : Int) (r : tRectangle) (hwf : WellFormed q) :
    ∃ v, check_rect_overlap_food ov q S r = some v ∧
      (v = 1 ↔ ∃ k c, k + 1 < (contents q).length ∧ (contents q)[k]? = some c ∧
        ov r (square c S) ≠ 0) ∧
      (v ≠ 1 → v = 0) ∧
      (q.front ≠ -1 → ∀ c' : Coordinat,
        check_rect_overlap_food ov
          { q with queue := Function.update q.queue (wrapSlot q.rear) c' } S r = some v) ∧
      ((contents q).length ≤ 1 → v = 0) := by
  refine ⟨_, food_result ov q S r hwf, ?_, ?_, ?_, ?_⟩
  · rw [overlapsAny_eq_one_iff]
    constructor
    · rintro ⟨c, hc, hov⟩
      obtain ⟨k, hk, hkc⟩ := (mem_dropLast_iff _ c).1 hc
      exact ⟨k, c, hk, hkc, hov⟩
    · rintro ⟨k, c, hk, hkc, hov⟩
      exact ⟨c, (mem_dropLast_iff _ c).2 ⟨k, hk, hkc⟩, hov⟩
  · intro h
    rcases overlapsAny_zero_or_one ov r S (contents q).dropLast with h0 | h1
    · exact h0
    · exact absurd h1 h
  · intro hne c'
    have hwf' : WellFormed ({ q with queue := Function.update q.queue (wrapSlot q.rear) c' } :
        CircularQueue) := hwf
    rw [food_result ov _ S r hwf', dropLast_contents_update_rear q hwf hne c']
  · intro hlen
    have hnil : (contents q).dropLast = [] := by
      apply List.eq_nil_of_length_eq_zero
      rw [List.length_dropLast]
      omega
    rw [hnil]
    exact overlapsAny_nil ov r S

/-- Witness for C25: on the history `(60, 60), (60, 60)` a candidate at `(60, 60)`
is reported through the older coordinate, and the result stays 1 when the
coordinate at `rear` is replaced by `(0, 0)`. -/
theorem food_overlap_ignores_rear_witness :
    WellFormed twoSegments ∧
      check_rect_overlap_food GrRectOverlapCheck twoSegments 9 (square ⟨60, 60⟩ 9) = some 1 ∧
      ∃ v, check_rect_overlap_food GrRectOverlapCheck twoSegments 9 (square ⟨60, 60⟩ 9) =
          some v ∧
        (v = 1 ↔ ∃ k c, k + 1 < (contents twoSegments).length ∧
          (contents twoSegments)[k]? = some c ∧
          GrRectOverlapCheck (square ⟨60, 60⟩ 9) (square c 9) ≠ 0) ∧
        (v ≠ 1 → v = 0) ∧
        (twoSegments.front ≠ -1 → ∀ c' : Coordinat,
          check_rect_overlap_food GrRectOverlapCheck
            { twoSegments with
              queue := Function.update twoSegments.queue (wrapSlot twoSegments.rear) c' }
            9 (square ⟨60, 60⟩ 9) = some v) ∧
        ((contents twoSegments).length ≤ 1 → v = 0) :=
  ⟨reachable_wellFormed _ reachable_twoSegments, by decide,
    food_overlap_ignores_rear GrRectOverlapCheck twoSegments 9 (square ⟨60, 60⟩ 9)
      (reachable_wellFormed _ reachable_twoSegments)⟩

/-- C27. The legacy `check_overlap` is degenerate: on every well-formed queue
with at least two stored coordinates and for every size of at least 1 it returns
1 whatever the coordinates are, and on every single-element or empty queue it
returns 0. -/
theorem check_overlap_degenerate (q : CircularQueue) (size : Int) (hwf : WellFormed q) :
    (2 ≤ count q → 1 ≤ size → check_overlap q size = some 1) ∧
      (count q ≤ 1 → check_overlap q size = some 0) := by
  constructor
  · intro hn hsize
    have hne : q.front ≠ -1 := by
      intro hf
      simp [count, hf] at hn
    have hb := nonempty_bounds q hwf hne
    have hc := count_eq q
    rw [if_neg hne] at hc
    have hfr : q.front ≠ q.rear := by
      intro h
      rw [h] at hc
      simp only [sub_self, Int.zero_emod, zero_add] at hc
      omega
    unfold check_overlap check_overlap_loop
    rw [if_pos hfr]
    simp only
    rw [tmod_queuesize _ (by omega), slot?_eq_some _ hb.1 hb.2.1,
      slot?_eq_some ((q.front + 1) % 40) (by omega) (by omega)]
    simp only
    rw [if_pos (by omega)]
  · intro hn
    have hfr := front_eq_rear_of_count_le_one q hwf hn
    unfold check_overlap check_overlap_loop
    rw [if_neg (by simp [hfr])]

/-- Witness for C27: two segments give 1, one segment gives 0. -/
theorem check_overlap_degenerate_witness :
    WellFormed touchingSegments ∧ count touchingSegments = 2 ∧
      check_overlap touchingSegments 9 = some 1 ∧ check_overlap oneSegment 9 = some 0 ∧
      ((2 ≤ count touchingSegments → (1 : Int) ≤ 9 → check_overlap touchingSegments 9 = some 1) ∧
        (count touchingSegments ≤ 1 → check_overlap touchingSegments 9 = some 0)) :=
  ⟨reachable_wellFormed _ reachable_touchingSegments, by decide, by decide, by decide,
    check_overlap_degenerate touchingSegments 9
      (reachable_wellFormed _ reachable_touchingSegments)⟩

/-- C30. The LED duty cycle stays a percentage: starting from `k = 50`, after
every sequence of polls with any combination of left and right presses `k` lies
in `0 .. 100` and the PWM pulse width was set only from values with
`1 <= k <= 99`; on a value in `0 .. 100` a left press decrements `k` by 1 unless
`k = 0`, a right press increments it by 1 unless `k = 100`, a pass without a
press leaves it unchanged, and a pass with both presses applies the left press
and then the right press. -/
theorem duty_cycle_stays_percentage (polls : List Poll) :
    0 ≤ (poll_loop 50 polls).1 ∧ (poll_loop 50 polls).1 ≤ 100 ∧
      (∀ k', LedAction.pulse_width k' ∈ (poll_loop 50 polls).2 → 1 ≤ k' ∧ k' ≤ 99) ∧
      ∀ k : Int, 0 ≤ k → k ≤ 100 →
        left_press k = (if k = 0 then 0 else k - 1) ∧
        right_press k = (if k = 100 then 100 else k + 1) ∧
        (poll_step k ⟨true, false⟩).1 = left_press k ∧
        (poll_step k ⟨false, true⟩).1 = right_press k ∧
        (poll_step k ⟨false, false⟩).1 = k ∧
        (poll_step k ⟨true, true⟩).1 = right_press (left_press k) ∧
        ∀ p : Poll, (poll_step k p).2 = led_update (poll_step k p).1 ∧
          ((∃ k', (poll_step k p).2 = LedAction.pulse_width k') ↔
            (1 ≤ (poll_step k p).1 ∧ (poll_step k p).1 ≤ 99)) := by
  obtain ⟨h0, h1, h2⟩ := poll_loop_range polls 50 (by decide) (by decide)
  refine ⟨h0, h1, h2, ?_⟩
  intro k hk0 hk1
  refine ⟨?_, ?_, rfl, rfl, rfl, rfl, ?_⟩
  · unfold left_press wrap8
    split <;> split <;> omega
  · unfold right_press wrap8
    split <;> split <;> omega
  · intro p
    refine ⟨rfl, ?_⟩
    constructor
    · rintro ⟨k', hk'⟩
      exact (led_update_pulse _ _ hk').2
    · rintro ⟨hlo, hhi⟩
      refine ⟨(poll_step k p).1, ?_⟩
      show led_update (poll_step k p).1 = _
      unfold led_update
      rw [if_neg (by omega), if_neg (by omega), if_pos ⟨hlo, hhi⟩]

/-- C28: for a base `b` from 2 to 36 and a 32-bit `num` that is non-negative, or
negative, above `INT_MIN` and with `b = 10`, the call `itoa(num, str, b)` on a
buffer with room for the numeral and its terminator returns, leaves the numeral of
`num` (an optional `-`, then the base-`b` digits of `|num|`, most significant
first, `0` alone for zero) at the start of the buffer, followed by a NUL; the
numeral contains no NUL, and reading it in base `b` gives `num` back. -/
theorem itoa_round_trip (num : Int) (str : CharBuf) (b : Nat) (hb : 2 ≤ b) (hb36 : b ≤ 36)
    (hnum : InInt32 num)
    (hcase : 0 ≤ num ∨ (num < 0 ∧ -2147483648 < num ∧ b = 10))
    (hsize : (numeral b num).length < str.size) :
    ∃ out, itoa num str (b : Int) = some out ∧ out.size = str.size ∧
      out.firstChars (numeral b num).length = numeral b num ∧
      out.chars (numeral b num).length = 0 ∧
      (∀ c ∈ numeral b num, c ≠ 0) ∧
      parseNumeral b (numeral b num) = some num := by
  obtain ⟨hnul, hparse⟩ := numeral_facts b hb hb36 num
  by_cases h0 : num = 0
  · subst h0
    have hz : numeral b 0 = [48] := rfl
    rw [hz] at hsize
    obtain ⟨out, hout, hsz, hc0, hc1⟩ := itoa_zero_case str b hsize
    refine ⟨out, hout, hsz, ?_, ?_, hnul, hparse⟩
    · apply firstChars_eq
      intro k hk
      rw [hz] at hk ⊢
      have hk0 : k = 0 := by simpa using hk
      subst hk0
      exact hc0
    · rw [hz]
      exact hc1
  · obtain ⟨out, hout, hsz, hchars, hend⟩ := itoa_nonzero num str b hb hb36 h0 hnum hcase hsize
    exact ⟨out, hout, hsz, firstChars_eq out _ hchars, hend, hnul, hparse⟩

/-- Witness for C28: `itoa(-123, str, 10)` on a buffer of 34 characters. -/
theorem itoa_round_trip_witness :
    numeral 10 (-123) = [45, 49, 50, 51] ∧
    ∃ out, itoa (-123) emptyBuf ((10 : Nat) : Int) = some out ∧ out.size = emptyBuf.size ∧
      out.firstChars (numeral 10 (-123)).length = numeral 10 (-123) ∧
      out.chars (numeral 10 (-123)).length = 0 ∧
      (∀ c ∈ numeral 10 (-123), c ≠ 0) ∧
      parseNumeral 10 (numeral 10 (-123)) = some (-123) :=
  ⟨by simp [numeral, digitCode, digitChars],
   itoa_round_trip (-123) emptyBuf 10 (by decide) (by decide) (by decide)
    (Or.inr (by decide)) (by simp [numeral, emptyBuf])⟩

/-- Counterexample for C24 as stated: after five ticks to the left the round loop
is at its top with the single stored coordinate `(5, 60)`, a queue that is not full
and `skip_dequeue = 0`.  The next tick to the left selects a direction, and the
queue calls of that tick are a `dequeue`, an `enqueue` and then the `empty_queue`
of the out-of-bounds test, which ends the round: the number of stored coordinates
goes from 1 to 0. -/
theorem death_tick_empties_queue :
    (play GrRectOverlapCheck programStart fiveLeft).roundTop.map
        (fun g => (g.skip_dequeue, check_full g.snake_queue, count g.snake_queue,
          decide (goLeft.joystick_val_hor < 30),
          (tick GrRectOverlapCheck g goLeft).ctl.exit?,
          (tick GrRectOverlapCheck g goLeft).ctl.game?.map
            (fun g' => (g'.log.drop g.log.length, count g'.snake_queue)))) =
      some (0, 0, 1, true, some Exit.out_of_bound,
        some ([QCall.dequeue 0 ⟨5, 60⟩, QCall.enqueue (-6) 60 1, QCall.empty_queue], 0)) := by
  rfl

/-- C24, amended. Growth per movement tick in the Snake loop: at every state that a
run of the program reaches at the top of the round loop with a queue that is not
full, when a direction is selected by the 70 / 30 thresholds the movement section
of the tick returns with `skip_dequeue = 0`; if `skip_dequeue` was 0 it made
exactly one `dequeue` and then one successful `enqueue` of the new corner of
`snake_body`, the oldest coordinate is replaced by the new one at the other end and
the number of stored coordinates is unchanged; if `skip_dequeue` was not 0 (it is
only ever set to 1) it made only the successful `enqueue`, and the number of stored
coordinates grows by exactly one.  When no direction is selected the movement
section changes nothing.  The rest of the tick makes no queue call and leaves the
queue as the movement left it, unless the round ends by the out-of-bounds or the
self-collision test: then the one further call is `empty_queue`, and no coordinate
is stored any more. -/
theorem movement_growth (ov : tRectangle → tRectangle → Int)
    (a : Fin QUEUESIZE → Coordinat) (body food : tRectangle) (inputs : List Input)
    (g : Game) (i : Input)
    (hreach : (play ov (Ctl.start none (Game.init a body food)) inputs).roundTop = some g)
    (hnf : check_full g.snake_queue = 0) :
    ((i.joystick_val_ver > 70 ∨ i.joystick_val_hor > 70 ∨
        i.joystick_val_ver < 30 ∨ i.joystick_val_hor < 30) →
      ∃ g1, movement g i.joystick_val_ver i.joystick_val_hor = some g1 ∧
        g1.skip_dequeue = 0 ∧
        (g.skip_dequeue = 0 → ∃ c rest, contents g.snake_queue = c :: rest ∧
          contents g1.snake_queue = rest ++ [⟨g1.snake_body.i16XMin, g1.snake_body.i16YMin⟩] ∧
          g1.log = g.log ++ [QCall.dequeue 0 c,
            QCall.enqueue g1.snake_body.i16XMin g1.snake_body.i16YMin 1] ∧
          count g1.snake_queue = count g.snake_queue) ∧
        (g.skip_dequeue ≠ 0 →
          contents g1.snake_queue =
            contents g.snake_queue ++ [⟨g1.snake_body.i16XMin, g1.snake_body.i16YMin⟩] ∧
          g1.log = g.log ++ [QCall.enqueue g1.snake_body.i16XMin g1.snake_body.i16YMin 1] ∧
          count g1.snake_queue = count g.snake_queue + 1)) ∧
    (¬ (i.joystick_val_ver > 70 ∨ i.joystick_val_hor > 70 ∨
        i.joystick_val_ver < 30 ∨ i.joystick_val_hor < 30) →
      movement g i.joystick_val_ver i.joystick_val_hor = some g) ∧
    (∀ g', (tick ov g i = Outcome.next g' ∨ tick ov g i = Outcome.exit Exit.victory g' ∨
        tick ov g i = Outcome.waiting g') →
      ∃ g1, movement g i.joystick_val_ver i.joystick_val_hor = some g1 ∧
        g'.snake_queue = g1.snake_queue ∧ g'.log = g1.log) ∧
    (∀ e g', tick ov g i = Outcome.exit e g' → e ≠ Exit.victory →
      ∃ g1, movement g i.joystick_val_ver i.joystick_val_hor = some g1 ∧
        g'.log = g1.log ++ [QCall.empty_queue] ∧ count g'.snake_queue = 0) := by
  have hinit : CtlInv (Ctl.start none (Game.init a body food)) := by
    refine ⟨wellFormed_sentinel a, ?_, ?_⟩
    · intro x y r h
      cases h
    · intro c hc
      rw [show contents (Game.init a body food).snake_queue = [] from
        contents_of_empty _ rfl] at hc
      cases hc
  have hinv := roundTop_roundInv _ g (play_inv ov inputs _ hinit) hreach
  have hwf := hinv.wf
  have hne := hinv.nonempty
  refine ⟨?_, movement_none g _ _, fun g' h => tick_keeps_queue ov g g' i h,
    fun e g' h he => tick_death ov g g' i e h he⟩
  intro hdir
  obtain ⟨body', hbody⟩ := movement_eq_move g _ _ hdir
  obtain ⟨h0, h1⟩ := move_spec g body' hwf hne
  by_cases hskip : g.skip_dequeue = 0
  · obtain ⟨g1, c, rest, hm, hc, hc1, hcount, hlog, hs, hb⟩ := h0 hskip
    refine ⟨g1, by rw [hbody, hm], hs, fun _ => ⟨c, rest, hc, ?_, ?_, hcount⟩,
      fun h => absurd hskip h⟩
    · rw [hb]
      exact hc1
    · rw [hb]
      exact hlog
  · obtain ⟨g1, hm, hc1, hcount, hlog, hs, hb⟩ := h1 hskip hnf
    refine ⟨g1, by rw [hbody, hm], hs, fun h => absurd h hskip, fun _ => ⟨?_, ?_, hcount⟩⟩
    · rw [hb]
      exact hc1
    · rw [hb]
      exact hlog

/-- Witness for C24, amended: after three ticks to the right with a food eaten in
each, the next tick to the right skips its dequeue. -/
theorem movement_growth_witness :
    ((play GrRectOverlapCheck (Ctl.start none (Game.init zeroArray ⟨0, 0, 0, 0⟩ ⟨0, 0, 0, 0⟩))
        threeRight).roundTop = some threeLong ∧
      check_full threeLong.snake_queue = 0 ∧ threeLong.skip_dequeue = 1) ∧
    (((goRight 104 60).joystick_val_ver > 70 ∨ (goRight 104 60).joystick_val_hor > 70 ∨
        (goRight 104 60).joystick_val_ver < 30 ∨ (goRight 104 60).joystick_val_hor < 30) →
      ∃ g1, movement threeLong (goRight 104 60).joystick_val_ver
          (goRight 104 60).joystick_val_hor = some g1 ∧
        g1.skip_dequeue = 0 ∧
        (threeLong.skip_dequeue = 0 → ∃ c rest, contents threeLong.snake_queue = c :: rest ∧
          contents g1.snake_queue = rest ++ [⟨g1.snake_body.i16XMin, g1.snake_body.i16YMin⟩] ∧
          g1.log = threeLong.log ++ [QCall.dequeue 0 c,
            QCall.enqueue g1.snake_body.i16XMin g1.snake_body.i16YMin 1] ∧
          count g1.snake_queue = count threeLong.snake_queue) ∧
        (threeLong.skip_dequeue ≠ 0 →
          contents g1.snake_queue =
            contents threeLong.snake_queue ++
              [⟨g1.snake_body.i16XMin, g1.snake_body.i16YMin⟩] ∧
          g1.log = threeLong.log ++
            [QCall.enqueue g1.snake_body.i16XMin g1.snake_body.i16YMin 1] ∧
          count g1.snake_queue = count threeLong.snake_queue + 1)) ∧
    (¬ ((goRight 104 60).joystick_val_ver > 70 ∨ (goRight 104 60).joystick_val_hor > 70 ∨
        (goRight 104 60).joystick_val_ver < 30 ∨ (goRight 104 60).joystick_val_hor < 30) →
      movement threeLong (goRight 104 60).joystick_val_ver
        (goRight 104 60).joystick_val_hor = some threeLong) ∧
    (∀ g', (tick GrRectOverlapCheck threeLong (goRight 104 60) = Outcome.next g' ∨
        tick GrRectOverlapCheck threeLong (goRight 104 60) = Outcome.exit Exit.victory g' ∨
        tick GrRectOverlapCheck threeLong (goRight 104 60) = Outcome.waiting g') →
      ∃ g1, movement threeLong (goRight 104 60).joystick_val_ver
          (goRight 104 60).joystick_val_hor = some g1 ∧
        g'.snake_queue = g1.snake_queue ∧ g'.log = g1.log) ∧
    (∀ e g', tick GrRectOverlapCheck threeLong (goRight 104 60) = Outcome.exit e g' →
      e ≠ Exit.victory →
      ∃ g1, movement threeLong (goRight 104 60).joystick_val_ver
          (goRight 104 60).joystick_val_hor = some g1 ∧
        g'.log = g1.log ++ [QCall.empty_queue] ∧ count g'.snake_queue = 0) :=
  ⟨⟨rfl, by decide, rfl⟩,
    movement_growth GrRectOverlapCheck zeroArray ⟨0, 0, 0, 0⟩ ⟨0, 0, 0, 0⟩ threeRight threeLong
      (goRight 104 60) rfl (by decide)⟩

/-- C26: self-collision in the game is exact coordinate equality.  The size passed
to `check_rect_overlap_snake` is `snake_body_size - snake_body_size = 0`, and with
the inclusive intersection test for `GrRectOverlapCheck`, at every state that a run
of the program reaches at the top of the round loop, a tick whose food loop ends
leaves the round by the self-collision test if and only if, after the movement of
that tick, the newest stored coordinate is equal to one of the older stored
coordinates. -/
theorem self_collision_exact (a : Fin QUEUESIZE → Coordinat) (body food : tRectangle)
    (inputs : List Input) (g : Game) (i : Input)
    (hreach : (play GrRectOverlapCheck (Ctl.start none (Game.init a body food))
      inputs).roundTop = some g)
    (hdone : ∀ g', tick GrRectOverlapCheck g i ≠ Outcome.waiting g') :
    snake_body_size - snake_body_size = 0 ∧
      ∃ g1, movement g i.joystick_val_ver i.joystick_val_hor = some g1 ∧
        ((∃ g', tick GrRectOverlapCheck g i = Outcome.exit Exit.self_overlap g') ↔
          ∃ c, (contents g1.snake_queue).getLast? = some c ∧
            c ∈ (contents g1.snake_queue).dropLast) := by
  have hinit : CtlInv (Ctl.start none (Game.init a body food)) := by
    refine ⟨wellFormed_sentinel a, ?_, ?_⟩
    · intro x y r h
      cases h
    · intro c hc
      rw [show contents (Game.init a body food).snake_queue = [] from
        contents_of_empty _ rfl] at hc
      cases hc
  have hfinit : CtlFresh (Ctl.start none (Game.init a body food)) := by
    intro c hc
    rw [show contents (Game.init a body food).snake_queue = [] from
      contents_of_empty _ rfl] at hc
    cases hc
  obtain ⟨hinv, hf⟩ := roundTop_inv _ g (play_inv GrRectOverlapCheck inputs _ hinit)
    (play_fresh inputs _ hinit hfinit) hreach
  obtain ⟨-, g1, hm, hiff⟩ := tick_fresh g i hinv hf
  exact ⟨rfl, g1, hm, hiff hdone⟩

/-- Witness for C26: after three ticks to the right with a food eaten in each, a
tick to the left puts the head on the coordinate `(82, 60)` stored two ticks
earlier, and the round ends by self-collision. -/
theorem self_collision_exact_witness :
    ((play GrRectOverlapCheck (Ctl.start none (Game.init zeroArray ⟨0, 0, 0, 0⟩ ⟨0, 0, 0, 0⟩))
        threeRight).roundTop = some threeLong ∧
      (tick GrRectOverlapCheck threeLong goLeft).ctl.exit? = some Exit.self_overlap) ∧
    snake_body_size - snake_body_size = 0 ∧
      ∃ g1, movement threeLong goLeft.joystick_val_ver goLeft.joystick_val_hor = some g1 ∧
        ((∃ g', tick GrRectOverlapCheck threeLong goLeft =
            Outcome.exit Exit.self_overlap g') ↔
          ∃ c, (contents g1.snake_queue).getLast? = some c ∧
            c ∈ (contents g1.snake_queue).dropLast) :=
  ⟨⟨rfl, by decide⟩,
    self_collision_exact zeroArray ⟨0, 0, 0, 0⟩ ⟨0, 0, 0, 0⟩ threeRight threeLong goLeft rfl
      (fun g' h => by
        have hx : (tick GrRectOverlapCheck threeLong goLeft).ctl.exit? =
            some Exit.self_overlap := by decide
        rw [h] at hx
        cases hx)⟩

end Lab2
